import Mathlib

set_option linter.unusedSectionVars false

/-!
# Verification of the einu-engine storage core

Shallow embedding of `einu-engine/core/util/object_pool.h` (FixedPool, DynamicPool)
and `einu-engine/core/internal/entity_manager.h` (EntityManager).

Conventions of the embedding.
* A C++ reference to a pool slot is the address of the slot in the first object
  array, counted in elements (an `Int`).  `FixedPool.data` is
  `std::get<0>(object_arr_tuple_).data()`.
* `assert` failures and undefined behaviour (indexing outside a container, null
  dereference) are explicit errors.
* `std::size_t` is `Nat`; sizes are bounded by the memory actually allocated, so
  no wrap-around is modelled.  The one narrowing cast of the source, `(unsigned)idx`
  in `Has`, is modelled as reduction modulo `2 ^ 32`.
* The heap allocator is an input: every operation that may allocate a sub-pool
  takes the address the allocator returns for the new object array.
-/

namespace einu
namespace util

/-- Failures of the pool operations: one constructor per `assert` of the source, and
`outOfRange` for an access outside a container (undefined behaviour in the source). -/
inductive PoolError
  | noObjectAvailable
  | objectAtPosNotAvailable
  | alreadyReleased
  | noPoolIsFree
  | notOwned
  | outOfRange
  deriving DecidableEq, Repr

/-- Modelled from the spec: `util::BitVector` of `einu-engine/core/util/bit.h`, which is
not among the sources.  A growable sequence of bits. -/
abbrev BitVector := List Bool

/-- The scan `std::find_if`, as the position of the first element that satisfies the
predicate, or nothing when there is none. -/
def find_if {β : Type} (P : β → Bool) : List β → Option Nat
  | [] => none
  | x :: xs => if P x then some 0 else (find_if P xs).map (· + 1)

/-- Modelled from the spec: `BitVector::countl_zero` of the missing `bit.h`.  The spec says
`FreePosition` "returns the lowest-index free slot, or nothing if full" through a
leading-zero-count scan of the bitmap: the index of the first set bit, if any. -/
def BitVector.countl_zero (b : BitVector) : Option Nat :=
  find_if id b

/-- The slot pool `FixedPool<Ts...>` / `FixedPoolImpl<Ts...>`.  The tuple of parallel object
arrays is one array of tuples `α`; `data` is the address of the first array. -/
structure FixedPool (α : Type) where
  data : Int
  object_arr_ : List α
  bit_arr_ : BitVector

namespace FixedPool

variable {α : Type}

/-- Constructor `FixedPoolImpl(count, value)`; `FixedPoolImpl(count)` is the same with the
value-initialised `value`. -/
def new (data : Int) (count : Nat) (value : α) : FixedPool α :=
  { data := data, object_arr_ := List.replicate count value,
    bit_arr_ := List.replicate count true }

/-- Source: `Size()` returns `bit_arr_.size()`. -/
def Size (p : FixedPool α) : Nat := p.bit_arr_.length

/-- Source: `FreePos()` returns `bit_arr_.countl_zero()`. -/
def FreePos (p : FixedPool α) : Option Nat := p.bit_arr_.countl_zero

/-- Source: `Has(obj)`: `idx = &obj - data; return 0 <= idx && (unsigned)idx < Size()`. -/
def Has (p : FixedPool α) (obj : Int) : Bool :=
  let idx := obj - p.data
  decide (0 ≤ idx) && decide ((idx % 2 ^ 32).toNat < p.Size)

/-- Source: `Acquire(pos_hint)`: asserts the bit at `pos_hint`, clears it and returns the
reference to slot `pos_hint`. -/
def AcquireAt (p : FixedPool α) (pos_hint : Nat) : Except PoolError (Int × FixedPool α) :=
  match p.bit_arr_[pos_hint]? with
  | none => .error .outOfRange
  | some false => .error .objectAtPosNotAvailable
  | some true =>
    .ok (p.data + (pos_hint : Int), { p with bit_arr_ := p.bit_arr_.set pos_hint false })

/-- Source: `Acquire()`: asserts that `FreePos()` has a value and acquires there. -/
def Acquire (p : FixedPool α) : Except PoolError (Int × FixedPool α) :=
  match p.FreePos with
  | none => .error .noObjectAvailable
  | some free_pos => p.AcquireAt free_pos

/-- Source: `Release(obj)`: `idx = &obj - data`, asserts that bit `idx` is clear, sets it. -/
def Release (p : FixedPool α) (obj : Int) : Except PoolError (FixedPool α) :=
  let idx := obj - p.data
  if idx < 0 then .error .outOfRange
  else
    match p.bit_arr_[idx.toNat]? with
    | none => .error .outOfRange
    | some true => .error .alreadyReleased
    | some false => .ok { p with bit_arr_ := p.bit_arr_.set idx.toNat true }

/-- The address `r` is the address of a slot of the backing storage of `p`. -/
def InRange (p : FixedPool α) (r : Int) : Prop :=
  p.data ≤ r ∧ r < p.data + (p.bit_arr_.length : Int)

/-- The address `r` is the address of a slot of `p` whose bit is clear (acquired). -/
def Occupied (p : FixedPool α) (r : Int) : Prop :=
  p.data ≤ r ∧ p.bit_arr_[(r - p.data).toNat]? = some false

/-- Number of set bits of the free-slot bitmap. -/
def freeCount (p : FixedPool α) : Nat := p.bit_arr_.count true

end FixedPool

/-- Source: `AllAcquired(pool)` is `!pool.FreePos().has_value()`. -/
def AllAcquired {α : Type} (pool : FixedPool α) : Bool := !pool.FreePos.isSome

/-- Source: `DefaultGrowth(pool_size)` is `pool_size == 0 ? 1 : pool_size`. -/
def DefaultGrowth (pool_size : Nat) : Nat := if pool_size = 0 then 1 else pool_size

/-- The growable pool `DynamicPool<Ts...>`. -/
structure DynamicPool (α : Type) where
  value_ : Option α
  growth_ : Nat → Nat
  pools_ : List (FixedPool α)
  pools_bit_array_ : BitVector

namespace DynamicPool

variable {α : Type} [Inhabited α]

/-- Source: `GrowExtra(delta_size)`: nothing for 0; otherwise appends one sub-pool of
`delta_size` slots (seeded with `*value_` when set) and resizes the summary bitmap to
`pools_bit_array_.size() + delta_size`, the new bits set.  `data` is the address the
allocator gives to the new object array. -/
def GrowExtra (s : DynamicPool α) (delta_size : Nat) (data : Int) : DynamicPool α :=
  if delta_size = 0 then s
  else
    { s with
      pools_ := s.pools_ ++ [match s.value_ with
                             | some v => FixedPool.new data delta_size v
                             | none => FixedPool.new data delta_size default],
      pools_bit_array_ := s.pools_bit_array_ ++ List.replicate delta_size true }

/-- Source: `SetGrowth(growth)`. -/
def SetGrowth (s : DynamicPool α) (growth : Nat → Nat) : DynamicPool α :=
  { s with growth_ := growth }

/-- Source: `SetValue(value)`. -/
def SetValue (s : DynamicPool α) (value : Option α) : DynamicPool α :=
  { s with value_ := value }

/-- Source: constructor `DynamicPool(count, value, growth)`:
`SetValue; SetGrowth; GrowExtra(count)`. -/
def new (count : Nat) (value : Option α) (growth : Nat → Nat) (data : Int) : DynamicPool α :=
  GrowExtra { value_ := value, growth_ := growth, pools_ := [], pools_bit_array_ := [] }
    count data

/-- Source: `Size()`: `std::accumulate` of the sub-pools' `Size()`. -/
def Size (s : DynamicPool α) : Nat :=
  s.pools_.foldl (fun acc pool => acc + pool.Size) 0

/-- Source: `PoolsAllAcquired()`: no sub-pool has a free position. -/
def PoolsAllAcquired (s : DynamicPool α) : Bool :=
  s.pools_.all AllAcquired

/-- The state in which `Acquire` scans the summary bitmap: after the conditional
`GrowExtra(growth_(Size()))`. -/
def grown (s : DynamicPool α) (data : Int) : DynamicPool α :=
  if s.PoolsAllAcquired then s.GrowExtra (s.growth_ s.Size) data else s

/-- Source: `Acquire()`: grows when every sub-pool is full, scans the summary bitmap,
acquires in the sub-pool found and refreshes its summary bit. -/
def Acquire (s : DynamicPool α) (data : Int) : Except PoolError (Int × DynamicPool α) :=
  let s1 := s.grown data
  match s1.pools_bit_array_.countl_zero with
  | none => .error .noPoolIsFree
  | some free_pos =>
    match s1.pools_[free_pos]? with
    | none => .error .outOfRange
    | some pool =>
      match pool.Acquire with
      | .error e => .error e
      | .ok (obj, pool1) =>
        .ok (obj, { s1 with
                    pools_ := s1.pools_.set free_pos pool1,
                    pools_bit_array_ :=
                      s1.pools_bit_array_.set free_pos pool1.FreePos.isSome })

/-- Source: `Release(obj)`: the first sub-pool whose `Has(obj)` holds releases the object,
and the summary bit of that sub-pool is set. -/
def Release (s : DynamicPool α) (obj : Int) : Except PoolError (DynamicPool α) :=
  match find_if (fun pool => pool.Has obj) s.pools_ with
  | none => .error .notOwned
  | some i =>
    match s.pools_[i]? with
    | none => .error .outOfRange
    | some pool =>
      match pool.Release obj with
      | .error e => .error e
      | .ok pool1 =>
        if i < s.pools_bit_array_.length then
          .ok { s with pools_ := s.pools_.set i pool1,
                       pools_bit_array_ := s.pools_bit_array_.set i true }
        else .error .outOfRange

/-- Source: `Clear()`. -/
def Clear (s : DynamicPool α) : DynamicPool α :=
  { s with value_ := none, growth_ := DefaultGrowth, pools_ := [], pools_bit_array_ := [] }

/-- The storage layout: for each sub-pool, in order, the address of its object array and its
number of slots. -/
def storage (s : DynamicPool α) : List (Int × Nat) :=
  s.pools_.map fun p => (p.data, p.bit_arr_.length)

/-- Position of an address inside the pool: the index of the first sub-pool whose storage
contains it and the slot index there. -/
def locate (s : DynamicPool α) (r : Int) : Option (Nat × Nat) :=
  (find_if (fun st : Int × Nat => decide (st.1 ≤ r) && decide (r < st.1 + (st.2 : Int)))
      s.storage).bind
    fun i => (s.storage[i]?).map fun st => (i, (r - st.1).toNat)

/-- Total number of free slots. -/
def freeCount (s : DynamicPool α) : Nat :=
  (s.pools_.map FixedPool.freeCount).sum

end DynamicPool

/-! ### Call sequences

A call sequence is run from a state paired with the list of references handed out
by `Acquire` and not yet passed to `Release` (the references currently held by callers). -/

/-- One call on a slot pool. -/
inductive FixedOp
  | acquire
  | acquireAt (pos_hint : Nat)
  | release (obj : Int)
  deriving DecidableEq, Repr

namespace FixedPool

variable {α : Type}

/-- Runs one call; the call must return normally (its assertion holds). -/
def step (st : FixedPool α × List Int) : FixedOp → Except PoolError (FixedPool α × List Int)
  | .acquire =>
    match st.1.Acquire with
    | .error e => .error e
    | .ok (r, p) => .ok (p, r :: st.2)
  | .acquireAt pos_hint =>
    match st.1.AcquireAt pos_hint with
    | .error e => .error e
    | .ok (r, p) => .ok (p, r :: st.2)
  | .release obj =>
    match st.1.Release obj with
    | .error e => .error e
    | .ok p => .ok (p, st.2.erase obj)

/-- Runs a call sequence, stopping at the first failing call. -/
def run (st : FixedPool α × List Int) : List FixedOp → Except PoolError (FixedPool α × List Int)
  | [] => .ok st
  | op :: ops =>
    match step st op with
    | .error e => .error e
    | .ok st1 => run st1 ops

end FixedPool

/-- One call on a growable pool.  `data` is the address the allocator returns if the call
allocates a sub-pool. -/
inductive DynOp (α : Type)
  | growExtra (delta_size : Nat) (data : Int)
  | acquire (data : Int)
  | release (obj : Int)
  | setGrowth (growth : Nat → Nat)
  | setValue (value : Option α)

namespace DynamicPool

variable {α : Type} [Inhabited α]

/-- The storage `[data, data + delta_size)` overlaps no existing sub-pool: what the heap
allocator guarantees for a new object array. -/
def freshAlloc (s : DynamicPool α) (delta_size : Nat) (data : Int) : Bool :=
  s.pools_.all fun p =>
    decide (data + (delta_size : Int) ≤ p.data) ||
      decide (p.data + (p.bit_arr_.length : Int) ≤ data)

/-- Runs one call.  The result is `none` when the call does not return normally (an
assertion fails, or a container is indexed out of range) or when the allocator address
given for a sub-pool overlaps storage that is still allocated. -/
def step (st : DynamicPool α × List Int) : DynOp α → Option (DynamicPool α × List Int)
  | .growExtra delta_size data =>
    if st.1.freshAlloc delta_size data then some (st.1.GrowExtra delta_size data, st.2)
    else none
  | .acquire data =>
    if st.1.PoolsAllAcquired && !st.1.freshAlloc (st.1.growth_ st.1.Size) data then none
    else
      match st.1.Acquire data with
      | .error _ => none
      | .ok (r, s) => some (s, r :: st.2)
  | .release obj =>
    match st.1.Release obj with
    | .error _ => none
    | .ok s => some (s, st.2.erase obj)
  | .setGrowth growth => some (st.1.SetGrowth growth, st.2)
  | .setValue value => some (st.1.SetValue value, st.2)

/-- Successive `Acquire()` calls, one for each allocator address of the list, with no other
call in between. -/
def acquireMany (s : DynamicPool α) : List Int → Except PoolError (DynamicPool α)
  | [] => .ok s
  | data :: ds =>
    match s.Acquire data with
    | .error e => .error e
    | .ok (_, s1) => acquireMany s1 ds

/-- Runs a call sequence. -/
def run (st : DynamicPool α × List Int) : List (DynOp α) → Option (DynamicPool α × List Int)
  | [] => some st
  | op :: ops =>
    match step st op with
    | none => none
    | some st1 => run st1 ops

end DynamicPool

/-! ### Concrete states used as test inputs -/

/-- A pool constructed with count 1 and the default growth, after one `Acquire`. -/
def exOneHeld : DynamicPool Unit :=
  ⟨none, DefaultGrowth, [⟨0, [()], [false]⟩], [false]⟩

/-- The state `exOneHeld` after a second `Acquire` (which grows by one slot at address 10)
and the release of the first reference. -/
def exGrown : DynamicPool Unit :=
  ⟨none, DefaultGrowth, [⟨0, [()], [true]⟩, ⟨10, [()], [false]⟩], [true, false]⟩

/-- A pool constructed with count 2 and a growth function that is constantly 0, after two
`Acquire` calls: its only sub-pool is full. -/
def exZeroGrowthFull : DynamicPool Unit :=
  ⟨none, fun _ => 0, [⟨0, [(), ()], [false, false]⟩], [false, true]⟩

/-- A pool constructed with count 2 and the default growth, after two `Acquire` calls. -/
def exTwoHeld : DynamicPool Unit :=
  ⟨none, DefaultGrowth, [⟨0, [(), ()], [false, false]⟩], [false, true]⟩

/-- The state `exTwoHeld` after the release of both references. -/
def exTwoFree : DynamicPool Unit :=
  ⟨none, DefaultGrowth, [⟨0, [(), ()], [true, true]⟩], [true, true]⟩

end util
end einu

/-! ## The entity manager -/

namespace einu
namespace util

/-- Reading through a pointer into the object arrays of a list of sub-pools: the object at
address `addr`, if `addr` is the address of a slot. -/
def readPools {α : Type} : List (FixedPool α) → Int → Option α
  | [], _ => none
  | p :: ps, addr =>
    if p.data ≤ addr ∧ addr < p.data + (p.bit_arr_.length : Int) then
      p.object_arr_[(addr - p.data).toNat]?
    else readPools ps addr

/-- Writing through a pointer into the object arrays of a list of sub-pools; `none` when
`addr` is not the address of a slot. -/
def writePools {α : Type} : List (FixedPool α) → Int → α → Option (List (FixedPool α))
  | [], _, _ => none
  | p :: ps, addr, v =>
    if p.data ≤ addr ∧ addr < p.data + (p.bit_arr_.length : Int) then
      if (addr - p.data).toNat < p.object_arr_.length then
        some ({ p with object_arr_ := p.object_arr_.set (addr - p.data).toNat v } :: ps)
      else none
    else (writePools ps addr v).map (p :: ·)

/-- Dereference of a slot reference of a growable pool. -/
def DynamicPool.readAt {α : Type} (s : DynamicPool α) (addr : Int) : Option α :=
  readPools s.pools_ addr

/-- Assignment through a slot reference of a growable pool. -/
def DynamicPool.writeAt {α : Type} (s : DynamicPool α) (addr : Int) (v : α) :
    Option (DynamicPool α) :=
  (writePools s.pools_ addr v).map fun ps => { s with pools_ := ps }

end util

namespace internal

open util

/-- Modelled from the spec: the entity identifier `EID` (an opaque token handed out by the
identifier allocator); its declaration is not among the sources. -/
abbrev EID := Nat

/-- Modelled from the spec: the component type index `XnentTypeID`, a small non-negative
integer; its declaration is not among the sources. -/
abbrev XnentTypeID := Nat

/-- The payload of one slot of `ett_data_pool_`, a `std::tuple<ComponentMask, XnentTable>`.
`ComponentMask` is `StaticXnentMask<max_comp>` (modelled from the spec as a bitset of fixed
width `max_comp`) and `XnentTable` is `std::array<Xnent*, max_comp>`; a pointer to a
component is its address, `none` is the null pointer. -/
structure EntityRecord (max_comp : Nat) where
  mask : Fin max_comp → Bool
  comp_table : Fin max_comp → Option Int

/-- Value-initialisation of a record: the mask all zero, the pointers all null. -/
instance (max_comp : Nat) : Inhabited (EntityRecord max_comp) :=
  ⟨⟨fun _ => false, fun _ => none⟩⟩

/-- Failures of the entity manager: the `assert`s of the source, the exception of
`std::map::at`, and undefined behaviour (dereference of a null pointer, index outside an
array, a pointer that is not the address of a slot). -/
inductive EMError
  | poolAlreadySet
  | nullPool
  | entityDoesNotExist
  | mapAt
  | noComponent
  | singlenentExists
  | nullDeref
  | typeOutOfRange
  | badPointer
  | pool (e : PoolError)
  deriving DecidableEq, Repr

/-- A call made on one of the external pools (`IEIDPool`, `IXnentPool`), with the value
exchanged.  The pools themselves are outside the entity manager: what an `Acquire` returns is
an input of the operation that calls it. -/
inductive ExtCall
  | eidAcquire (eid : EID)
  | eidRelease (eid : EID)
  | compAcquire (tid : XnentTypeID) (comp : Int)
  | compRelease (tid : XnentTypeID) (comp : Int)
  | singlenentAcquire (tid : XnentTypeID) (comp : Int)
  | singlenentRelease (tid : XnentTypeID) (comp : Int)
  deriving DecidableEq, Repr

/-- The assignment `ett_table_[k] = v` of `std::map`: the entity table is a list of
(key, value) pairs kept in increasing key order. -/
def mapInsert : List (EID × Int) → EID → Int → List (EID × Int)
  | [], k, v => [(k, v)]
  | (k1, v1) :: m, k, v =>
    if k < k1 then (k, v) :: (k1, v1) :: m
    else if k = k1 then (k, v) :: m
    else (k1, v1) :: mapInsert m k v

/-- The removal of the entry with key `k` from the entity table (`std::map::erase`). -/
def mapErase (m : List (EID × Int)) (k : EID) : List (EID × Int) :=
  m.filter fun e => e.1 != k

/-- The class `EntityManager<max_comp, max_single>`.  The three pool pointers are modelled
by whether they are set; `EntityData` (a pointer to the mask and a pointer to the table of
the same slot) is the address of the slot.  The source declares `singlenent_table_` with
the type `XnentTable`, so it has `max_comp` entries. -/
structure EntityManager (max_comp max_single : Nat) where
  eid_pool_ : Bool
  comp_pool_ : Bool
  singlenent_pool_ : Bool
  ett_data_pool_ : DynamicPool (EntityRecord max_comp)
  ett_table_ : List (EID × Int)
  singlenent_table_ : Fin max_comp → Option Int

/-- The query buffer `EntityBuffer`: the entity identifiers and the component pointers. -/
structure EntityBuffer where
  eids : List EID
  comps : List (Option Int)
  deriving DecidableEq, Repr

namespace EntityManager

variable {max_comp max_single : Nat}

/-- A default-constructed entity manager: null pool pointers, `ett_data_pool_{}` (count 0,
no template value, default growth), empty tables. -/
def new (max_comp max_single : Nat) : EntityManager max_comp max_single :=
  { eid_pool_ := false, comp_pool_ := false, singlenent_pool_ := false,
    ett_data_pool_ := DynamicPool.new 0 none DefaultGrowth 0,
    ett_table_ := [], singlenent_table_ := fun _ => none }

/-- Source: `SetEIDPoolImpl`. -/
def SetEIDPoolImpl (s : EntityManager max_comp max_single) :
    Except EMError (EntityManager max_comp max_single) :=
  if s.eid_pool_ then .error .poolAlreadySet else .ok { s with eid_pool_ := true }

/-- Source: `SetComponentPoolImpl`. -/
def SetComponentPoolImpl (s : EntityManager max_comp max_single) :
    Except EMError (EntityManager max_comp max_single) :=
  if s.comp_pool_ then .error .poolAlreadySet else .ok { s with comp_pool_ := true }

/-- Source: `SetSinglenentPoolImpl`. -/
def SetSinglenentPoolImpl (s : EntityManager max_comp max_single) :
    Except EMError (EntityManager max_comp max_single) :=
  if s.singlenent_pool_ then .error .poolAlreadySet
  else .ok { s with singlenent_pool_ := true }

/-- Source: `SetPolicyImpl(policy)`: `SetGrowth(policy.growth_func)`, then
`GrowExtra(policy.init_size)`. -/
def SetPolicyImpl (s : EntityManager max_comp max_single) (growth_func : Nat → Nat)
    (init_size : Nat) (data : Int) : EntityManager max_comp max_single :=
  { s with ett_data_pool_ := (s.ett_data_pool_.SetGrowth growth_func).GrowExtra init_size data }

/-- Source: `CreateEntityImpl()`.  `eid` is what `eid_pool_->Acquire()` returns and `data`
the allocator address in case the record pool grows. -/
def CreateEntityImpl (s : EntityManager max_comp max_single) (eid : EID) (data : Int) :
    Except EMError (EID × EntityManager max_comp max_single × List ExtCall) :=
  if !s.eid_pool_ then .error .nullPool
  else
    match s.ett_data_pool_.Acquire data with
    | .error e => .error (.pool e)
    | .ok (tup, pool) =>
      .ok (eid, { s with ett_data_pool_ := pool, ett_table_ := mapInsert s.ett_table_ eid tup },
        [.eidAcquire eid])

/-- The loop of `ReleaseEntity` over the type indices `is`: for every set mask bit the
component pointed to by the table entry is released to the component pool. -/
def releaseComponents (comp_pool : Bool) (record : EntityRecord max_comp) :
    List (Fin max_comp) → Except EMError (List ExtCall)
  | [] => .ok []
  | i :: is =>
    if record.mask i then
      match record.comp_table i with
      | none => .error .nullDeref
      | some comp =>
        if !comp_pool then .error .nullPool
        else
          match releaseComponents comp_pool record is with
          | .error e => .error e
          | .ok calls => .ok (.compRelease i.val comp :: calls)
    else releaseComponents comp_pool record is

/-- Source: `ReleaseEntity(it)`: releases the components of the set mask bits, resets the
mask, releases the record and the identifier. -/
def ReleaseEntity (s : EntityManager max_comp max_single) (eid : EID) (slot : Int) :
    Except EMError (EntityManager max_comp max_single × List ExtCall) :=
  match s.ett_data_pool_.readAt slot with
  | none => .error .badPointer
  | some record =>
    match releaseComponents s.comp_pool_ record (List.finRange max_comp) with
    | .error e => .error e
    | .ok calls =>
      match s.ett_data_pool_.writeAt slot { record with mask := fun _ => false } with
      | none => .error .badPointer
      | some pool1 =>
        match pool1.Release slot with
        | .error e => .error (.pool e)
        | .ok pool2 =>
          if !s.eid_pool_ then .error .nullPool
          else .ok ({ s with ett_data_pool_ := pool2 }, calls ++ [.eidRelease eid])

/-- Source: `DestroyEntityImpl(eid)`. -/
def DestroyEntityImpl (s : EntityManager max_comp max_single) (eid : EID) :
    Except EMError (EntityManager max_comp max_single × List ExtCall) :=
  match s.ett_table_.lookup eid with
  | none => .error .entityDoesNotExist
  | some slot =>
    match s.ReleaseEntity eid slot with
    | .error e => .error e
    | .ok (s1, calls) => .ok ({ s1 with ett_table_ := mapErase s1.ett_table_ eid }, calls)

/-- Source: `ContainsEntityImpl(eid)`. -/
def ContainsEntityImpl (s : EntityManager max_comp max_single) (eid : EID) : Bool :=
  (s.ett_table_.lookup eid).isSome

/-- Source: `AddComponentImpl(eid, tid)`.  `comp` is the address of the component that
`comp_pool_->Acquire(tid)` returns. -/
def AddComponentImpl (s : EntityManager max_comp max_single) (eid : EID) (tid : XnentTypeID)
    (comp : Int) : Except EMError (Int × EntityManager max_comp max_single × List ExtCall) :=
  match s.ett_table_.lookup eid with
  | none => .error .mapAt
  | some slot =>
    if !s.comp_pool_ then .error .nullPool
    else if tid < max_comp then
      match s.ett_data_pool_.readAt slot with
      | none => .error .badPointer
      | some record =>
        match s.ett_data_pool_.writeAt slot
            { mask := fun i => if i.val = tid then true else record.mask i,
              comp_table := fun i => if i.val = tid then some comp else record.comp_table i }
            with
        | none => .error .badPointer
        | some pool => .ok (comp, { s with ett_data_pool_ := pool }, [.compAcquire tid comp])
    else .error .typeOutOfRange

/-- Source: `RemoveComponentImpl(eid, tid)`: releases `*(*table)[tid]` to the component pool
and resets the mask bit. -/
def RemoveComponentImpl (s : EntityManager max_comp max_single) (eid : EID)
    (tid : XnentTypeID) : Except EMError (EntityManager max_comp max_single × List ExtCall) :=
  match s.ett_table_.lookup eid with
  | none => .error .mapAt
  | some slot =>
    if h : tid < max_comp then
      match s.ett_data_pool_.readAt slot with
      | none => .error .badPointer
      | some record =>
        match record.comp_table ⟨tid, h⟩ with
        | none => .error .nullDeref
        | some comp =>
          if !s.comp_pool_ then .error .nullPool
          else
            match s.ett_data_pool_.writeAt slot
                { record with mask := fun i => if i.val = tid then false else record.mask i }
                with
            | none => .error .badPointer
            | some pool => .ok ({ s with ett_data_pool_ := pool }, [.compRelease tid comp])
    else .error .typeOutOfRange

/-- Source: `GetComponentImpl(eid, tid)` (both overloads): asserts the mask bit and returns
`*(*table)[tid]`. -/
def GetComponentImpl (s : EntityManager max_comp max_single) (eid : EID) (tid : XnentTypeID) :
    Except EMError Int :=
  match s.ett_table_.lookup eid with
  | none => .error .mapAt
  | some slot =>
    if h : tid < max_comp then
      match s.ett_data_pool_.readAt slot with
      | none => .error .badPointer
      | some record =>
        if record.mask ⟨tid, h⟩ then
          match record.comp_table ⟨tid, h⟩ with
          | none => .error .nullDeref
          | some comp => .ok comp
        else .error .noComponent
    else .error .typeOutOfRange

/-- Source: `AddSinglenentImpl(tid)`.  `comp` is what `singlenent_pool_->Acquire(tid)`
returns. -/
def AddSinglenentImpl (s : EntityManager max_comp max_single) (tid : XnentTypeID) (comp : Int) :
    Except EMError (Int × EntityManager max_comp max_single × List ExtCall) :=
  if h : tid < max_comp then
    match s.singlenent_table_ ⟨tid, h⟩ with
    | some _ => .error .singlenentExists
    | none =>
      if !s.singlenent_pool_ then .error .nullPool
      else
        .ok (comp,
          { s with singlenent_table_ :=
              fun i => if i.val = tid then some comp else s.singlenent_table_ i },
          [.singlenentAcquire tid comp])
  else .error .typeOutOfRange

/-- Source: `GetSinglenentImpl(tid)` (both overloads): `*singlenent_table_[tid]`. -/
def GetSinglenentImpl (s : EntityManager max_comp max_single) (tid : XnentTypeID) :
    Except EMError Int :=
  if h : tid < max_comp then
    match s.singlenent_table_ ⟨tid, h⟩ with
    | none => .error .nullDeref
    | some comp => .ok comp
  else .error .typeOutOfRange

/-- Source: `RemoveSinglenentImpl(tid)`. -/
def RemoveSinglenentImpl (s : EntityManager max_comp max_single) (tid : XnentTypeID) :
    Except EMError (EntityManager max_comp max_single × List ExtCall) :=
  if h : tid < max_comp then
    match s.singlenent_table_ ⟨tid, h⟩ with
    | none => .error .nullDeref
    | some comp =>
      if !s.singlenent_pool_ then .error .nullPool
      else
        .ok ({ s with singlenent_table_ :=
                fun i => if i.val = tid then none else s.singlenent_table_ i },
          [.singlenentRelease tid comp])
  else .error .typeOutOfRange

/-- The mask test of the query: `(*emask & smask) == smask`. -/
def maskMatch (emask smask : Fin max_comp → Bool) : Bool :=
  (List.finRange max_comp).all fun i => (emask i && smask i) == smask i

/-- The `std::transform` of the query: the table entry of every requested type index, in
the order given. -/
def collectComps (record : EntityRecord max_comp) :
    List XnentTypeID → Except EMError (List (Option Int))
  | [] => .ok []
  | xtid :: xs =>
    if h : xtid < max_comp then
      match collectComps record xs with
      | .error e => .error e
      | .ok cs => .ok (record.comp_table ⟨xtid, h⟩ :: cs)
    else .error .typeOutOfRange

/-- The loop of `GetEntitiesWithComponentsImpl` over the entries of the entity table. -/
def queryLoop (pool : DynamicPool (EntityRecord max_comp)) (smask : Fin max_comp → Bool)
    (xtid_arr : List XnentTypeID) (buffer : EntityBuffer) :
    List (EID × Int) → Except EMError EntityBuffer
  | [] => .ok buffer
  | (eid, slot) :: rest =>
    match pool.readAt slot with
    | none => .error .badPointer
    | some record =>
      if maskMatch record.mask smask then
        match collectComps record xtid_arr with
        | .error e => .error e
        | .ok cs =>
          queryLoop pool smask xtid_arr
            { eids := buffer.eids ++ [eid], comps := buffer.comps ++ cs } rest
      else queryLoop pool smask xtid_arr buffer rest

/-- Source: `GetEntitiesWithComponentsImpl(buffer, mask, xtid_arr)`.  `smask` is the result
of `ToStatic<max_comp>(mask)`, which is not among the sources. -/
def GetEntitiesWithComponentsImpl (s : EntityManager max_comp max_single)
    (buffer : EntityBuffer) (smask : Fin max_comp → Bool) (xtid_arr : List XnentTypeID) :
    Except EMError EntityBuffer :=
  queryLoop s.ett_data_pool_ smask xtid_arr buffer s.ett_table_

/-- The first loop of `ResetImpl`: `ReleaseEntity` on every entry of the entity table. -/
def releaseAll (s : EntityManager max_comp max_single) :
    List (EID × Int) → Except EMError (EntityManager max_comp max_single × List ExtCall)
  | [] => .ok (s, [])
  | (eid, slot) :: rest =>
    match s.ReleaseEntity eid slot with
    | .error e => .error e
    | .ok (s1, calls) =>
      match releaseAll s1 rest with
      | .error e => .error e
      | .ok (s2, calls2) => .ok (s2, calls ++ calls2)

/-- The second loop of `ResetImpl`: `RemoveSinglenentImpl` on every non-null entry of the
singleton table. -/
def removeSinglenents (s : EntityManager max_comp max_single) :
    List (Fin max_comp) → Except EMError (EntityManager max_comp max_single × List ExtCall)
  | [] => .ok (s, [])
  | i :: is =>
    if (s.singlenent_table_ i).isSome then
      match s.RemoveSinglenentImpl i.val with
      | .error e => .error e
      | .ok (s1, calls) =>
        match removeSinglenents s1 is with
        | .error e => .error e
        | .ok (s2, calls2) => .ok (s2, calls ++ calls2)
    else removeSinglenents s is

/-- Source: `ResetImpl()`. -/
def ResetImpl (s : EntityManager max_comp max_single) :
    Except EMError (EntityManager max_comp max_single × List ExtCall) :=
  match releaseAll s s.ett_table_ with
  | .error e => .error e
  | .ok (s1, calls1) =>
    match removeSinglenents ({ s1 with ett_table_ := [] } : EntityManager max_comp max_single)
        (List.finRange max_comp) with
    | .error e => .error e
    | .ok (s2, calls2) =>
      .ok ({ s2 with eid_pool_ := false, comp_pool_ := false, singlenent_pool_ := false,
                     ett_data_pool_ := s2.ett_data_pool_.Clear,
                     singlenent_table_ := fun _ => none },
        calls1 ++ calls2)

/-- The mask bit `tid` of the live entity `eid` (what `HasComponent(eid, tid)` reports);
`none` when the entity is not live or `tid` is not a type index. -/
def maskBit (s : EntityManager max_comp max_single) (eid : EID) (tid : XnentTypeID) :
    Option Bool :=
  match s.ett_table_.lookup eid with
  | none => none
  | some slot =>
    if h : tid < max_comp then (s.ett_data_pool_.readAt slot).map fun r => r.mask ⟨tid, h⟩
    else none

/-- The slot-table entry `tid` of the live entity `eid`; the inner `none` is the null
pointer. -/
def tableEntry (s : EntityManager max_comp max_single) (eid : EID) (tid : XnentTypeID) :
    Option (Option Int) :=
  match s.ett_table_.lookup eid with
  | none => none
  | some slot =>
    if h : tid < max_comp then
      (s.ett_data_pool_.readAt slot).map fun r => r.comp_table ⟨tid, h⟩
    else none

/-- The entity record (mask and slot table) of the live entity `eid`. -/
def recordOf (s : EntityManager max_comp max_single) (eid : EID) :
    Option (EntityRecord max_comp) :=
  match s.ett_table_.lookup eid with
  | none => none
  | some slot => s.ett_data_pool_.readAt slot

end EntityManager

/-- One call on the entity manager, with the values returned by the external pools and by
the allocator. -/
inductive EMOp
  | setEIDPool
  | setComponentPool
  | setSinglenentPool
  | setPolicy (growth_func : Nat → Nat) (init_size : Nat) (data : Int)
  | createEntity (eid : EID) (data : Int)
  | destroyEntity (eid : EID)
  | addComponent (eid : EID) (tid : XnentTypeID) (comp : Int)
  | removeComponent (eid : EID) (tid : XnentTypeID)
  | addSinglenent (tid : XnentTypeID) (comp : Int)
  | removeSinglenent (tid : XnentTypeID)

namespace EntityManager

variable {max_comp max_single : Nat}

/-- Runs one call.  The result is `none` when the call does not return normally or when the
allocator address given for a new sub-pool of the record pool overlaps live storage. -/
def step (s : EntityManager max_comp max_single) :
    EMOp → Option (EntityManager max_comp max_single)
  | .setEIDPool => s.SetEIDPoolImpl.toOption
  | .setComponentPool => s.SetComponentPoolImpl.toOption
  | .setSinglenentPool => s.SetSinglenentPoolImpl.toOption
  | .setPolicy growth_func init_size data =>
    if (s.ett_data_pool_.SetGrowth growth_func).freshAlloc init_size data then
      some (s.SetPolicyImpl growth_func init_size data)
    else none
  | .createEntity eid data =>
    if s.ett_data_pool_.PoolsAllAcquired &&
        !s.ett_data_pool_.freshAlloc (s.ett_data_pool_.growth_ s.ett_data_pool_.Size) data then
      none
    else (s.CreateEntityImpl eid data).toOption.map fun r => r.2.1
  | .destroyEntity eid => (s.DestroyEntityImpl eid).toOption.map fun r => r.1
  | .addComponent eid tid comp => (s.AddComponentImpl eid tid comp).toOption.map fun r => r.2.1
  | .removeComponent eid tid => (s.RemoveComponentImpl eid tid).toOption.map fun r => r.1
  | .addSinglenent tid comp => (s.AddSinglenentImpl tid comp).toOption.map fun r => r.2.1
  | .removeSinglenent tid => (s.RemoveSinglenentImpl tid).toOption.map fun r => r.1

/-- Runs a call sequence. -/
def run (s : EntityManager max_comp max_single) :
    List EMOp → Option (EntityManager max_comp max_single)
  | [] => some s
  | op :: ops =>
    match s.step op with
    | none => none
    | some s1 => run s1 ops

end EntityManager

/-- The entity manager with two component types after `SetEIDPool`, `SetComponentPool` and
one `CreateEntity` that returned the identifier 7 (the record pool grew by one slot at
address 100). -/
def exOneEntity : EntityManager 2 1 :=
  { eid_pool_ := true, comp_pool_ := true, singlenent_pool_ := false,
    ett_data_pool_ := ⟨none, DefaultGrowth, [⟨100, [default], [false]⟩], [false]⟩,
    ett_table_ := [(7, 100)], singlenent_table_ := fun _ => none }

/-- The state `exOneEntity` after `AddComponent(7, 0)`, for which the component pool
returned the component at address 500. -/
def exWithComponent : EntityManager 2 1 :=
  { eid_pool_ := true, comp_pool_ := true, singlenent_pool_ := false,
    ett_data_pool_ :=
      ⟨none, DefaultGrowth,
        [⟨100, [{ mask := fun i => if i.val = 0 then true
                                   else (default : EntityRecord 2).mask i,
                  comp_table := fun i => if i.val = 0 then some 500
                                         else (default : EntityRecord 2).comp_table i }],
           [false]⟩],
        [false]⟩,
    ett_table_ := [(7, 100)], singlenent_table_ := fun _ => none }

end internal
end einu

/-! ## Specification predicates

Invariants and auxiliary notions used to state and prove the properties below. -/

namespace einu
namespace util

/-- What the pool bookkeeping sees of a sub-pool: its address, its bitmap and the length of
its object array. -/
def FixedPool.sig {α : Type} (p : FixedPool α) : Int × BitVector × Nat :=
  (p.data, p.bit_arr_, p.object_arr_.length)

namespace FixedPool

variable {α : Type}

/-- Invariant of a slot pool of capacity `N` together with the held references. -/
structure Inv (N : Nat) (p : FixedPool α) (held : List Int) : Prop where
  len_bits : p.bit_arr_.length = N
  len_objs : p.object_arr_.length = N
  nodup : held.Nodup
  held_iff : ∀ x, x ∈ held ↔ p.Occupied x
  count : held.length + p.freeCount = N

end FixedPool

namespace DynamicPool

variable {α : Type} [Inhabited α]

/-- Structural invariant of a growable pool: every sub-pool is non-empty, and the summary
bitmap holds, for each sub-pool, whether it has a free slot, followed by set bits up to a
length of `Size()`. -/
structure Shape (s : DynamicPool α) : Prop where
  pool_len : ∀ p ∈ s.pools_, p.object_arr_.length = p.bit_arr_.length ∧ 0 < p.bit_arr_.length
  summary : s.pools_bit_array_ =
    s.pools_.map (fun p => p.FreePos.isSome) ++
      List.replicate (s.Size - s.pools_.length) true

/-- The sub-pools occupy pairwise disjoint storage. -/
def Disj (s : DynamicPool α) : Prop :=
  s.pools_.Pairwise fun p q => ∀ r, p.InRange r → ¬ q.InRange r

/-- The held references are exactly the addresses of the occupied slots. -/
structure Held (s : DynamicPool α) (held : List Int) : Prop where
  nodup : held.Nodup
  held_iff : ∀ x, x ∈ held ↔ ∃ p ∈ s.pools_, p.Occupied x
  count : held.length + s.freeCount = s.Size

/-- The sub-pool that `GrowExtra` appends. -/
def newPool (s : DynamicPool α) (delta_size : Nat) (data : Int) : FixedPool α :=
  match s.value_ with
  | some v => FixedPool.new data delta_size v
  | none => FixedPool.new data delta_size default

/-- The three invariants of a growable pool and its held references. -/
structure Inv (s : DynamicPool α) (held : List Int) : Prop where
  shape : Shape s
  disj : Disj s
  held : Held s held

/-- The storage layout only grows at the end. -/
def Extends (s s' : DynamicPool α) : Prop := ∃ extra, s'.storage = s.storage ++ extra

end DynamicPool

/-- Invariant of `k` successive `Acquire()` calls from an empty pool with the default
growth. -/
structure Doubling {α : Type} [Inhabited α] (k : Nat) (s : DynamicPool α) : Prop where
  shape : DynamicPool.Shape s
  growth : s.growth_ = DefaultGrowth
  count : k + s.freeCount = s.Size
  zero : k = 0 → s.Size = 0
  pos : 0 < k → s.Size < 2 * k ∧ ∃ m, s.Size = 2 ^ m

end util

namespace internal

open util

/-- A record whose slot-table entry is non-null wherever its mask bit is set. -/
def EntityRecord.Good {n : Nat} (r : EntityRecord n) : Prop :=
  ∀ i, r.mask i = true → r.comp_table i ≠ none

/-- Invariant of the reachable states of the entity manager, with the slot references
`held` that the record pool has handed out: the pool invariants hold, the record pool has no
template value, the entities of the table own pairwise distinct slots that are all held, and
every pooled record has a non-null table entry wherever its mask bit is set. -/
structure EMInv {n m : Nat} (s : EntityManager n m) (held : List Int) : Prop where
  pool : DynamicPool.Inv s.ett_data_pool_ held
  value_none : s.ett_data_pool_.value_ = none
  slots_nodup : (s.ett_table_.map Prod.snd).Nodup
  slots_held : ∀ x ∈ s.ett_table_.map Prod.snd, x ∈ held
  good : ∀ p ∈ s.ett_data_pool_.pools_, ∀ r ∈ p.object_arr_, EntityRecord.Good r

namespace EntityManager

variable {n : Nat}

/-- All records stored in a list of sub-pools are good. -/
def AllGood (ps : List (FixedPool (EntityRecord n))) : Prop :=
  ∀ p ∈ ps, ∀ r ∈ p.object_arr_, EntityRecord.Good r

end EntityManager

end internal
end einu

namespace einu
namespace internal

open util

/-- The calls that destroy an entity. -/
def EMOp.isDestroy : EMOp → Bool
  | .destroyEntity _ => true
  | _ => false

namespace EntityManager

variable {n m : Nat}

/-- Every slot of the sub-pools `ps` whose free bit is set holds a record that satisfies
`P`. -/
def FreeSat (P : EntityRecord n → Prop) (ps : List (FixedPool (EntityRecord n))) : Prop :=
  ∀ p ∈ ps, ∀ (j : Nat) (r : EntityRecord n),
    p.bit_arr_[j]? = some true → p.object_arr_[j]? = some r → P r

/-- The keys of the entity table are strictly increasing (the order of `std::map`). -/
def KeysSorted (s : EntityManager n m) : Prop :=
  (s.ett_table_.map Prod.fst).Pairwise (· < ·)

/-- Second invariant of the reachable states: the entity table is sorted by key and every
free slot of the record pool holds a record with an all-zero mask. -/
structure EMInv2 (s : EntityManager n m) : Prop where
  sorted : KeysSorted s
  free_zero : FreeSat (fun r => ∀ i, r.mask i = false) s.ett_data_pool_.pools_

end EntityManager

end internal
end einu

namespace einu
namespace internal

open util

/-- The releases to the component pool that destroying an entity with the record `record`
makes: one for every set mask bit, in increasing type index, of the slot-table entry of
that type. -/
def compReleases {n : Nat} (record : EntityRecord n) : List ExtCall :=
  (List.finRange n).filterMap fun i =>
    if record.mask i then (record.comp_table i).map (ExtCall.compRelease i.val) else none

/-- The record pool after `CreateEntity`, `AddComponent(7, 0)` (component at 500) and
`DestroyEntity(7)`: the only slot is free again, with the mask reset. -/
def exRecycled : EntityManager 2 1 :=
  { eid_pool_ := true, comp_pool_ := true, singlenent_pool_ := false,
    ett_data_pool_ :=
      ⟨none, DefaultGrowth,
        [⟨100, [{ mask := fun _ => false,
                  comp_table := fun i => if i.val = 0 then some 500
                                         else (default : EntityRecord 2).comp_table i }],
           [true]⟩],
        [true]⟩,
    ett_table_ := [], singlenent_table_ := fun _ => none }

end internal
end einu

namespace einu
namespace internal

open util

namespace EntityManager

variable {n m : Nat}

/-- The entries of the entity table, in table order, whose record passes the mask test of
the query, each with its record. -/
def matching (pool : DynamicPool (EntityRecord n)) (smask : Fin n → Bool)
    (table : List (EID × Int)) : List (EID × EntityRecord n) :=
  table.filterMap fun e =>
    (pool.readAt e.2).bind fun r => if maskMatch r.mask smask then some (e.1, r) else none

/-- The slot-table entries of a record for the requested type indices, in the order
requested. -/
def compsOf (record : EntityRecord n) (xtid_arr : List XnentTypeID) : List (Option Int) :=
  xtid_arr.map fun t => if h : t < n then record.comp_table ⟨t, h⟩ else none

end EntityManager

end internal
end einu

namespace einu
namespace internal

open util

/-- Three entities 1, 2, 3 created in this order, with the component types 0 = A, 1 = B,
2 = C attached as E1:{A,B}, E2:{A}, E3:{A,B,C}. -/
def exPopulation : EntityManager 3 1 :=
  ((EntityManager.new 3 1).run
    [.setEIDPool, .setComponentPool, .createEntity 1 100, .createEntity 2 200,
      .createEntity 3 300, .addComponent 1 0 500, .addComponent 1 1 501,
      .addComponent 2 0 502, .addComponent 3 0 503, .addComponent 3 1 504,
      .addComponent 3 2 505]).getD (EntityManager.new 3 1)

end internal
end einu

namespace einu
namespace internal

/-- The scenario of three entities with one component type `A` (index 0), where the
identifier pool hands out the identifiers 3, 2, 1 in that order: `A` is added to all three
and removed from the second one (identifier 2). -/
def exDescending : EntityManager 1 1 :=
  ((EntityManager.new 1 1).run
    [.setEIDPool, .setComponentPool, .createEntity 3 100, .createEntity 2 200,
      .createEntity 1 300, .addComponent 3 0 500, .addComponent 2 0 501,
      .addComponent 1 0 502, .removeComponent 2 0]).getD (EntityManager.new 1 1)

/-- The same scenario where the identifier pool hands out 1, 2, 3 in that order. -/
def exAscending : EntityManager 1 1 :=
  ((EntityManager.new 1 1).run
    [.setEIDPool, .setComponentPool, .createEntity 1 100, .createEntity 2 200,
      .createEntity 3 300, .addComponent 1 0 500, .addComponent 2 0 501,
      .addComponent 3 0 502, .removeComponent 2 0]).getD (EntityManager.new 1 1)

end internal
end einu

namespace einu
namespace internal

namespace EntityManager

variable {n m : Nat}

/-- Runs one call as `step` does and also gives the calls it made on the external pools. -/
def stepCalls (s : EntityManager n m) : EMOp → Option (EntityManager n m × List ExtCall)
  | .setEIDPool => s.SetEIDPoolImpl.toOption.map fun s1 => (s1, [])
  | .setComponentPool => s.SetComponentPoolImpl.toOption.map fun s1 => (s1, [])
  | .setSinglenentPool => s.SetSinglenentPoolImpl.toOption.map fun s1 => (s1, [])
  | .setPolicy growth_func init_size data =>
    if (s.ett_data_pool_.SetGrowth growth_func).freshAlloc init_size data then
      some (s.SetPolicyImpl growth_func init_size data, [])
    else none
  | .createEntity eid data =>
    if s.ett_data_pool_.PoolsAllAcquired &&
        !s.ett_data_pool_.freshAlloc (s.ett_data_pool_.growth_ s.ett_data_pool_.Size) data then
      none
    else (s.CreateEntityImpl eid data).toOption.map fun r => r.2
  | .destroyEntity eid => (s.DestroyEntityImpl eid).toOption
  | .addComponent eid tid comp => (s.AddComponentImpl eid tid comp).toOption.map fun r => r.2
  | .removeComponent eid tid => (s.RemoveComponentImpl eid tid).toOption
  | .addSinglenent tid comp => (s.AddSinglenentImpl tid comp).toOption.map fun r => r.2
  | .removeSinglenent tid => (s.RemoveSinglenentImpl tid).toOption

/-- Runs a call sequence as `run` does and also gives all calls made on the external
pools, in order. -/
def trace (s : EntityManager n m) : List EMOp → Option (EntityManager n m × List ExtCall)
  | [] => some (s, [])
  | op :: ops =>
    match s.stepCalls op with
    | none => none
    | some (s1, calls) =>
      match trace s1 ops with
      | none => none
      | some (s2, calls2) => some (s2, calls ++ calls2)

end EntityManager

/-- The entity manager with two component types after `SetSinglenentPool`. -/
def exSinglenentPool : EntityManager 2 1 :=
  { eid_pool_ := false, comp_pool_ := false, singlenent_pool_ := true,
    ett_data_pool_ := util.DynamicPool.new 0 none util.DefaultGrowth 0,
    ett_table_ := [], singlenent_table_ := fun _ => none }

end internal
end einu

namespace einu
namespace internal

/-- An entity manager with two component types that was set up with its identifier,
component and singleton pools and populated with two live entities (1 and 2, the first with
a component of type 0) and two live singletons (types 0 and 1). -/
def exSetUp : EntityManager 2 1 :=
  ((EntityManager.new 2 1).run
    [.setEIDPool, .setComponentPool, .setSinglenentPool, .createEntity 1 100,
      .createEntity 2 200, .addComponent 1 0 500, .addSinglenent 0 700,
      .addSinglenent 1 701]).getD (EntityManager.new 2 1)

end internal
end einu

namespace einu
namespace util

/-- The storage of all sub-pools lies within one window of `2 ^ 32` elements, so that the
`(unsigned)` cast of `Has` does not wrap on the offset between a slot of the pool and the
start of any sub-pool. -/
def DynamicPool.NoWrap {α : Type} [Inhabited α] (s : DynamicPool α) : Prop :=
  ∀ a ∈ s.storage, ∀ b ∈ s.storage, b.1 + (b.2 : Int) - a.1 ≤ 2 ^ 32

end util
end einu

namespace einu
namespace util

/-- A pool constructed with count 1 and the default growth, after two `Acquire` calls: the
second call grew the pool by one slot, for which the allocator returned the address
`2 ^ 32` (in elements, relative to the first sub-pool). -/
def exFarApart : DynamicPool Unit :=
  ⟨none, DefaultGrowth, [⟨0, [()], [false]⟩, ⟨4294967296, [()], [false]⟩], [false, false]⟩

end util
end einu

namespace einu
namespace internal

/-- The entity a call operates on, if any. -/
def EMOp.entity : EMOp → Option EID
  | .createEntity eid _ => some eid
  | .destroyEntity eid => some eid
  | .addComponent eid _ _ => some eid
  | .removeComponent eid _ => some eid
  | _ => none

/-- Whether a call ends or replaces the attachment of a component of type `T` to the entity
`E`: `AddComponent(E, T)`, `RemoveComponent(E, T)`, `DestroyEntity(E)`, or a `CreateEntity`
that returns `E`. -/
def EMOp.touches : EMOp → EID → XnentTypeID → Bool
  | .createEntity eid _, E, _ => eid == E
  | .destroyEntity eid, E, _ => eid == E
  | .addComponent eid tid _, E, T => eid == E && tid == T
  | .removeComponent eid tid, E, T => eid == E && tid == T
  | _, _, _ => false

namespace EntityManager

variable {n m : Nat}

/-- Bit `T` of the mask of the live entity `E` is set and slot `T` of its table holds the
reference `r`. -/
def Attached (s : EntityManager n m) (E : EID) (T : XnentTypeID) (r : Int) : Prop :=
  s.maskBit E T = some true ∧ s.tableEntry E T = some (some r)

/-- Ghost map of the references returned by `AddComponent`: after the call
`AddComponent(eid, tid)` that returned `comp`, the entry of `(eid, tid)` is `comp`. -/
def recordAdd (g : EID → XnentTypeID → Option Int) : EMOp → EID → XnentTypeID → Option Int
  | .addComponent eid tid comp => fun E T => if E = eid ∧ T = tid then some comp else g E T
  | _ => g

/-- The reference returned by the most recent `AddComponent(E, T)` of a call sequence
(`g E T` if there is none). -/
def lastAdded (g : EID → XnentTypeID → Option Int) : List EMOp → EID → XnentTypeID → Option Int
  | [] => g
  | op :: ops => lastAdded (recordAdd g op) ops

/-- The view of the component pool: the effect of one call on the list of the references,
with their type index, that were acquired from the component pool and not released to it
since. -/
def updOut (out : List (XnentTypeID × Int)) : ExtCall → List (XnentTypeID × Int)
  | .compAcquire tid comp => (tid, comp) :: out
  | .compRelease tid comp => out.erase (tid, comp)
  | _ => out

/-- The references, with their type index, acquired from the component pool by the calls
`calls` and not released to it since. -/
def outstanding (calls : List ExtCall) : List (XnentTypeID × Int) :=
  calls.foldl updOut []

/-- The preconditions on one call that the code does not check: `RemoveComponent(E, T)` is
called with bit `T` of `E` set, and the component pool hands out, in `AddComponent`, a
reference that is not outstanding under that type index. -/
def legalOp (s : EntityManager n m) (out : List (XnentTypeID × Int)) : EMOp → Bool
  | .removeComponent eid tid => s.maskBit eid tid == some true
  | .addComponent _ tid comp => !out.contains (tid, comp)
  | _ => true

/-- Every call of the sequence that is reached meets `legalOp`. -/
def legal (s : EntityManager n m) (out : List (XnentTypeID × Int)) : List EMOp → Bool
  | [] => true
  | op :: ops =>
    legalOp s out op &&
      match s.stepCalls op with
      | none => true
      | some (s1, calls) => legal s1 (calls.foldl updOut out) ops

end EntityManager

end internal
end einu

namespace einu
namespace internal

end internal
end einu

namespace einu
namespace internal

/-- An entity manager set up with its three pools and two live entities, 1 and 2.  The
record pool grew twice by one slot; the allocator placed the second sub-pool `2 ^ 32`
elements above the first. -/
def exFarRecords : EntityManager 1 1 :=
  ((EntityManager.new 1 1).run
    [.setEIDPool, .setComponentPool, .setSinglenentPool, .createEntity 1 0,
      .createEntity 2 4294967296]).getD (EntityManager.new 1 1)

end internal
end einu

/-! ## Theorems -/

namespace einu
namespace util

/-! ### Lists -/

theorem find_if_eq_none {β : Type} (P : β → Bool) (l : List β) :
    find_if P l = none ↔ ∀ x ∈ l, P x = false := by
  induction l with
  | nil => simp [find_if]
  | cons a l ih =>
    by_cases h : P a = true
    · simp [find_if, h]
    · simp [find_if, h, ih]

theorem find_if_eq_some {β : Type} (P : β → Bool) (l : List β) (i : Nat)
    (h : find_if P l = some i) :
    ∃ L x R, l = L ++ x :: R ∧ L.length = i ∧ P x = true ∧ ∀ y ∈ L, P y = false := by
  induction l generalizing i with
  | nil => simp [find_if] at h
  | cons a l ih =>
    by_cases ha : P a = true
    · simp [find_if, ha] at h
      exact ⟨[], a, l, by simp, by simpa using h, ha, by simp⟩
    · simp [find_if, ha] at h
      obtain ⟨j, hj, rfl⟩ := h
      obtain ⟨L, x, R, rfl, hL, hx, hall⟩ := ih j hj
      refine ⟨a :: L, x, R, by simp, by simp [hL], hx, ?_⟩
      intro y hy
      rcases List.mem_cons.1 hy with rfl | hy
      · simpa using ha
      · exact hall y hy

theorem getElem?_split {β : Type} (l : List β) (i : Nat) (x : β) (h : l[i]? = some x) :
    ∃ L R, l = L ++ x :: R ∧ L.length = i := by
  induction l generalizing i with
  | nil => simp at h
  | cons a l ih =>
    cases i with
    | zero =>
      simp at h
      exact ⟨[], l, by simp [h], rfl⟩
    | succ n =>
      simp at h
      obtain ⟨L, R, rfl, hL⟩ := ih n h
      exact ⟨a :: L, R, by simp, by simp [hL]⟩

theorem set_split {β : Type} (L R : List β) (x y : β) :
    (L ++ x :: R).set L.length y = L ++ y :: R := by
  induction L with
  | nil => simp
  | cons a L ih => simp [ih]

theorem getElem?_mid {β : Type} (L R : List β) (x : β) :
    (L ++ x :: R)[L.length]? = some x := by
  induction L with
  | nil => simp
  | cons a L ih => simpa using ih

theorem count_true_set_false (l : List Bool) (i : Nat) (h : l[i]? = some true) :
    (l.set i false).count true + 1 = l.count true := by
  obtain ⟨L, R, rfl, rfl⟩ := getElem?_split l i true h
  rw [set_split]
  simp [List.count_append, List.count_cons]
  omega

theorem count_true_set_true (l : List Bool) (i : Nat) (h : l[i]? = some false) :
    (l.set i true).count true = l.count true + 1 := by
  obtain ⟨L, R, rfl, rfl⟩ := getElem?_split l i false h
  rw [set_split]
  simp [List.count_append, List.count_cons]
  omega

theorem countl_zero_eq_none (b : BitVector) : b.countl_zero = none ↔ b.count true = 0 := by
  unfold BitVector.countl_zero
  rw [find_if_eq_none, List.count_eq_zero]
  constructor
  · intro h hm
    simpa using h true hm
  · intro h x hx
    cases x with
    | false => rfl
    | true => exact absurd hx h

theorem countl_zero_eq_some (b : BitVector) (i : Nat) (h : b.countl_zero = some i) :
    b[i]? = some true := by
  obtain ⟨L, x, R, rfl, rfl, hx, -⟩ := find_if_eq_some id b i h
  simp only [id] at hx
  subst hx
  exact getElem?_mid L R true

namespace FixedPool

variable {α : Type}

theorem AcquireAt_ok {p : FixedPool α} {pos : Nat} {r : Int} {p' : FixedPool α}
    (h : p.AcquireAt pos = .ok (r, p')) :
    p.bit_arr_[pos]? = some true ∧ r = p.data + (pos : Int) ∧
      p' = { p with bit_arr_ := p.bit_arr_.set pos false } := by
  unfold AcquireAt at h
  split at h
  · cases h
  · cases h
  · next hb =>
    injection h with h
    injection h with h1 h2
    exact ⟨hb, h1.symm, h2.symm⟩

theorem fixed_Acquire_ok {p : FixedPool α} {r : Int} {p' : FixedPool α}
    (h : p.Acquire = .ok (r, p')) :
    ∃ pos, p.FreePos = some pos ∧ p.AcquireAt pos = .ok (r, p') := by
  unfold Acquire at h
  split at h
  · cases h
  · next pos hp => exact ⟨pos, hp, h⟩

theorem fixed_Release_ok {p : FixedPool α} {obj : Int} {p' : FixedPool α}
    (h : p.Release obj = .ok p') :
    p.data ≤ obj ∧ p.bit_arr_[(obj - p.data).toNat]? = some false ∧
      p' = { p with bit_arr_ := p.bit_arr_.set (obj - p.data).toNat true } := by
  unfold Release at h
  simp only at h
  split at h
  · cases h
  · next hneg =>
    split at h
    · cases h
    · cases h
    · next hb =>
      injection h with h
      exact ⟨by omega, hb, h.symm⟩

theorem FreePos_isSome_iff (p : FixedPool α) : p.FreePos.isSome = true ↔ 0 < p.freeCount := by
  unfold FreePos freeCount
  cases h : p.bit_arr_.countl_zero with
  | none =>
    have := (countl_zero_eq_none _).1 h
    simp [this]
  | some i =>
    have hne : p.bit_arr_.countl_zero ≠ none := by simp [h]
    have := mt (countl_zero_eq_none _).2 hne
    simp only [Option.isSome_some, true_iff]
    omega

theorem Acquire_succeeds (p : FixedPool α) (h : p.FreePos.isSome = true) :
    ∃ r p', p.Acquire = .ok (r, p') := by
  unfold Acquire
  cases hf : p.FreePos with
  | none => simp [hf] at h
  | some i =>
    have hb := countl_zero_eq_some _ _ hf
    simp only [AcquireAt, hb]
    exact ⟨_, _, rfl⟩

/-- Effect of a successful `Acquire(pos_hint)` on the pool. -/
theorem AcquireAt_spec {p : FixedPool α} {pos : Nat} {r : Int} {p' : FixedPool α}
    (h : p.AcquireAt pos = .ok (r, p')) :
    p'.data = p.data ∧ p'.object_arr_ = p.object_arr_ ∧
      p'.bit_arr_.length = p.bit_arr_.length ∧ p.InRange r ∧ ¬ p.Occupied r ∧
      (∀ x, p'.Occupied x ↔ x = r ∨ p.Occupied x) ∧ p'.freeCount + 1 = p.freeCount ∧
      r = p.data + (pos : Int) ∧ p.bit_arr_[pos]? = some true := by
  obtain ⟨hb, rfl, rfl⟩ := AcquireAt_ok h
  have hlt : pos < p.bit_arr_.length := by
    rcases List.getElem?_eq_some.1 hb with ⟨hl, -⟩
    exact hl
  refine ⟨rfl, rfl, by simp, ⟨by omega, by omega⟩, ?_, ?_, ?_, rfl, hb⟩
  · rintro ⟨-, h2⟩
    have : (p.data + (pos : Int) - p.data).toNat = pos := by omega
    rw [this, hb] at h2
    cases h2
  · intro x
    simp only [Occupied, List.getElem?_set]
    constructor
    · rintro ⟨h1, h2⟩
      split at h2
      · next heq => left; omega
      · right; exact ⟨h1, h2⟩
    · rintro (rfl | ⟨h1, h2⟩)
      · refine ⟨by omega, ?_⟩
        have : (p.data + (pos : Int) - p.data).toNat = pos := by omega
        simp [this, hlt]
      · refine ⟨h1, ?_⟩
        split
        · next heq =>
          simp [← heq, hb] at h2
        · exact h2
  · exact count_true_set_false _ _ hb

/-- Effect of a successful `Acquire()` on the pool. -/
theorem Acquire_spec {p : FixedPool α} {r : Int} {p' : FixedPool α}
    (h : p.Acquire = .ok (r, p')) :
    p'.data = p.data ∧ p'.object_arr_ = p.object_arr_ ∧
      p'.bit_arr_.length = p.bit_arr_.length ∧ p.InRange r ∧ ¬ p.Occupied r ∧
      (∀ x, p'.Occupied x ↔ x = r ∨ p.Occupied x) ∧ p'.freeCount + 1 = p.freeCount := by
  obtain ⟨pos, -, h2⟩ := fixed_Acquire_ok h
  obtain ⟨a, b, c, d, e, f, g, -, -⟩ := AcquireAt_spec h2
  exact ⟨a, b, c, d, e, f, g⟩

/-- Effect of a successful `Release(obj)` on the pool. -/
theorem Release_spec {p : FixedPool α} {obj : Int} {p' : FixedPool α}
    (h : p.Release obj = .ok p') :
    p'.data = p.data ∧ p'.object_arr_ = p.object_arr_ ∧
      p'.bit_arr_.length = p.bit_arr_.length ∧ p.InRange obj ∧ p.Occupied obj ∧
      (∀ x, p'.Occupied x ↔ x ≠ obj ∧ p.Occupied x) ∧ p'.freeCount = p.freeCount + 1 := by
  obtain ⟨hle, hb, rfl⟩ := fixed_Release_ok h
  have hlt : (obj - p.data).toNat < p.bit_arr_.length := by
    rcases List.getElem?_eq_some.1 hb with ⟨hl, -⟩
    exact hl
  refine ⟨rfl, rfl, by simp, ⟨hle, by omega⟩, ⟨hle, hb⟩, ?_, ?_⟩
  · intro x
    simp only [Occupied, List.getElem?_set]
    constructor
    · rintro ⟨h1, h2⟩
      split at h2
      · next heq =>
        cases h2
      · next hne =>
        refine ⟨?_, h1, h2⟩
        rintro rfl
        exact hne rfl
    · rintro ⟨hne, h1, h2⟩
      refine ⟨h1, ?_⟩
      split
      · next heq => exact absurd (by omega) hne
      · exact h2
  · exact count_true_set_true _ _ hb

theorem Occupied.inRange {p : FixedPool α} {r : Int} (h : p.Occupied r) : p.InRange r := by
  obtain ⟨h1, h2⟩ := h
  rcases List.getElem?_eq_some.1 h2 with ⟨hl, -⟩
  exact ⟨h1, by omega⟩

theorem Inv.fixed_new (data : Int) (N : Nat) (value : α) : Inv N (FixedPool.new data N value) [] := by
  refine ⟨by simp [FixedPool.new], by simp [FixedPool.new], List.nodup_nil, ?_, ?_⟩
  · intro x
    simp only [List.not_mem_nil, Occupied, FixedPool.new, List.getElem?_replicate, false_iff]
    rintro ⟨-, h⟩
    split at h <;> cases h
  · simp [freeCount, FixedPool.new]

theorem Inv.fixed_step {N : Nat} {p : FixedPool α} {held : List Int} (hinv : Inv N p held)
    (op : FixedOp) {st : FixedPool α × List Int} (h : step (p, held) op = .ok st) :
    Inv N st.1 st.2 := by
  cases op with
  | acquire =>
    simp only [FixedPool.step] at h
    split at h
    · cases h
    · next r p' hacq =>
      injection h with h
      subst h
      obtain ⟨-, ho, hl, -, hno, hocc, hc⟩ := Acquire_spec hacq
      refine ⟨by rw [hl]; exact hinv.len_bits, by rw [ho]; exact hinv.len_objs, ?_, ?_, ?_⟩
      · exact List.nodup_cons.2 ⟨fun hm => hno ((hinv.held_iff r).1 hm), hinv.nodup⟩
      · intro x
        simp only [List.mem_cons, hocc x, hinv.held_iff x]
      · have := hinv.count
        simp only [List.length_cons]
        omega
  | acquireAt pos =>
    simp only [FixedPool.step] at h
    split at h
    · cases h
    · next r p' hacq =>
      injection h with h
      subst h
      obtain ⟨-, ho, hl, -, hno, hocc, hc, -, -⟩ := AcquireAt_spec hacq
      refine ⟨by rw [hl]; exact hinv.len_bits, by rw [ho]; exact hinv.len_objs, ?_, ?_, ?_⟩
      · exact List.nodup_cons.2 ⟨fun hm => hno ((hinv.held_iff r).1 hm), hinv.nodup⟩
      · intro x
        simp only [List.mem_cons, hocc x, hinv.held_iff x]
      · have := hinv.count
        simp only [List.length_cons]
        omega
  | release obj =>
    simp only [FixedPool.step] at h
    split at h
    · cases h
    · next p' hrel =>
      injection h with h
      subst h
      obtain ⟨-, ho, hl, -, hoc, hocc, hc⟩ := Release_spec hrel
      have hmem : obj ∈ held := (hinv.held_iff obj).2 hoc
      refine ⟨by rw [hl]; exact hinv.len_bits, by rw [ho]; exact hinv.len_objs,
        hinv.nodup.erase obj, ?_, ?_⟩
      · intro x
        simp only [hinv.nodup.mem_erase_iff, hocc x, hinv.held_iff x]
      · have := hinv.count
        have hpos : 0 < held.length := List.length_pos_of_mem hmem
        simp only [List.length_erase_of_mem hmem]
        omega

theorem Inv.fixed_run {N : Nat} (ops : List FixedOp) {p : FixedPool α} {held : List Int}
    (hinv : Inv N p held) {st : FixedPool α × List Int} (h : run (p, held) ops = .ok st) :
    Inv N st.1 st.2 := by
  induction ops generalizing p held with
  | nil =>
    simp only [FixedPool.run] at h
    injection h with h
    subst h
    exact hinv
  | cons op ops ih =>
    simp only [FixedPool.run] at h
    split at h
    · cases h
    · next st1 hst =>
      exact ih (hinv.fixed_step op hst) h

end FixedPool

namespace DynamicPool

variable {α : Type} [Inhabited α]

theorem foldl_Size (l : List (FixedPool α)) (a : Nat) :
    l.foldl (fun acc pool => acc + pool.Size) a = a + (l.map FixedPool.Size).sum := by
  induction l generalizing a with
  | nil => simp
  | cons x l ih => simp [ih, Nat.add_assoc]

theorem Size_eq (s : DynamicPool α) : s.Size = (s.pools_.map FixedPool.Size).sum := by
  simp [Size, foldl_Size]

theorem length_le_sum (l : List (FixedPool α)) (h : ∀ p ∈ l, 0 < p.bit_arr_.length) :
    l.length ≤ (l.map FixedPool.Size).sum := by
  induction l with
  | nil => simp
  | cons x l ih =>
    have h1 := h x (List.mem_cons_self _ _)
    have h2 := ih fun p hp => h p (List.mem_cons_of_mem _ hp)
    simp only [List.length_cons, List.map_cons, List.sum_cons, FixedPool.Size]
    simp only [FixedPool.Size] at h2
    omega

theorem Shape.length_le {s : DynamicPool α} (h : Shape s) : s.pools_.length ≤ s.Size := by
  rw [Size_eq]
  exact length_le_sum _ fun p hp => (h.pool_len p hp).2

theorem new_FreePos (data : Int) (n : Nat) (v : α) (hn : 0 < n) :
    (FixedPool.new data n v).FreePos = some 0 := by
  obtain ⟨k, rfl⟩ : ∃ k, n = k + 1 := ⟨n - 1, by omega⟩
  simp [FixedPool.new, FixedPool.FreePos, BitVector.countl_zero, find_if, List.replicate_succ]

theorem new_not_Occupied (data : Int) (n : Nat) (v : α) (x : Int) :
    ¬ (FixedPool.new data n v).Occupied x := by
  simp only [FixedPool.Occupied, FixedPool.new, List.getElem?_replicate]
  rintro ⟨-, h⟩
  split at h <;> cases h

theorem freshAlloc_spec {s : DynamicPool α} {delta_size : Nat} {data : Int}
    (h : s.freshAlloc delta_size data = true) (p : FixedPool α) (hp : p ∈ s.pools_) (r : Int)
    (hr : p.InRange r) : ¬ (data ≤ r ∧ r < data + (delta_size : Int)) := by
  simp only [freshAlloc, List.all_eq_true, Bool.or_eq_true, decide_eq_true_eq] at h
  have := h p hp
  obtain ⟨h1, h2⟩ := hr
  omega

theorem newPool_facts (s : DynamicPool α) (n : Nat) (data : Int) :
    (s.newPool n data).data = data ∧ (s.newPool n data).bit_arr_ = List.replicate n true ∧
      (s.newPool n data).object_arr_.length = n ∧
      (∀ x, ¬ (s.newPool n data).Occupied x) ∧
      (0 < n → (s.newPool n data).FreePos = some 0) := by
  unfold newPool
  cases s.value_ with
  | none =>
    exact ⟨rfl, rfl, by simp [FixedPool.new], new_not_Occupied _ _ _, new_FreePos _ _ _⟩
  | some v =>
    exact ⟨rfl, rfl, by simp [FixedPool.new], new_not_Occupied _ _ _, new_FreePos _ _ _⟩

theorem GrowExtra_pos (s : DynamicPool α) (n : Nat) (data : Int) (hn : 0 < n) :
    s.GrowExtra n data =
      { s with pools_ := s.pools_ ++ [s.newPool n data],
               pools_bit_array_ := s.pools_bit_array_ ++ List.replicate n true } := by
  have : n ≠ 0 := by omega
  simp only [GrowExtra, this, if_false, newPool]

theorem GrowExtra_zero (s : DynamicPool α) (data : Int) : s.GrowExtra 0 data = s := by
  simp [GrowExtra]

theorem GrowExtra_Size (s : DynamicPool α) (n : Nat) (data : Int) :
    (s.GrowExtra n data).Size = s.Size + n := by
  rcases Nat.eq_zero_or_pos n with rfl | hn
  · simp [GrowExtra_zero]
  · rw [GrowExtra_pos s n data hn]
    simp [Size_eq, FixedPool.Size, (newPool_facts s n data).2.1]

theorem Shape.shape_GrowExtra {s : DynamicPool α} (h : Shape s) (n : Nat) (data : Int) :
    Shape (s.GrowExtra n data) := by
  rcases Nat.eq_zero_or_pos n with rfl | hn
  · rw [GrowExtra_zero]; exact h
  have hS := GrowExtra_Size s n data
  have hle := h.length_le
  rw [GrowExtra_pos s n data hn] at hS ⊢
  obtain ⟨hd, hb, ho, -, hfp⟩ := newPool_facts s n data
  refine ⟨?_, ?_⟩
  · intro p hp
    simp only [List.mem_append, List.mem_singleton] at hp
    rcases hp with hp | rfl
    · exact h.pool_len p hp
    · rw [ho, hb]
      simp [hn]
  · simp only [hS, List.map_append, List.map_cons, List.map_nil, hfp hn, Option.isSome_some,
      List.length_append, List.length_singleton, List.append_assoc]
    conv_lhs => rw [h.summary]
    rw [List.append_assoc, ← List.replicate_add]
    have : s.Size - s.pools_.length + n = (s.Size + n - (s.pools_.length + 1)) + 1 := by omega
    rw [this, List.replicate_succ]
    rfl

theorem Disj.disj_GrowExtra {s : DynamicPool α} (h : Disj s) (n : Nat) (data : Int)
    (hf : s.freshAlloc n data = true) : Disj (s.GrowExtra n data) := by
  rcases Nat.eq_zero_or_pos n with rfl | hn
  · rw [GrowExtra_zero]; exact h
  rw [GrowExtra_pos s n data hn]
  obtain ⟨hd, hb, -, -, -⟩ := newPool_facts s n data
  simp only [Disj, List.pairwise_append, List.pairwise_cons, List.Pairwise.nil,
    List.mem_singleton, List.not_mem_nil, false_implies, implies_true, and_true, true_and]
  refine ⟨h, ?_⟩
  rintro a ha b rfl r hr ⟨h1, h2⟩
  rw [hd] at h1 h2
  rw [hb] at h2
  simp only [List.length_replicate] at h2
  exact freshAlloc_spec hf a ha r hr ⟨h1, h2⟩

theorem Held.held_GrowExtra {s : DynamicPool α} {held : List Int} (h : Held s held) (n : Nat)
    (data : Int) : Held (s.GrowExtra n data) held := by
  rcases Nat.eq_zero_or_pos n with rfl | hn
  · rw [GrowExtra_zero]; exact h
  have hS := GrowExtra_Size s n data
  rw [GrowExtra_pos s n data hn] at hS ⊢
  obtain ⟨hd, hb, ho, hno, hfp⟩ := newPool_facts s n data
  refine ⟨h.nodup, ?_, ?_⟩
  · intro x
    rw [h.held_iff x]
    simp only [List.mem_append, List.mem_singleton]
    constructor
    · rintro ⟨p, hp, hx⟩
      exact ⟨p, Or.inl hp, hx⟩
    · rintro ⟨p, hp | rfl, hx⟩
      · exact ⟨p, hp, hx⟩
      · exact absurd hx (hno x)
  · have := h.count
    rw [hS]
    simp only [freeCount, List.map_append, List.sum_append, List.map_cons, List.map_nil,
      List.sum_cons, List.sum_nil, FixedPool.freeCount, hb, List.count_replicate] at this ⊢
    simp only [beq_self_eq_true, if_true]
    omega

theorem replace_Size (s : DynamicPool α) {L R : List (FixedPool α)} {p p1 : FixedPool α}
    (hs : s.pools_ = L ++ p :: R) (hl : p1.bit_arr_.length = p.bit_arr_.length)
    (b : BitVector) :
    Size { s with pools_ := L ++ p1 :: R, pools_bit_array_ := b } = s.Size := by
  simp [Size, hs, foldl_Size, FixedPool.Size, hl]

/-- Replacing one sub-pool by a pool with the same storage (same address, same object array,
same number of bits) and refreshing its summary bit keeps the structural invariant. -/
theorem Shape.shape_replace {s : DynamicPool α} (h : Shape s) {L R : List (FixedPool α)}
    {p p1 : FixedPool α} (hs : s.pools_ = L ++ p :: R) (hd : p1.data = p.data)
    (ho : p1.object_arr_ = p.object_arr_) (hl : p1.bit_arr_.length = p.bit_arr_.length) :
    Shape { s with pools_ := L ++ p1 :: R,
                   pools_bit_array_ := s.pools_bit_array_.set L.length p1.FreePos.isSome } := by
  refine ⟨?_, ?_⟩
  · intro q hq
    simp only [List.mem_append, List.mem_cons] at hq
    rcases hq with hq | rfl | hq
    · exact h.pool_len q (by simp [hs, hq])
    · rw [ho, hl]
      exact h.pool_len p (by simp [hs])
    · exact h.pool_len q (by simp [hs, hq])
  · have hlen : (L ++ p1 :: R).length = s.pools_.length := by simp [hs]
    show List.set s.pools_bit_array_ L.length p1.FreePos.isSome =
      List.map (fun p => p.FreePos.isSome) (L ++ p1 :: R) ++
        List.replicate (Size { s with pools_ := L ++ p1 :: R,
                                      pools_bit_array_ := _ } - (L ++ p1 :: R).length) true
    rw [replace_Size s hs hl, hlen, h.summary]
    generalize s.Size - s.pools_.length = K
    rw [hs]
    have key := set_split (List.map (fun p : FixedPool α => p.FreePos.isSome) L)
      (List.map (fun p : FixedPool α => p.FreePos.isSome) R ++ List.replicate K true)
      p.FreePos.isSome p1.FreePos.isSome
    simp

theorem Disj.disj_replace {s : DynamicPool α} (h : Disj s) {L R : List (FixedPool α)}
    {p p1 : FixedPool α} (hs : s.pools_ = L ++ p :: R) (hd : p1.data = p.data)
    (hl : p1.bit_arr_.length = p.bit_arr_.length) (b : BitVector) :
    Disj { s with pools_ := L ++ p1 :: R, pools_bit_array_ := b } := by
  have hR : ∀ r, p1.InRange r ↔ p.InRange r := by
    intro r
    simp [FixedPool.InRange, hd, hl]
  have hdis : List.Pairwise (fun p q : FixedPool α => ∀ r, p.InRange r → ¬ q.InRange r)
      (L ++ p :: R) := hs ▸ h
  show List.Pairwise _ (L ++ p1 :: R)
  simp only [List.pairwise_append, List.pairwise_cons, List.mem_cons, hR] at hdis ⊢
  obtain ⟨h1, ⟨h2, h3⟩, h4⟩ := hdis
  refine ⟨h1, ⟨h2, h3⟩, ?_⟩
  intro a ha b hb
  rcases hb with rfl | hb
  · intro r hr
    rw [hR]
    exact h4 a ha p (Or.inl rfl) r hr
  · exact h4 a ha b (Or.inr hb)

theorem replace_freeCount (s : DynamicPool α) {L R : List (FixedPool α)} {p : FixedPool α}
    (p1 : FixedPool α) (hs : s.pools_ = L ++ p :: R) (b : BitVector) :
    freeCount { s with pools_ := L ++ p1 :: R, pools_bit_array_ := b } + p.freeCount =
      s.freeCount + p1.freeCount := by
  simp only [freeCount, hs, List.map_append, List.map_cons, List.sum_append, List.sum_cons]
  omega

/-- With disjoint storage, an address in the range of one sub-pool is in the range of no
other sub-pool. -/
theorem Disj.other {s : DynamicPool α} (h : Disj s) {L R : List (FixedPool α)}
    {p : FixedPool α} (hs : s.pools_ = L ++ p :: R) (q : FixedPool α) (hq : q ∈ L ∨ q ∈ R)
    (x : Int) (hx : p.InRange x) : ¬ q.InRange x := by
  have hdis : List.Pairwise (fun p q : FixedPool α => ∀ r, p.InRange r → ¬ q.InRange r)
      (L ++ p :: R) := hs ▸ h
  simp only [List.pairwise_append, List.pairwise_cons, List.mem_cons] at hdis
  obtain ⟨-, ⟨h2, -⟩, h4⟩ := hdis
  rcases hq with hq | hq
  · intro hqx
    exact h4 q hq p (Or.inl rfl) x hqx hx
  · exact h2 q hq x hx

/-- The state that `Acquire` returns when it succeeds. -/
theorem Acquire_ok {s : DynamicPool α} {data : Int} {r : Int} {s' : DynamicPool α}
    (h : s.Acquire data = .ok (r, s')) :
    ∃ L R p p1, (s.grown data).pools_ = L ++ p :: R ∧
      (s.grown data).pools_bit_array_.countl_zero = some L.length ∧
      p.Acquire = .ok (r, p1) ∧
      s' = { value_ := (s.grown data).value_, growth_ := (s.grown data).growth_,
             pools_ := L ++ p1 :: R,
             pools_bit_array_ :=
               (s.grown data).pools_bit_array_.set L.length p1.FreePos.isSome } := by
  unfold Acquire at h
  simp only at h
  split at h
  · cases h
  · next fp hfp =>
    split at h
    · cases h
    · next pool hpool =>
      split at h
      · cases h
      · next obj pool1 hacq =>
        injection h with h
        injection h with h1 h2
        subst h1
        obtain ⟨L, R, hs, rfl⟩ := getElem?_split _ _ _ hpool
        refine ⟨L, R, pool, pool1, hs, hfp, hacq, ?_⟩
        rw [← h2, hs, set_split]

/-- The state that `Release` returns when it succeeds. -/
theorem Release_ok {s : DynamicPool α} {obj : Int} {s' : DynamicPool α}
    (h : s.Release obj = .ok s') :
    ∃ L R p p1, s.pools_ = L ++ p :: R ∧ p.Release obj = .ok p1 ∧
      L.length < s.pools_bit_array_.length ∧
      s' = { s with pools_ := L ++ p1 :: R,
                    pools_bit_array_ := s.pools_bit_array_.set L.length true } := by
  unfold Release at h
  split at h
  · cases h
  · next i hi =>
    split at h
    · cases h
    · next pool hpool =>
      split at h
      · cases h
      · next pool1 hrel =>
        split at h
        · next hlt =>
          injection h with h
          obtain ⟨L, R, hs, rfl⟩ := getElem?_split _ _ _ hpool
          refine ⟨L, R, pool, pool1, hs, hrel, hlt, ?_⟩
          rw [← h, hs, set_split]
        · cases h

theorem Shape.shape_grown {s : DynamicPool α} (h : Shape s) (data : Int) :
    Shape (s.grown data) := by
  unfold DynamicPool.grown
  split
  · exact h.shape_GrowExtra _ _
  · exact h

theorem Disj.disj_grown {s : DynamicPool α} (h : Disj s) (data : Int)
    (hf : s.PoolsAllAcquired = true → s.freshAlloc (s.growth_ s.Size) data = true) :
    Disj (s.grown data) := by
  unfold DynamicPool.grown
  split
  · next hall => exact h.disj_GrowExtra _ _ (hf hall)
  · exact h

theorem Held.held_grown {s : DynamicPool α} {held : List Int} (h : Held s held) (data : Int) :
    Held (s.grown data) held := by
  unfold DynamicPool.grown
  split
  · exact h.held_GrowExtra _ _
  · exact h

/-- A successful `Acquire` keeps both invariants and returns a reference that was not held. -/
theorem Acquire_inv {s : DynamicPool α} {held : List Int} (hsh : Shape s) (hdj : Disj s)
    (hh : Held s held) {data : Int} {r : Int} {s' : DynamicPool α}
    (hf : s.PoolsAllAcquired = true → s.freshAlloc (s.growth_ s.Size) data = true)
    (h : s.Acquire data = .ok (r, s')) :
    Shape s' ∧ Disj s' ∧ Held s' (r :: held) ∧ r ∉ held := by
  obtain ⟨L, R, p, p1, hs, -, hacq, rfl⟩ := Acquire_ok h
  have hsh1 := hsh.shape_grown data
  have hdj1 := hdj.disj_grown data hf
  have hh1 := hh.held_grown data
  obtain ⟨hd, ho, hl, hin, hno, hocc, hc⟩ := FixedPool.Acquire_spec hacq
  have hnot : r ∉ held := by
    intro hm
    obtain ⟨q, hq, hqx⟩ := (hh1.held_iff r).1 hm
    rw [hs] at hq
    simp only [List.mem_append, List.mem_cons] at hq
    rcases hq with hq | rfl | hq
    · exact hdj1.other hs q (Or.inl hq) r hin hqx.inRange
    · exact hno hqx
    · exact hdj1.other hs q (Or.inr hq) r hin hqx.inRange
  refine ⟨hsh1.shape_replace hs hd ho hl, hdj1.disj_replace hs hd hl _, ⟨?_, ?_, ?_⟩, hnot⟩
  · exact List.nodup_cons.2 ⟨hnot, hh1.nodup⟩
  · intro x
    simp only [List.mem_cons, hh1.held_iff x, hs, List.mem_append]
    constructor
    · rintro (rfl | ⟨q, hq | rfl | hq, hqx⟩)
      · exact ⟨p1, Or.inr (Or.inl rfl), (hocc _).2 (Or.inl rfl)⟩
      · exact ⟨q, Or.inl hq, hqx⟩
      · exact ⟨p1, Or.inr (Or.inl rfl), (hocc _).2 (Or.inr hqx)⟩
      · exact ⟨q, Or.inr (Or.inr hq), hqx⟩
    · rintro ⟨q, hq | rfl | hq, hqx⟩
      · exact Or.inr ⟨q, Or.inl hq, hqx⟩
      · rcases (hocc _).1 hqx with rfl | hpx
        · exact Or.inl rfl
        · exact Or.inr ⟨p, Or.inr (Or.inl rfl), hpx⟩
      · exact Or.inr ⟨q, Or.inr (Or.inr hq), hqx⟩
  · have h1 := replace_freeCount (s.grown data) p1 hs
      ((s.grown data).pools_bit_array_.set L.length p1.FreePos.isSome)
    have h2 := replace_Size (s.grown data) hs hl
      ((s.grown data).pools_bit_array_.set L.length p1.FreePos.isSome)
    have h3 := hh1.count
    rw [h2]
    simp only [List.length_cons]
    omega

/-- A successful `Release` keeps both invariants; the reference released was held. -/
theorem Release_inv {s : DynamicPool α} {held : List Int} (hsh : Shape s) (hdj : Disj s)
    (hh : Held s held) {obj : Int} {s' : DynamicPool α} (h : s.Release obj = .ok s') :
    Shape s' ∧ Disj s' ∧ Held s' (held.erase obj) ∧ obj ∈ held ∧ s'.Size = s.Size ∧
      s'.storage = s.storage ∧
      s'.freeCount = s.freeCount + 1 ∧ s'.growth_ = s.growth_ := by
  obtain ⟨L, R, p, p1, hs, hrel, -, rfl⟩ := Release_ok h
  obtain ⟨hd, ho, hl, hin, hoc, hocc, hc⟩ := FixedPool.Release_spec hrel
  have hfree : p1.FreePos.isSome = true := by
    rw [FixedPool.FreePos_isSome_iff]
    omega
  have hmem : obj ∈ held := (hh.held_iff obj).2 ⟨p, by simp [hs], hoc⟩
  have hshape := hsh.shape_replace hs hd ho hl
  rw [hfree] at hshape
  have h1 := replace_freeCount s p1 hs (s.pools_bit_array_.set L.length true)
  have h2 := replace_Size s hs hl (s.pools_bit_array_.set L.length true)
  refine ⟨hshape, hdj.disj_replace hs hd hl _, ⟨hh.nodup.erase obj, ?_, ?_⟩, hmem, h2,
    by simp [storage, hs, hd, hl], by omega, rfl⟩
  · intro x
    simp only [hh.nodup.mem_erase_iff, hh.held_iff x, hs, List.mem_append, List.mem_cons]
    constructor
    · rintro ⟨hne, q, hq | rfl | hq, hqx⟩
      · exact ⟨q, Or.inl hq, hqx⟩
      · exact ⟨p1, Or.inr (Or.inl rfl), (hocc _).2 ⟨hne, hqx⟩⟩
      · exact ⟨q, Or.inr (Or.inr hq), hqx⟩
    · rintro ⟨q, hq | rfl | hq, hqx⟩
      · refine ⟨?_, q, Or.inl hq, hqx⟩
        rintro rfl
        exact hdj.other hs q (Or.inl hq) _ hin hqx.inRange
      · exact ⟨((hocc _).1 hqx).1, p, Or.inr (Or.inl rfl), ((hocc _).1 hqx).2⟩
      · refine ⟨?_, q, Or.inr (Or.inr hq), hqx⟩
        rintro rfl
        exact hdj.other hs q (Or.inr hq) _ hin hqx.inRange
  · have h3 := hh.count
    have hpos : 0 < held.length := List.length_pos_of_mem hmem
    rw [h2]
    simp only [List.length_erase_of_mem hmem]
    omega

theorem sum_eq_zero_iff_all (l : List Nat) : l.sum = 0 ↔ ∀ x ∈ l, x = 0 := by
  induction l with
  | nil => simp
  | cons a l ih => simp [ih]

theorem PoolsAllAcquired_iff (s : DynamicPool α) :
    s.PoolsAllAcquired = true ↔ s.freeCount = 0 := by
  simp only [PoolsAllAcquired, List.all_eq_true, freeCount, sum_eq_zero_iff_all, List.mem_map,
    forall_exists_index, and_imp, forall_apply_eq_imp_iff₂, AllAcquired, Bool.not_eq_true']
  constructor
  · intro h p hp
    have h1 := h p hp
    have h2 := FixedPool.FreePos_isSome_iff p
    rw [h1] at h2
    simp at h2
    exact h2
  · intro h p hp
    have h1 := h p hp
    have h2 := FixedPool.FreePos_isSome_iff p
    rw [h1] at h2
    simpa using h2

theorem not_PoolsAllAcquired (s : DynamicPool α) (h : s.PoolsAllAcquired = false) :
    ∃ p ∈ s.pools_, p.FreePos.isSome = true := by
  simp only [PoolsAllAcquired, List.all_eq_false, AllAcquired, Bool.not_eq_true', Bool.not_eq_false,
    Bool.not_eq_true] at h
  obtain ⟨p, hp, hfree⟩ := h
  refine ⟨p, hp, ?_⟩
  simpa using hfree

/-- The scan of a summary bitmap that starts with the per-pool bits finds the first pool
with a free slot, if there is one. -/
theorem scan_spec {β : Type} (f : β → Bool) (l : List β) (t : List Bool)
    (h : ∃ p ∈ l, f p = true) :
    ∃ L p R, l = L ++ p :: R ∧ find_if id (l.map f ++ t) = some L.length ∧ f p = true ∧
      ∀ q ∈ L, f q = false := by
  induction l with
  | nil => simp at h
  | cons a l ih =>
    by_cases ha : f a = true
    · exact ⟨[], a, l, rfl, by simp [find_if, ha], ha, by simp⟩
    · have h' : ∃ p ∈ l, f p = true := by
        obtain ⟨q, hq, hfq⟩ := h
        rcases List.mem_cons.1 hq with rfl | hq
        · exact absurd hfq ha
        · exact ⟨q, hq, hfq⟩
      obtain ⟨L, p, R, rfl, hfind, hp, hall⟩ := ih h'
      refine ⟨a :: L, p, R, rfl, ?_, hp, ?_⟩
      · show find_if id (f a :: (List.map f (L ++ p :: R) ++ t)) = _
        have ha' : f a = false := by simpa using ha
        simp only [find_if, id, ha', Bool.false_eq_true, if_false, hfind, Option.map_some',
          List.length_cons]
      · intro q hq
        rcases List.mem_cons.1 hq with rfl | hq
        · simpa using ha
        · exact hall q hq

/-- What a successful `Acquire` leaves unchanged with respect to the state after growth. -/
theorem Acquire_frame {s : DynamicPool α} {data : Int} {r : Int} {s' : DynamicPool α}
    (h : s.Acquire data = .ok (r, s')) :
    s'.Size = (s.grown data).Size ∧ s'.storage = (s.grown data).storage ∧
      s'.freeCount + 1 = (s.grown data).freeCount ∧ s'.growth_ = (s.grown data).growth_ ∧
      s'.value_ = (s.grown data).value_ := by
  obtain ⟨L, R, p, p1, hs, -, hacq, rfl⟩ := Acquire_ok h
  obtain ⟨hd, ho, hl, hin, hno, hocc, hc⟩ := FixedPool.Acquire_spec hacq
  have h1 := replace_freeCount (s.grown data) p1 hs
    ((s.grown data).pools_bit_array_.set L.length p1.FreePos.isSome)
  refine ⟨replace_Size _ hs hl _, by simp [storage, hs, hd, hl], by omega, rfl, rfl⟩

theorem grown_full (s : DynamicPool α) (data : Int) (h : s.PoolsAllAcquired = true) :
    s.grown data = s.GrowExtra (s.growth_ s.Size) data := by
  simp [grown, h]

theorem grown_not_full (s : DynamicPool α) (data : Int) (h : s.PoolsAllAcquired = false) :
    s.grown data = s := by
  simp [grown, h]

theorem GrowExtra_storage (s : DynamicPool α) (n : Nat) (data : Int) (hn : 0 < n) :
    (s.GrowExtra n data).storage = s.storage ++ [(data, n)] := by
  rw [GrowExtra_pos s n data hn]
  obtain ⟨hd, hb, -, -, -⟩ := newPool_facts s n data
  simp [storage, hd, hb]

theorem GrowExtra_freeCount (s : DynamicPool α) (n : Nat) (data : Int) :
    (s.GrowExtra n data).freeCount = s.freeCount + n := by
  rcases Nat.eq_zero_or_pos n with rfl | hn
  · simp [GrowExtra_zero]
  rw [GrowExtra_pos s n data hn]
  obtain ⟨-, hb, -, -, -⟩ := newPool_facts s n data
  simp [freeCount, FixedPool.freeCount, hb, List.count_replicate]

theorem GrowExtra_growth (s : DynamicPool α) (n : Nat) (data : Int) :
    (s.GrowExtra n data).growth_ = s.growth_ := by
  unfold GrowExtra
  split <;> rfl

theorem grown_growth (s : DynamicPool α) (data : Int) : (s.grown data).growth_ = s.growth_ := by
  unfold grown
  split
  · exact GrowExtra_growth _ _ _
  · rfl

/-- `Acquire` succeeds as soon as, after the growth step, some sub-pool has a free slot: the
scan finds the first such sub-pool. -/
theorem Acquire_of_free {s : DynamicPool α} (hsh : Shape s) (data : Int)
    (h : ∃ p ∈ (s.grown data).pools_, p.FreePos.isSome = true) :
    ∃ fp pool, (s.grown data).pools_bit_array_.countl_zero = some fp ∧
      (s.grown data).pools_[fp]? = some pool ∧ pool.FreePos.isSome = true ∧
      ∃ r s', s.Acquire data = .ok (r, s') := by
  have hsh1 := hsh.shape_grown data
  obtain ⟨L, p, R, hs, hfind, hp, -⟩ :=
    scan_spec (fun p : FixedPool α => p.FreePos.isSome) (s.grown data).pools_
      (List.replicate ((s.grown data).Size - (s.grown data).pools_.length) true) h
  rw [← hsh1.summary] at hfind
  have hget : (s.grown data).pools_[L.length]? = some p := by
    rw [hs]; exact getElem?_mid L R p
  obtain ⟨r, p', hacq⟩ := FixedPool.Acquire_succeeds p hp
  refine ⟨L.length, p, hfind, hget, hp, ?_⟩
  unfold Acquire
  simp only [BitVector.countl_zero, hfind, hget, hacq]
  exact ⟨_, _, rfl⟩

theorem free_after_growth {s : DynamicPool α} (data : Int)
    (hg : s.PoolsAllAcquired = true → 0 < s.growth_ s.Size) :
    ∃ p ∈ (s.grown data).pools_, p.FreePos.isSome = true := by
  cases hall : s.PoolsAllAcquired with
  | false =>
    rw [grown_not_full s data hall]
    exact not_PoolsAllAcquired s hall
  | true =>
    rw [grown_full s data hall, GrowExtra_pos s _ data (hg hall)]
    obtain ⟨-, -, -, -, hfp⟩ := newPool_facts s (s.growth_ s.Size) data
    exact ⟨s.newPool (s.growth_ s.Size) data, by simp, by rw [hfp (hg hall)]; rfl⟩

theorem Shape.shape_new (count : Nat) (value : Option α) (growth : Nat → Nat) (data : Int) :
    Shape (DynamicPool.new count value growth data) := by
  refine Shape.shape_GrowExtra ⟨?_, ?_⟩ _ _
  · simp
  · simp [Size]

theorem Disj.disj_new (count : Nat) (value : Option α) (growth : Nat → Nat) (data : Int) :
    Disj (DynamicPool.new count value growth data) := by
  refine Disj.disj_GrowExtra ?_ _ _ ?_
  · simp [Disj]
  · simp [freshAlloc]

theorem Held.held_new (count : Nat) (value : Option α) (growth : Nat → Nat) (data : Int) :
    Held (DynamicPool.new count value growth data) [] := by
  refine Held.held_GrowExtra ⟨List.nodup_nil, ?_, ?_⟩ _ _
  · simp
  · simp [Size, freeCount]

theorem Inv.dyn_new (count : Nat) (value : Option α) (growth : Nat → Nat) (data : Int) :
    Inv (DynamicPool.new count value growth data) [] :=
  ⟨Shape.shape_new _ _ _ _, Disj.disj_new _ _ _ _, Held.held_new _ _ _ _⟩

theorem Extends.refl (s : DynamicPool α) : Extends s s := ⟨[], by simp⟩

theorem Extends.trans {a b c : DynamicPool α} (h1 : Extends a b) (h2 : Extends b c) :
    Extends a c := by
  obtain ⟨e1, h1⟩ := h1
  obtain ⟨e2, h2⟩ := h2
  exact ⟨e1 ++ e2, by rw [h2, h1, List.append_assoc]⟩

theorem Extends.extends_GrowExtra (s : DynamicPool α) (n : Nat) (data : Int) :
    Extends s (s.GrowExtra n data) := by
  rcases Nat.eq_zero_or_pos n with rfl | hn
  · rw [GrowExtra_zero]; exact Extends.refl s
  · exact ⟨_, GrowExtra_storage s n data hn⟩

theorem Extends.extends_grown (s : DynamicPool α) (data : Int) : Extends s (s.grown data) := by
  unfold DynamicPool.grown
  split
  · exact Extends.extends_GrowExtra _ _ _
  · exact Extends.refl s

theorem Inv.dyn_step {s : DynamicPool α} {held : List Int} (hinv : Inv s held) (op : DynOp α)
    {st : DynamicPool α × List Int} (h : step (s, held) op = some st) :
    Inv st.1 st.2 ∧ Extends s st.1 := by
  cases op with
  | growExtra n data =>
    simp only [DynamicPool.step] at h
    split at h
    · next hf =>
      injection h with h
      subst h
      exact ⟨⟨hinv.shape.shape_GrowExtra _ _, hinv.disj.disj_GrowExtra _ _ hf, hinv.held.held_GrowExtra _ _⟩,
        Extends.extends_GrowExtra _ _ _⟩
    · cases h
  | acquire data =>
    simp only [DynamicPool.step] at h
    split at h
    · cases h
    · next hf =>
      split at h
      · cases h
      · next r s' hacq =>
        injection h with h
        subst h
        have hf' : s.PoolsAllAcquired = true →
            s.freshAlloc (s.growth_ s.Size) data = true := by
          intro hall
          simp only [hall, Bool.true_and, Bool.not_eq_true', Bool.not_eq_false] at hf
          simpa using hf
        obtain ⟨h1, h2, h3, -⟩ := Acquire_inv hinv.shape hinv.disj hinv.held hf' hacq
        refine ⟨⟨h1, h2, h3⟩, ?_⟩
        obtain ⟨e, he⟩ := Extends.extends_grown s data
        exact ⟨e, by rw [(Acquire_frame hacq).2.1, he]⟩
  | release obj =>
    simp only [DynamicPool.step] at h
    split at h
    · cases h
    · next s' hrel =>
      injection h with h
      subst h
      obtain ⟨h1, h2, h3, -, -, hst, -⟩ := Release_inv hinv.shape hinv.disj hinv.held hrel
      exact ⟨⟨h1, h2, h3⟩, ⟨[], by simp [hst]⟩⟩
  | setGrowth g =>
    simp only [DynamicPool.step] at h
    injection h with h
    subst h
    exact ⟨⟨⟨hinv.shape.pool_len, hinv.shape.summary⟩, hinv.disj,
      ⟨hinv.held.nodup, hinv.held.held_iff, hinv.held.count⟩⟩, Extends.refl s⟩
  | setValue v =>
    simp only [DynamicPool.step] at h
    injection h with h
    subst h
    exact ⟨⟨⟨hinv.shape.pool_len, hinv.shape.summary⟩, hinv.disj,
      ⟨hinv.held.nodup, hinv.held.held_iff, hinv.held.count⟩⟩, Extends.refl s⟩

theorem Inv.dyn_run (ops : List (DynOp α)) {s : DynamicPool α} {held : List Int}
    (hinv : Inv s held) {st : DynamicPool α × List Int} (h : run (s, held) ops = some st) :
    Inv st.1 st.2 ∧ Extends s st.1 := by
  induction ops generalizing s held with
  | nil =>
    simp only [DynamicPool.run] at h
    injection h with h
    subst h
    exact ⟨hinv, Extends.refl s⟩
  | cons op ops ih =>
    simp only [DynamicPool.run] at h
    split at h
    · cases h
    · next st1 hst =>
      obtain ⟨h1, h2⟩ := hinv.dyn_step op hst
      obtain ⟨h3, h4⟩ := ih h1 h
      exact ⟨h3, h2.trans h4⟩

/-! ### Positions of references -/

theorem find_if_mid {β : Type} (P : β → Bool) (L R : List β) (x : β) (hx : P x = true)
    (hL : ∀ y ∈ L, P y = false) : find_if P (L ++ x :: R) = some L.length := by
  induction L with
  | nil => simp [find_if, hx]
  | cons a L ih =>
    have ha : P a = false := hL a (List.mem_cons_self _ _)
    have := ih fun y hy => hL y (List.mem_cons_of_mem _ hy)
    simp [find_if, ha, this]

theorem find_if_append {β : Type} (P : β → Bool) (l e : List β) (i : Nat)
    (h : find_if P l = some i) : find_if P (l ++ e) = some i := by
  obtain ⟨L, x, R, rfl, rfl, hx, hL⟩ := find_if_eq_some P l i h
  rw [List.append_assoc, List.cons_append]
  exact find_if_mid P L (R ++ e) x hx hL

theorem locate_some {s : DynamicPool α} {r : Int} {i j : Nat} (h : s.locate r = some (i, j)) :
    ∃ x, s.storage[i]? = some x ∧ x.1 ≤ r ∧ r < x.1 + (x.2 : Int) ∧ j = (r - x.1).toNat := by
  unfold locate at h
  cases hf : find_if (fun st : Int × Nat => decide (st.1 ≤ r) && decide (r < st.1 + (st.2 : Int)))
      s.storage with
  | none => simp [hf] at h
  | some k =>
    obtain ⟨L, x, R, hs, hk, hx, -⟩ := find_if_eq_some _ _ _ hf
    have hget : s.storage[k]? = some x := by
      rw [hs, ← hk]; exact getElem?_mid L R x
    simp only [hf, Option.some_bind, hget, Option.map_some', Option.some.injEq,
      Prod.mk.injEq] at h
    obtain ⟨rfl, rfl⟩ := h
    simp only [Bool.and_eq_true, decide_eq_true_eq] at hx
    exact ⟨x, hget, hx.1, hx.2, rfl⟩

theorem locate_inj {s : DynamicPool α} {r1 r2 : Int} {ij : Nat × Nat}
    (h1 : s.locate r1 = some ij) (h2 : s.locate r2 = some ij) : r1 = r2 := by
  obtain ⟨i, j⟩ := ij
  obtain ⟨x, hx, hx1, -, hj1⟩ := locate_some h1
  obtain ⟨y, hy, hy1, -, hj2⟩ := locate_some h2
  rw [hx] at hy
  injection hy with hy
  subst hy
  omega

theorem locate_extends {s s' : DynamicPool α} (he : Extends s s') {r : Int} {ij : Nat × Nat}
    (h : s.locate r = some ij) : s'.locate r = some ij := by
  obtain ⟨e, he⟩ := he
  unfold locate at h ⊢
  cases hf : find_if (fun st : Int × Nat => decide (st.1 ≤ r) && decide (r < st.1 + (st.2 : Int)))
      s.storage with
  | none => simp [hf] at h
  | some k =>
    obtain ⟨L, x, R, hs, hk, -, -⟩ := find_if_eq_some _ _ _ hf
    have hlt : k < s.storage.length := by
      rw [hs, ← hk]; simp
    rw [he, find_if_append _ _ e _ hf]
    rw [hf] at h
    simp only [Option.some_bind] at h ⊢
    rw [List.getElem?_append_left hlt]
    exact h

/-- With disjoint storage, a slot of sub-pool number `L.length` is located there. -/
theorem locate_of_inRange {s : DynamicPool α} (hdj : Disj s) {L R : List (FixedPool α)}
    {p : FixedPool α} (hs : s.pools_ = L ++ p :: R) {r : Int} (hin : p.InRange r) :
    s.locate r = some (L.length, (r - p.data).toNat) := by
  have hst : s.storage =
      L.map (fun p => (p.data, p.bit_arr_.length)) ++ (p.data, p.bit_arr_.length) ::
        R.map (fun p => (p.data, p.bit_arr_.length)) := by
    simp [storage, hs]
  have hfind : find_if (fun st : Int × Nat =>
      decide (st.1 ≤ r) && decide (r < st.1 + (st.2 : Int))) s.storage = some L.length := by
    rw [hst]
    have := find_if_mid (fun st : Int × Nat =>
      decide (st.1 ≤ r) && decide (r < st.1 + (st.2 : Int)))
      (L.map (fun p => (p.data, p.bit_arr_.length)))
      (R.map (fun p => (p.data, p.bit_arr_.length))) (p.data, p.bit_arr_.length)
      (by simpa [FixedPool.InRange] using hin)
      (by
        intro y hy
        obtain ⟨q, hq, rfl⟩ := List.mem_map.1 hy
        have hno := hdj.other hs q (Or.inl hq) r hin
        simp only [FixedPool.InRange] at hno
        by_contra hc
        simp only [Bool.not_eq_false, Bool.and_eq_true, decide_eq_true_eq] at hc
        exact hno hc)
    simpa using this
  have hget : s.storage[L.length]? = some (p.data, p.bit_arr_.length) := by
    rw [hst]
    have := getElem?_mid (L.map (fun p : FixedPool α => (p.data, p.bit_arr_.length)))
      (R.map (fun p => (p.data, p.bit_arr_.length))) (p.data, p.bit_arr_.length)
    simpa using this
  simp [locate, hfind, hget]

/-- Every held reference is located in a sub-pool, at a slot marked acquired. -/
theorem Inv.locate_held {s : DynamicPool α} {held : List Int} (hinv : Inv s held) {r : Int}
    (hr : r ∈ held) :
    ∃ i j p, s.locate r = some (i, j) ∧ s.pools_[i]? = some p ∧ p.bit_arr_[j]? = some false := by
  obtain ⟨p, hp, hocc⟩ := (hinv.held.held_iff r).1 hr
  obtain ⟨L, R, hs⟩ := List.append_of_mem hp
  refine ⟨L.length, (r - p.data).toNat, p, locate_of_inRange hinv.disj hs hocc.inRange, ?_,
    hocc.2⟩
  rw [hs]
  exact getElem?_mid L R p

theorem Shape.Size_eq_capacity {s : DynamicPool α} (h : Shape s) :
    s.Size = (s.pools_.map fun p => p.object_arr_.length).sum := by
  rw [Size_eq]
  congr 1
  apply List.map_congr_left
  intro p hp
  rw [(h.pool_len p hp).1]
  rfl

end DynamicPool

/-! ### Slot pool: claims -/

/-- C1. Slot Pool no double-issue: after any sequence of `Acquire()`, `Acquire(pos_hint)` and
`Release` calls on a pool of capacity `N` that all return normally, a reference returned by
the next `Acquire()` or `Acquire(pos_hint)` is the address of a slot of the pool and is not
among the references currently held (acquired earlier and not yet released); the held
references are pairwise distinct. -/
theorem FixedPool.no_double_issue {α : Type} (N : Nat) (data : Int) (value : α)
    (ops : List FixedOp) (p : FixedPool α) (held : List Int)
    (hrun : FixedPool.run (FixedPool.new data N value, []) ops = .ok (p, held)) :
    held.Nodup ∧
      (∀ r p', p.Acquire = .ok (r, p') → r ∉ held ∧ p.InRange r) ∧
      (∀ pos r p', p.AcquireAt pos = .ok (r, p') → r ∉ held ∧ p.InRange r) := by
  have hinv := FixedPool.Inv.fixed_run ops (FixedPool.Inv.fixed_new data N value) hrun
  refine ⟨hinv.nodup, ?_, ?_⟩
  · intro r p' h
    obtain ⟨-, -, -, hin, hno, -, -⟩ := FixedPool.Acquire_spec h
    exact ⟨fun hm => hno ((hinv.held_iff r).1 hm), hin⟩
  · intro pos r p' h
    obtain ⟨-, -, -, hin, hno, -, -, -, -⟩ := FixedPool.AcquireAt_spec h
    exact ⟨fun hm => hno ((hinv.held_iff r).1 hm), hin⟩

theorem FixedPool.no_double_issue_witness :
    FixedPool.run (FixedPool.new 100 3 (), []) [.acquire, .acquireAt 2, .release 100] =
        .ok (⟨100, [(), (), ()], [true, true, false]⟩, [102]) ∧
      ([102] : List Int).Nodup ∧
      (∀ r p', (⟨100, [(), (), ()], [true, true, false]⟩ : FixedPool Unit).Acquire = .ok (r, p') →
        r ∉ [102] ∧ (⟨100, [(), (), ()], [true, true, false]⟩ : FixedPool Unit).InRange r) ∧
      (∀ pos r p',
        (⟨100, [(), (), ()], [true, true, false]⟩ : FixedPool Unit).AcquireAt pos = .ok (r, p') →
        r ∉ [102] ∧ (⟨100, [(), (), ()], [true, true, false]⟩ : FixedPool Unit).InRange r) :=
  ⟨rfl, FixedPool.no_double_issue 3 100 () [.acquire, .acquireAt 2, .release 100]
    ⟨100, [(), (), ()], [true, true, false]⟩ [102] rfl⟩

/-- C8. Slot Pool fullness: after any sequence of `Acquire` and `Release` calls on a pool of
capacity `N` (also `N = 0`) that all return normally, `Size()` is `N`, `FreePos()` is empty
exactly when the number of held references (acquisitions not yet matched by a release)
equals `Size()`, `AllAcquired` is true in exactly that case, and a non-empty `FreePos()`
is the index of a slot whose bit is set and whose reference is not held. -/
theorem FixedPool.fullness {α : Type} (N : Nat) (data : Int) (value : α)
    (ops : List FixedOp) (p : FixedPool α) (held : List Int)
    (hrun : FixedPool.run (FixedPool.new data N value, []) ops = .ok (p, held)) :
    p.Size = N ∧ (p.FreePos = none ↔ held.length = p.Size) ∧
      (AllAcquired p = true ↔ held.length = p.Size) ∧
      ∀ i, p.FreePos = some i →
        i < p.Size ∧ p.bit_arr_[i]? = some true ∧ p.data + (i : Int) ∉ held := by
  have hinv : FixedPool.Inv N p held :=
    FixedPool.Inv.fixed_run ops (FixedPool.Inv.fixed_new data N value) hrun
  have hcount := hinv.count
  have hsize : p.Size = N := hinv.len_bits
  have hnone : p.FreePos = none ↔ held.length = p.Size := by
    rw [hsize]
    unfold FixedPool.FreePos
    rw [countl_zero_eq_none]
    unfold FixedPool.freeCount at hcount
    omega
  refine ⟨hsize, hnone, ?_, ?_⟩
  · rw [← hnone]
    unfold AllAcquired
    cases p.FreePos <;> simp
  · intro i hi
    have hb := countl_zero_eq_some _ _ hi
    have hlt : i < p.bit_arr_.length := by
      rcases List.getElem?_eq_some.1 hb with ⟨hl, -⟩
      exact hl
    refine ⟨hlt, hb, ?_⟩
    intro hm
    obtain ⟨-, h2⟩ := (hinv.held_iff _).1 hm
    have : (p.data + (i : Int) - p.data).toNat = i := by omega
    rw [this, hb] at h2
    cases h2

theorem FixedPool.fullness_witness :
    FixedPool.run (FixedPool.new 100 2 (), []) [.acquire, .acquire, .release 100] =
        .ok (⟨100, [(), ()], [true, false]⟩, [101]) ∧
      (⟨100, [(), ()], [true, false]⟩ : FixedPool Unit).Size = 2 ∧
      ((⟨100, [(), ()], [true, false]⟩ : FixedPool Unit).FreePos = none ↔
        ([101] : List Int).length = (⟨100, [(), ()], [true, false]⟩ : FixedPool Unit).Size) ∧
      (AllAcquired (⟨100, [(), ()], [true, false]⟩ : FixedPool Unit) = true ↔
        ([101] : List Int).length = (⟨100, [(), ()], [true, false]⟩ : FixedPool Unit).Size) ∧
      ∀ i, (⟨100, [(), ()], [true, false]⟩ : FixedPool Unit).FreePos = some i →
        i < (⟨100, [(), ()], [true, false]⟩ : FixedPool Unit).Size ∧
          (⟨100, [(), ()], [true, false]⟩ : FixedPool Unit).bit_arr_[i]? = some true ∧
          (⟨100, [(), ()], [true, false]⟩ : FixedPool Unit).data + (i : Int) ∉ [101] :=
  ⟨rfl, FixedPool.fullness 2 100 () [.acquire, .acquire, .release 100]
    ⟨100, [(), ()], [true, false]⟩ [101] rfl⟩

/-! ### Growable pool: claims -/

section DynamicClaims

variable {α : Type} [Inhabited α]

/-- C2. Growable Pool no invalidation on growth: from a state reached from construction by
`GrowExtra`, `Acquire`, `Release` (and `SetGrowth`, `SetValue`) calls, any further such
sequence only appends sub-pools to the storage layout (no sub-pool is removed, resized or
reordered), every reference held before still denotes the same (sub-pool, slot), every
reference held afterwards denotes a slot of an existing sub-pool that is marked acquired,
the held references are pairwise distinct, and no two of them denote the same
(sub-pool, slot). -/
theorem DynamicPool.no_invalidation (count : Nat) (value : Option α) (growth : Nat → Nat)
    (data : Int) (ops1 ops2 : List (DynOp α)) (s s' : DynamicPool α) (held held' : List Int)
    (h1 : DynamicPool.run (DynamicPool.new count value growth data, []) ops1 = some (s, held))
    (h2 : DynamicPool.run (s, held) ops2 = some (s', held')) :
    (∃ extra, s'.storage = s.storage ++ extra) ∧
      (∀ r ∈ held, ∃ i j, s.locate r = some (i, j) ∧ s'.locate r = some (i, j)) ∧
      (∀ r ∈ held', ∃ i j p, s'.locate r = some (i, j) ∧ s'.pools_[i]? = some p ∧
        p.bit_arr_[j]? = some false) ∧
      held'.Nodup ∧
      (∀ r1 ∈ held', ∀ r2 ∈ held', s'.locate r1 = s'.locate r2 → r1 = r2) := by
  obtain ⟨hinv, -⟩ := DynamicPool.Inv.dyn_run ops1 (DynamicPool.Inv.dyn_new count value growth data) h1
  obtain ⟨hinv', hext⟩ := DynamicPool.Inv.dyn_run ops2 hinv h2
  refine ⟨hext, ?_, ?_, hinv'.held.nodup, ?_⟩
  · intro r hr
    obtain ⟨i, j, p, hl, -, -⟩ := hinv.locate_held hr
    exact ⟨i, j, hl, DynamicPool.locate_extends hext hl⟩
  · intro r hr
    exact hinv'.locate_held hr
  · intro r1 hr1 r2 hr2 heq
    obtain ⟨i, j, p, hl, -, -⟩ := hinv'.locate_held hr1
    exact DynamicPool.locate_inj hl (heq ▸ hl)

/-- C3. Acquire never exhausts under a positive growth policy: in every state reached from
construction by `GrowExtra`, `Acquire`, `Release` (and `SetGrowth`, `SetValue`) calls whose
growth function is positive everywhere, `Acquire()` returns a reference: the scan of the
summary bitmap finds a set bit, its index is the index of an existing sub-pool, and that
sub-pool has a free slot. -/
theorem DynamicPool.acquire_never_exhausts (count : Nat) (value : Option α)
    (growth : Nat → Nat) (data : Int) (ops : List (DynOp α)) (s : DynamicPool α)
    (held : List Int)
    (hrun : DynamicPool.run (DynamicPool.new count value growth data, []) ops = some (s, held))
    (hpos : ∀ n, 0 < s.growth_ n) (d : Int) :
    ∃ fp pool, (s.grown d).pools_bit_array_.countl_zero = some fp ∧
      (s.grown d).pools_[fp]? = some pool ∧ pool.FreePos.isSome = true ∧
      ∃ r s', s.Acquire d = .ok (r, s') := by
  obtain ⟨hinv, -⟩ := DynamicPool.Inv.dyn_run ops (DynamicPool.Inv.dyn_new count value growth data) hrun
  exact DynamicPool.Acquire_of_free hinv.shape d
    (DynamicPool.free_after_growth d fun _ => hpos _)

/-- C5. Growable Pool grows only when full: in every reachable state whose growth function is
positive at the current `Size()`, `Acquire()` returns a reference; if every sub-pool is
fully occupied (also when there is none) it appends exactly one sub-pool of
`growth(Size())` slots and `Size()` increases by exactly that number; otherwise the storage
layout and `Size()` are unchanged.  Before and after, `Size()` is the sum of the sub-pools'
capacities. -/
theorem DynamicPool.grows_only_when_full (count : Nat) (value : Option α)
    (growth : Nat → Nat) (data : Int) (ops : List (DynOp α)) (s : DynamicPool α)
    (held : List Int)
    (hrun : DynamicPool.run (DynamicPool.new count value growth data, []) ops = some (s, held))
    (hpos : 0 < s.growth_ s.Size) (d : Int) :
    ∃ r s', s.Acquire d = .ok (r, s') ∧
      (s.PoolsAllAcquired = true →
        s'.Size = s.Size + s.growth_ s.Size ∧
          s'.storage = s.storage ++ [(d, s.growth_ s.Size)] ∧
          s'.pools_.length = s.pools_.length + 1) ∧
      (s.PoolsAllAcquired = false →
        s'.Size = s.Size ∧ s'.storage = s.storage ∧ s'.pools_.length = s.pools_.length) ∧
      s.Size = (s.pools_.map fun p => p.object_arr_.length).sum ∧
      s'.Size = (s'.pools_.map fun p => p.object_arr_.length).sum := by
  obtain ⟨hinv, -⟩ := DynamicPool.Inv.dyn_run ops (DynamicPool.Inv.dyn_new count value growth data) hrun
  obtain ⟨-, -, -, -, -, r, s', hacq⟩ := DynamicPool.Acquire_of_free hinv.shape d
    (DynamicPool.free_after_growth d fun _ => hpos)
  obtain ⟨hS, hst, -, -, -⟩ := DynamicPool.Acquire_frame hacq
  have hlen : ∀ a b : DynamicPool α, a.storage = b.storage → a.pools_.length = b.pools_.length := by
    intro a b hab
    have := congrArg List.length hab
    simpa [DynamicPool.storage] using this
  have hsh' : DynamicPool.Shape s' := by
    obtain ⟨L, R, p, p1, hs, -, hacq1, rfl⟩ := DynamicPool.Acquire_ok hacq
    obtain ⟨hd, ho, hl, -⟩ := FixedPool.Acquire_spec hacq1
    exact (hinv.shape.shape_grown d).shape_replace hs hd ho hl
  refine ⟨r, s', hacq, ?_, ?_, hinv.shape.Size_eq_capacity, hsh'.Size_eq_capacity⟩
  · intro hall
    rw [DynamicPool.grown_full s d hall] at hS hst
    rw [DynamicPool.GrowExtra_Size] at hS
    rw [DynamicPool.GrowExtra_storage s _ d hpos] at hst
    refine ⟨hS, hst, ?_⟩
    have := congrArg List.length hst
    simpa [DynamicPool.storage] using this
  · intro hall
    rw [DynamicPool.grown_not_full s d hall] at hS hst
    exact ⟨hS, hst, hlen _ _ hst⟩

end DynamicClaims

theorem DefaultGrowth_pos (n : Nat) : 0 < DefaultGrowth n := by
  unfold DefaultGrowth
  split <;> omega

theorem DynamicPool.no_invalidation_witness :
    DynamicPool.run (DynamicPool.new 1 none DefaultGrowth 0, []) [.acquire 0] =
        some (exOneHeld, [0]) ∧
      DynamicPool.run (exOneHeld, [0]) [.acquire 10, .release 0] = some (exGrown, [10]) ∧
      (∃ extra, exGrown.storage = exOneHeld.storage ++ extra) ∧
      (∀ r ∈ ([0] : List Int), ∃ i j, exOneHeld.locate r = some (i, j) ∧
        exGrown.locate r = some (i, j)) ∧
      (∀ r ∈ ([10] : List Int), ∃ i j p, exGrown.locate r = some (i, j) ∧
        exGrown.pools_[i]? = some p ∧ p.bit_arr_[j]? = some false) ∧
      ([10] : List Int).Nodup ∧
      (∀ r1 ∈ ([10] : List Int), ∀ r2 ∈ ([10] : List Int),
        exGrown.locate r1 = exGrown.locate r2 → r1 = r2) :=
  ⟨rfl, rfl, DynamicPool.no_invalidation 1 none DefaultGrowth 0 [.acquire 0]
    [.acquire 10, .release 0] exOneHeld exGrown [0] [10] rfl rfl⟩

theorem DynamicPool.acquire_never_exhausts_witness :
    DynamicPool.run (DynamicPool.new 1 none DefaultGrowth 0, []) [.acquire 0] =
        some (exOneHeld, [0]) ∧
      (∀ n, 0 < exOneHeld.growth_ n) ∧
      ∃ fp pool, (exOneHeld.grown 10).pools_bit_array_.countl_zero = some fp ∧
        (exOneHeld.grown 10).pools_[fp]? = some pool ∧ pool.FreePos.isSome = true ∧
        ∃ r s', exOneHeld.Acquire 10 = .ok (r, s') :=
  ⟨rfl, DefaultGrowth_pos, DynamicPool.acquire_never_exhausts 1 none DefaultGrowth 0
    [.acquire 0] exOneHeld [0] rfl DefaultGrowth_pos 10⟩

theorem DynamicPool.grows_only_when_full_witness :
    DynamicPool.run (DynamicPool.new 1 none DefaultGrowth 0, []) [.acquire 0] =
        some (exOneHeld, [0]) ∧
      0 < exOneHeld.growth_ exOneHeld.Size ∧
      ∃ r s', exOneHeld.Acquire 10 = .ok (r, s') ∧
        (exOneHeld.PoolsAllAcquired = true →
          s'.Size = exOneHeld.Size + exOneHeld.growth_ exOneHeld.Size ∧
            s'.storage = exOneHeld.storage ++ [(10, exOneHeld.growth_ exOneHeld.Size)] ∧
            s'.pools_.length = exOneHeld.pools_.length + 1) ∧
        (exOneHeld.PoolsAllAcquired = false →
          s'.Size = exOneHeld.Size ∧ s'.storage = exOneHeld.storage ∧
            s'.pools_.length = exOneHeld.pools_.length) ∧
        exOneHeld.Size = (exOneHeld.pools_.map fun p => p.object_arr_.length).sum ∧
        s'.Size = (s'.pools_.map fun p => p.object_arr_.length).sum :=
  ⟨rfl, DefaultGrowth_pos exOneHeld.Size,
    DynamicPool.grows_only_when_full 1 none DefaultGrowth 0
      [.acquire 0] exOneHeld [0] rfl (DefaultGrowth_pos exOneHeld.Size) 10⟩

/-- C4 (code at the failing input). A pool constructed with count 2 and a growth function
that returns 0, after two `Acquire` calls: every sub-pool is full and `growth(Size())` is 0,
yet the summary bitmap has two bits for the single sub-pool and its second bit is still
set, so the scan of the next `Acquire()` returns index 1 and `pools_[1]` is indexed although
only `pools_[0]` exists; the "no pool is free" assertion does not fire. -/
theorem DynamicPool.zero_growth_indexes_missing_pool :
    DynamicPool.run (DynamicPool.new 2 none (fun _ => 0) 0, []) [.acquire 0, .acquire 0] =
        some (exZeroGrowthFull, [1, 0]) ∧
      exZeroGrowthFull.PoolsAllAcquired = true ∧
      exZeroGrowthFull.growth_ exZeroGrowthFull.Size = 0 ∧
      exZeroGrowthFull.pools_.length = 1 ∧
      (exZeroGrowthFull.grown 0).pools_bit_array_.countl_zero = some 1 ∧
      exZeroGrowthFull.Acquire 0 = .error .outOfRange ∧
      exZeroGrowthFull.Acquire 0 ≠ .error .noPoolIsFree :=
  ⟨rfl, rfl, rfl, rfl, rfl, rfl, fun h => by
    have h2 : exZeroGrowthFull.Acquire 0 = .error .outOfRange := rfl
    rw [h2] at h
    cases h⟩

section DynamicClaims2

variable {α : Type} [Inhabited α]

theorem Doubling.doubling_acquireMany (ds : List Int) (k : Nat) (s : DynamicPool α)
    (h : Doubling k s) :
    ∃ s', DynamicPool.acquireMany s ds = .ok s' ∧ Doubling (k + ds.length) s' := by
  induction ds generalizing k s with
  | nil => exact ⟨s, rfl, h⟩
  | cons d ds ih =>
    obtain ⟨-, -, -, -, -, r, s1, hacq⟩ := DynamicPool.Acquire_of_free h.shape d
      (DynamicPool.free_after_growth d fun _ => by rw [h.growth]; exact DefaultGrowth_pos _)
    obtain ⟨hS, -, hfc, hg, -⟩ := DynamicPool.Acquire_frame hacq
    have hsh1 : DynamicPool.Shape s1 := by
      obtain ⟨L, R, p, p1, hs, -, hacq1, rfl⟩ := DynamicPool.Acquire_ok hacq
      obtain ⟨hd, ho, hl, -⟩ := FixedPool.Acquire_spec hacq1
      exact (h.shape.shape_grown d).shape_replace hs hd ho hl
    have hcount := h.count
    have hd1 : Doubling (k + 1) s1 := by
      cases hall : s.PoolsAllAcquired with
      | true =>
        have hfree := (DynamicPool.PoolsAllAcquired_iff s).1 hall
        rw [DynamicPool.grown_full s d hall] at hS hfc hg
        rw [DynamicPool.GrowExtra_Size] at hS
        rw [DynamicPool.GrowExtra_freeCount] at hfc
        rw [DynamicPool.GrowExtra_growth] at hg
        rw [h.growth] at hS hfc
        rcases Nat.eq_zero_or_pos k with rfl | hk
        · have h0 := h.zero rfl
          rw [h0] at hS hfc
          simp only [DefaultGrowth, if_true] at hS hfc
          refine ⟨hsh1, by rw [hg, h.growth], by omega, by omega, fun _ => ⟨by omega, 0, by omega⟩⟩
        · obtain ⟨-, m, hm⟩ := h.pos hk
          have hne : s.Size ≠ 0 := by omega
          simp only [DefaultGrowth, hne, if_false] at hS hfc
          refine ⟨hsh1, by rw [hg, h.growth], by omega, by omega,
            fun _ => ⟨by omega, m + 1, by rw [hS, hm, pow_succ]; omega⟩⟩
      | false =>
        have hfree : s.freeCount ≠ 0 := by
          intro h0
          rw [(DynamicPool.PoolsAllAcquired_iff s).2 h0] at hall
          cases hall
        rw [DynamicPool.grown_not_full s d hall] at hS hfc hg
        have hk : 0 < k := by
          rcases Nat.eq_zero_or_pos k with rfl | hk
          · have := h.zero rfl
            omega
          · exact hk
        obtain ⟨hlt, m, hm⟩ := h.pos hk
        refine ⟨hsh1, by rw [hg, h.growth], by omega, by omega,
          fun _ => ⟨by omega, m, by rw [hS, hm]⟩⟩
    obtain ⟨s', hrun, hd'⟩ := ih (k + 1) s1 hd1
    refine ⟨s', ?_, ?_⟩
    · simp only [DynamicPool.acquireMany, hacq]
      exact hrun
    · have : k + (d :: ds).length = k + 1 + ds.length := by
        simp only [List.length_cons]; omega
      rw [this]
      exact hd'

/-- C6. Default growth doubles from one: for a pool constructed with initial count 0 and the
default growth function, `k >= 1` successive `Acquire()` calls (no `Release`) all return a
reference, and afterwards `Size()` is the smallest power of two that is at least `k`. -/
theorem DynamicPool.default_growth_doubles (value : Option α) (data : Int) (ds : List Int)
    (hk : 1 ≤ ds.length) :
    ∃ s, DynamicPool.acquireMany (DynamicPool.new 0 value DefaultGrowth data) ds = .ok s ∧
      (∃ m, s.Size = 2 ^ m) ∧ ds.length ≤ s.Size ∧
      (∀ j, ds.length ≤ 2 ^ j → s.Size ≤ 2 ^ j) ∧
      s.Size = 2 ^ Nat.clog 2 ds.length := by
  have h0 : Doubling 0 (DynamicPool.new 0 value DefaultGrowth data) := by
    refine ⟨DynamicPool.Shape.shape_new _ _ _ _, ?_, ?_, ?_, ?_⟩
    · simp [DynamicPool.new, DynamicPool.GrowExtra]
    · simp [DynamicPool.new, DynamicPool.GrowExtra, DynamicPool.freeCount, DynamicPool.Size]
    · intro _
      simp [DynamicPool.new, DynamicPool.GrowExtra, DynamicPool.Size]
    · intro h
      omega
  obtain ⟨s, hrun, hd⟩ := Doubling.doubling_acquireMany ds 0 _ h0
  rw [Nat.zero_add] at hd
  obtain ⟨hlt, m, hm⟩ := hd.pos (by omega)
  have hle : ds.length ≤ s.Size := by
    have := hd.count
    omega
  have hmin : ∀ j, ds.length ≤ 2 ^ j → s.Size ≤ 2 ^ j := by
    intro j hj
    by_contra hc
    have h1 : 2 ^ j < 2 ^ m := by omega
    have h2 : j < m := (Nat.pow_lt_pow_iff_right (by decide)).1 h1
    have h3 : 2 ^ (j + 1) ≤ 2 ^ m := Nat.pow_le_pow_right (by decide) h2
    rw [pow_succ] at h3
    omega
  refine ⟨s, hrun, ⟨m, hm⟩, hle, hmin, ?_⟩
  have h1 : Nat.clog 2 ds.length ≤ m := by
    rw [← Nat.le_pow_iff_clog_le (by decide)]
    omega
  have h2 : s.Size ≤ 2 ^ Nat.clog 2 ds.length := hmin _ (Nat.le_pow_clog (by decide) _)
  have h3 : 2 ^ Nat.clog 2 ds.length ≤ 2 ^ m := Nat.pow_le_pow_right (by decide) h1
  omega

end DynamicClaims2

theorem DynamicPool.default_growth_doubles_witness :
    1 ≤ ([0, 10, 20] : List Int).length ∧
      ∃ s, DynamicPool.acquireMany
          (DynamicPool.new 0 (none : Option Unit) DefaultGrowth 0) [0, 10, 20] = .ok s ∧
        (∃ m, s.Size = 2 ^ m) ∧ ([0, 10, 20] : List Int).length ≤ s.Size ∧
        (∀ j, ([0, 10, 20] : List Int).length ≤ 2 ^ j → s.Size ≤ 2 ^ j) ∧
        s.Size = 2 ^ Nat.clog 2 ([0, 10, 20] : List Int).length :=
  ⟨by decide, DynamicPool.default_growth_doubles none 0 [0, 10, 20] (by decide)⟩

section DynamicClaims3

variable {α : Type} [Inhabited α]

/-- A sequence of successful `Release` calls frees one slot per call, keeps the layout, and
releases pairwise distinct held references. -/
theorem DynamicPool.release_all (rs : List Int) (s : DynamicPool α) (held : List Int)
    (hinv : DynamicPool.Inv s held) (s1 : DynamicPool α) (held1 : List Int)
    (h : DynamicPool.run (s, held) (rs.map DynOp.release) = some (s1, held1)) :
    DynamicPool.Inv s1 held1 ∧ s1.Size = s.Size ∧ s1.storage = s.storage ∧
      s1.freeCount = s.freeCount + rs.length ∧ (∀ r ∈ rs, r ∈ held) ∧ rs.Nodup := by
  induction rs generalizing s held with
  | nil =>
    simp only [List.map_nil, DynamicPool.run] at h
    injection h with h
    injection h with ha hb
    subst ha
    subst hb
    exact ⟨hinv, rfl, rfl, rfl, by simp, List.nodup_nil⟩
  | cons r rs ih =>
    simp only [List.map_cons, DynamicPool.run, DynamicPool.step] at h
    split at h
    · cases h
    · next st hst =>
      split at hst
      · cases hst
      · next s' hrel =>
        injection hst with hst
        subst hst
        obtain ⟨h1, h2, h3, hmem, hS, hst, hfc, -⟩ :=
          DynamicPool.Release_inv hinv.shape hinv.disj hinv.held hrel
        obtain ⟨i1, i2, i3, i4, i5, i6⟩ := ih s' (held.erase r) ⟨h1, h2, h3⟩ h
        refine ⟨i1, by rw [i2, hS], by rw [i3, hst], ?_, ?_, ?_⟩
        · rw [i4, hfc]
          simp only [List.length_cons]
          omega
        · intro x hx
          rcases List.mem_cons.1 hx with rfl | hx
          · exact hmem
          · exact ((hinv.held.nodup.mem_erase_iff).1 (i5 x hx)).2
        · refine List.nodup_cons.2 ⟨?_, i6⟩
          intro hr
          exact ((hinv.held.nodup.mem_erase_iff).1 (i5 r hr)).1 rfl

/-- As many `Acquire()` calls as there are free slots all succeed without growth, each
returning a reference that is not held. -/
theorem DynamicPool.acquire_all (ds : List Int) (s : DynamicPool α) (held : List Int)
    (hinv : DynamicPool.Inv s held) (hfree : ds.length ≤ s.freeCount) :
    ∃ s2 news, DynamicPool.run (s, held) (ds.map DynOp.acquire) = some (s2, news ++ held) ∧
      news.length = ds.length ∧ DynamicPool.Inv s2 (news ++ held) ∧ s2.Size = s.Size ∧
      s2.storage = s.storage := by
  induction ds generalizing s held with
  | nil => exact ⟨s, [], rfl, rfl, hinv, rfl, rfl⟩
  | cons d ds ih =>
    simp only [List.length_cons] at hfree
    have hall : s.PoolsAllAcquired = false := by
      cases hc : s.PoolsAllAcquired with
      | false => rfl
      | true =>
        have := (DynamicPool.PoolsAllAcquired_iff s).1 hc
        omega
    obtain ⟨-, -, -, -, -, r, s', hacq⟩ := DynamicPool.Acquire_of_free hinv.shape d
      (DynamicPool.free_after_growth d fun hc => by rw [hall] at hc; cases hc)
    obtain ⟨hS, hst, hfc, -, -⟩ := DynamicPool.Acquire_frame hacq
    rw [DynamicPool.grown_not_full s d hall] at hS hst hfc
    obtain ⟨h1, h2, h3, -⟩ := DynamicPool.Acquire_inv hinv.shape hinv.disj hinv.held
      (fun hc => by rw [hall] at hc; cases hc) hacq
    obtain ⟨s2, news, hrun, hlen, hinv2, hS2, hst2⟩ :=
      ih s' (r :: held) ⟨h1, h2, h3⟩ (by omega)
    refine ⟨s2, news ++ [r], ?_, by simp [hlen], ?_, by rw [hS2, hS], by rw [hst2, hst]⟩
    · simp only [List.map_cons, DynamicPool.run, DynamicPool.step, hall, Bool.false_and,
        Bool.false_eq_true, if_false, hacq]
      rw [hrun]
      simp
    · simpa using hinv2

/-- Released storage is reused without growth when the releases return normally (the part
of C7 that holds): in every state reached from construction
by `GrowExtra`, `Acquire`, `Release` (and `SetGrowth`, `SetValue`) calls, after `k`
`Release` calls that return normally (they release `k` distinct held references), the
next `k` `Acquire()` calls all return a reference, each of them not held at the time of
the call, and afterwards `Size()` and the storage layout are those from before the releases
(no sub-pool is appended), whatever the growth function is. -/
theorem DynamicPool.released_storage_reused (count : Nat) (value : Option α)
    (growth : Nat → Nat) (data : Int) (ops : List (DynOp α)) (s : DynamicPool α)
    (held : List Int)
    (hrun : DynamicPool.run (DynamicPool.new count value growth data, []) ops = some (s, held))
    (rs : List Int) (s1 : DynamicPool α) (held1 : List Int)
    (hrel : DynamicPool.run (s, held) (rs.map DynOp.release) = some (s1, held1))
    (ds : List Int) (hlen : ds.length = rs.length) :
    (∀ r ∈ rs, r ∈ held) ∧ rs.Nodup ∧
      ∃ s2 news, DynamicPool.run (s1, held1) (ds.map DynOp.acquire) = some (s2, news ++ held1) ∧
        news.length = rs.length ∧ (news ++ held1).Nodup ∧ s2.Size = s.Size ∧
        s2.storage = s.storage := by
  obtain ⟨hinv, -⟩ := DynamicPool.Inv.dyn_run ops (DynamicPool.Inv.dyn_new count value growth data) hrun
  obtain ⟨hinv1, hS1, hst1, hfc1, hsub, hnd⟩ := DynamicPool.release_all rs s held hinv s1 held1 hrel
  obtain ⟨s2, news, hrun2, hl2, hinv2, hS2, hst2⟩ :=
    DynamicPool.acquire_all ds s1 held1 hinv1 (by omega)
  exact ⟨hsub, hnd, s2, news, hrun2, by omega, hinv2.held.nodup, by rw [hS2, hS1],
    by rw [hst2, hst1]⟩

end DynamicClaims3

theorem DynamicPool.released_storage_reused_witness :
    DynamicPool.run (DynamicPool.new 2 none DefaultGrowth 0, []) [.acquire 0, .acquire 0] =
        some (exTwoHeld, [1, 0]) ∧
      DynamicPool.run (exTwoHeld, [1, 0]) ([0, 1].map DynOp.release) = some (exTwoFree, []) ∧
      ([7, 8] : List Int).length = ([0, 1] : List Int).length ∧
      (∀ r ∈ ([0, 1] : List Int), r ∈ ([1, 0] : List Int)) ∧ ([0, 1] : List Int).Nodup ∧
      ∃ s2 news,
        DynamicPool.run (exTwoFree, []) (([7, 8] : List Int).map DynOp.acquire) =
          some (s2, news ++ []) ∧
        news.length = ([0, 1] : List Int).length ∧ (news ++ []).Nodup ∧
        s2.Size = exTwoHeld.Size ∧ s2.storage = exTwoHeld.storage :=
  ⟨rfl, rfl, rfl, DynamicPool.released_storage_reused 2 none DefaultGrowth 0
    [.acquire 0, .acquire 0] exTwoHeld [1, 0] rfl [0, 1] exTwoFree [] rfl [7, 8] rfl⟩

/-! ### Memory access through slot references -/

theorem writePools_sig {α : Type} (ps : List (FixedPool α)) (a : Int) (v : α)
    (ps' : List (FixedPool α)) (h : writePools ps a v = some ps') :
    ps'.map FixedPool.sig = ps.map FixedPool.sig := by
  induction ps generalizing ps' with
  | nil => simp [writePools] at h
  | cons p ps ih =>
    simp only [writePools] at h
    split at h
    · split at h
      · injection h with h
        subst h
        simp [FixedPool.sig]
      · cases h
    · cases hw : writePools ps a v with
      | none => simp [hw] at h
      | some qs =>
        simp only [hw, Option.map_some', Option.some.injEq] at h
        subst h
        simp [ih qs hw]

theorem writePools_read_same {α : Type} (ps : List (FixedPool α)) (a : Int) (v : α)
    (ps' : List (FixedPool α)) (h : writePools ps a v = some ps') :
    readPools ps' a = some v := by
  induction ps generalizing ps' with
  | nil => simp [writePools] at h
  | cons p ps ih =>
    simp only [writePools] at h
    split at h
    · next hr =>
      split at h
      · next hlt =>
        injection h with h
        subst h
        simp only [readPools, hr, and_self, if_true]
        simp [hlt]
      · cases h
    · next hr =>
      cases hw : writePools ps a v with
      | none => simp [hw] at h
      | some qs =>
        simp only [hw, Option.map_some', Option.some.injEq] at h
        subst h
        simp only [readPools, hr, if_false]
        exact ih qs hw

theorem writePools_read_other {α : Type} (ps : List (FixedPool α)) (a : Int) (v : α)
    (ps' : List (FixedPool α)) (h : writePools ps a v = some ps') (b : Int) (hb : b ≠ a) :
    readPools ps' b = readPools ps b := by
  induction ps generalizing ps' with
  | nil => simp [writePools] at h
  | cons p ps ih =>
    simp only [writePools] at h
    split at h
    · next hr =>
      split at h
      · next hlt =>
        injection h with h
        subst h
        simp only [readPools]
        split
        · next hrb =>
          have hne : (a - p.data).toNat ≠ (b - p.data).toNat := by omega
          simp [List.getElem?_set, hne]
        · rfl
      · cases h
    · next hr =>
      cases hw : writePools ps a v with
      | none => simp [hw] at h
      | some qs =>
        simp only [hw, Option.map_some', Option.some.injEq] at h
        subst h
        simp only [readPools]
        rw [ih qs hw]

theorem writePools_objs {α : Type} (ps : List (FixedPool α)) (a : Int) (v : α)
    (ps' : List (FixedPool α)) (h : writePools ps a v = some ps') :
    ∀ p' ∈ ps', ∀ x ∈ p'.object_arr_, x = v ∨ ∃ p ∈ ps, x ∈ p.object_arr_ := by
  induction ps generalizing ps' with
  | nil => simp [writePools] at h
  | cons p ps ih =>
    simp only [writePools] at h
    split at h
    · split at h
      · injection h with h
        subst h
        intro p' hp' x hx
        rcases List.mem_cons.1 hp' with rfl | hp'
        · rcases List.mem_or_eq_of_mem_set hx with hx | hx
          · exact Or.inr ⟨p, List.mem_cons_self _ _, hx⟩
          · exact Or.inl hx
        · exact Or.inr ⟨p', List.mem_cons_of_mem _ hp', hx⟩
      · cases h
    · cases hw : writePools ps a v with
      | none => simp [hw] at h
      | some qs =>
        simp only [hw, Option.map_some', Option.some.injEq] at h
        subst h
        intro p' hp' x hx
        rcases List.mem_cons.1 hp' with rfl | hp'
        · exact Or.inr ⟨p', List.mem_cons_self _ _, hx⟩
        · rcases ih qs hw p' hp' x hx with h1 | ⟨q, hq, hxq⟩
          · exact Or.inl h1
          · exact Or.inr ⟨q, List.mem_cons_of_mem _ hq, hxq⟩

theorem readPools_mem {α : Type} (ps : List (FixedPool α)) (a : Int) (r : α)
    (h : readPools ps a = some r) : ∃ p ∈ ps, r ∈ p.object_arr_ := by
  induction ps with
  | nil => simp [readPools] at h
  | cons p ps ih =>
    simp only [readPools] at h
    split at h
    · exact ⟨p, List.mem_cons_self _ _, List.getElem?_mem h⟩
    · obtain ⟨q, hq, hr⟩ := ih h
      exact ⟨q, List.mem_cons_of_mem _ hq, hr⟩

/-- A pointer to a slot of some sub-pool can be read and written. -/
theorem readPools_writePools_some {α : Type} (ps : List (FixedPool α)) (a : Int)
    (hlen : ∀ p ∈ ps, p.object_arr_.length = p.bit_arr_.length)
    (hin : ∃ p ∈ ps, p.InRange a) :
    (∃ r, readPools ps a = some r) ∧ ∀ v, ∃ ps', writePools ps a v = some ps' := by
  induction ps with
  | nil => simp at hin
  | cons p ps ih =>
    by_cases hr : p.data ≤ a ∧ a < p.data + (p.bit_arr_.length : Int)
    · have hl := hlen p (List.mem_cons_self _ _)
      have hlt : (a - p.data).toNat < p.object_arr_.length := by omega
      refine ⟨⟨p.object_arr_[(a - p.data).toNat], ?_⟩, fun v => ?_⟩
      · simp only [readPools, hr, and_self, if_true]
        exact List.getElem?_eq_getElem hlt
      · simp only [writePools, hr, and_self, if_true, hlt]
        exact ⟨_, rfl⟩
    · have hin' : ∃ q ∈ ps, q.InRange a := by
        obtain ⟨q, hq, hqa⟩ := hin
        rcases List.mem_cons.1 hq with rfl | hq
        · exact absurd hqa hr
        · exact ⟨q, hq, hqa⟩
      obtain ⟨⟨r, hread⟩, hw⟩ := ih (fun q hq => hlen q (List.mem_cons_of_mem _ hq)) hin'
      refine ⟨⟨r, ?_⟩, fun v => ?_⟩
      · simp only [readPools, hr, if_false]
        exact hread
      · obtain ⟨qs, hqs⟩ := hw v
        simp only [writePools, hr, if_false, hqs]
        exact ⟨_, rfl⟩

namespace DynamicPool

variable {α : Type} [Inhabited α]

theorem map_of_sig {β : Type} (g : Int × BitVector × Nat → β) {ps ps' : List (FixedPool α)}
    (h : ps'.map FixedPool.sig = ps.map FixedPool.sig) :
    ps'.map (fun p => g p.sig) = ps.map (fun p => g p.sig) := by
  have := congrArg (List.map g) h
  simpa [List.map_map, Function.comp] using this

theorem mem_of_sig {ps ps' : List (FixedPool α)}
    (h : ps'.map FixedPool.sig = ps.map FixedPool.sig) {p' : FixedPool α} (hp : p' ∈ ps') :
    ∃ p ∈ ps, p.sig = p'.sig := by
  have : p'.sig ∈ ps'.map FixedPool.sig := List.mem_map_of_mem _ hp
  rw [h] at this
  obtain ⟨p, hp, hsig⟩ := List.mem_map.1 this
  exact ⟨p, hp, hsig⟩

/-- The pool invariants only depend on the addresses, the bitmaps and the object-array
lengths of the sub-pools and on the summary bitmap: assignments to pooled objects keep
them. -/
theorem Inv.of_sig {s s' : DynamicPool α} {held : List Int} (hinv : Inv s held)
    (hsig : s'.pools_.map FixedPool.sig = s.pools_.map FixedPool.sig)
    (hbits : s'.pools_bit_array_ = s.pools_bit_array_) : Inv s' held := by
  have hsig' := hsig.symm
  have hSize : s'.Size = s.Size := by
    rw [Size_eq, Size_eq]
    exact congrArg List.sum (map_of_sig (fun t => t.2.1.length) hsig)
  have hfc : s'.freeCount = s.freeCount := by
    unfold freeCount
    exact congrArg List.sum (map_of_sig (fun t => t.2.1.count true) hsig)
  have hlen : s'.pools_.length = s.pools_.length := by
    have := congrArg List.length hsig
    simpa using this
  have hocc : ∀ x, (∃ p ∈ s'.pools_, p.Occupied x) ↔ ∃ p ∈ s.pools_, p.Occupied x := by
    intro x
    constructor
    · rintro ⟨p', hp', ho⟩
      obtain ⟨p, hp, hs⟩ := mem_of_sig hsig hp'
      simp only [FixedPool.sig, Prod.mk.injEq] at hs
      exact ⟨p, hp, by simpa [FixedPool.Occupied, hs.1, hs.2.1] using ho⟩
    · rintro ⟨p, hp, ho⟩
      obtain ⟨p', hp', hs⟩ := mem_of_sig hsig' hp
      simp only [FixedPool.sig, Prod.mk.injEq] at hs
      exact ⟨p', hp', by simpa [FixedPool.Occupied, hs.1, hs.2.1] using ho⟩
  refine ⟨⟨?_, ?_⟩, ?_, ⟨hinv.held.nodup, ?_, ?_⟩⟩
  · intro p' hp'
    obtain ⟨p, hp, hs⟩ := mem_of_sig hsig hp'
    simp only [FixedPool.sig, Prod.mk.injEq] at hs
    have := hinv.shape.pool_len p hp
    rw [← hs.2.1, ← hs.2.2]
    exact this
  · rw [hbits, hinv.shape.summary, hSize, hlen]
    congr 1
    exact (map_of_sig (fun t => (BitVector.countl_zero t.2.1).isSome) hsig).symm
  · have h1 : List.Pairwise (fun a b : Int × BitVector × Nat =>
        ∀ r : Int, (a.1 ≤ r ∧ r < a.1 + (a.2.1.length : Int)) →
          ¬ (b.1 ≤ r ∧ r < b.1 + (b.2.1.length : Int))) (s.pools_.map FixedPool.sig) :=
      List.pairwise_map.2 hinv.disj
    rw [← hsig] at h1
    exact List.pairwise_map.1 h1
  · intro x
    rw [hinv.held.held_iff x, hocc x]
  · rw [hSize, hfc]
    exact hinv.held.count

theorem writeAt_sig {s s' : DynamicPool α} {a : Int} {v : α} (h : s.writeAt a v = some s') :
    s'.pools_.map FixedPool.sig = s.pools_.map FixedPool.sig ∧
      s'.pools_bit_array_ = s.pools_bit_array_ ∧ s'.value_ = s.value_ ∧
      s'.growth_ = s.growth_ ∧ writePools s.pools_ a v = some s'.pools_ := by
  unfold writeAt at h
  cases hw : writePools s.pools_ a v with
  | none => simp [hw] at h
  | some ps =>
    simp only [hw, Option.map_some', Option.some.injEq] at h
    subst h
    exact ⟨writePools_sig _ _ _ _ hw, rfl, rfl, rfl, rfl⟩

end DynamicPool

end util
end einu

namespace einu
namespace internal

open util

/-! ### The entity table as a map -/

theorem lookup_mem (m : List (EID × Int)) (k : EID) (v : Int) (h : m.lookup k = some v) :
    (k, v) ∈ m := by
  induction m with
  | nil => simp [List.lookup] at h
  | cons e m ih =>
    obtain ⟨k1, v1⟩ := e
    by_cases hk : k = k1
    · subst hk
      simp [List.lookup] at h
      subst h
      exact List.mem_cons_self _ _
    · have : (k == k1) = false := by simpa using hk
      simp only [List.lookup, this] at h
      exact List.mem_cons_of_mem _ (ih h)

theorem mapInsert_snd (m : List (EID × Int)) (k : EID) (v : Int) (x : Int)
    (h : x ∈ (mapInsert m k v).map Prod.snd) : x = v ∨ x ∈ m.map Prod.snd := by
  induction m with
  | nil => simpa [mapInsert] using h
  | cons e m ih =>
    obtain ⟨k1, v1⟩ := e
    simp only [mapInsert] at h
    split at h
    · simpa using h
    · split at h
      · simp only [List.map_cons, List.mem_cons] at h ⊢
        rcases h with h | h
        · exact Or.inl h
        · exact Or.inr (Or.inr h)
      · simp only [List.map_cons, List.mem_cons] at h ⊢
        rcases h with h | h
        · exact Or.inr (Or.inl h)
        · rcases ih h with h | h
          · exact Or.inl h
          · exact Or.inr (Or.inr h)

theorem mapInsert_nodup (m : List (EID × Int)) (k : EID) (v : Int)
    (hnd : (m.map Prod.snd).Nodup) (hv : v ∉ m.map Prod.snd) :
    ((mapInsert m k v).map Prod.snd).Nodup := by
  induction m with
  | nil => simp [mapInsert]
  | cons e m ih =>
    obtain ⟨k1, v1⟩ := e
    simp only [List.map_cons, List.nodup_cons, List.mem_cons, not_or] at hnd hv
    simp only [mapInsert]
    split
    · simp only [List.map_cons, List.nodup_cons, List.mem_cons, not_or]
      exact ⟨⟨hv.1, hv.2⟩, hnd.1, hnd.2⟩
    · split
      · simp only [List.map_cons, List.nodup_cons]
        exact ⟨hv.2, hnd.2⟩
      · simp only [List.map_cons, List.nodup_cons]
        refine ⟨?_, ih hnd.2 hv.2⟩
        intro hm
        rcases mapInsert_snd m k v v1 hm with h | h
        · exact hv.1 h.symm
        · exact hnd.1 h

theorem mapErase_mem (m : List (EID × Int)) (k : EID) (e : EID × Int)
    (h : e ∈ mapErase m k) : e ∈ m ∧ e.1 ≠ k := by
  simp only [mapErase, List.mem_filter, bne_iff_ne, ne_eq] at h
  exact h

theorem mapErase_nodup (m : List (EID × Int)) (k : EID) (hnd : (m.map Prod.snd).Nodup) :
    ((mapErase m k).map Prod.snd).Nodup :=
  hnd.sublist ((List.filter_sublist m).map Prod.snd)

theorem snd_inj (m : List (EID × Int)) (hnd : (m.map Prod.snd).Nodup) (e e' : EID) (x : Int)
    (h1 : (e, x) ∈ m) (h2 : (e', x) ∈ m) : e = e' := by
  induction m with
  | nil => simp at h1
  | cons a m ih =>
    simp only [List.map_cons, List.nodup_cons] at hnd
    rcases List.mem_cons.1 h1 with g1 | g1
    · rcases List.mem_cons.1 h2 with g2 | g2
      · rw [← g1] at g2
        exact (Prod.mk.inj g2).1.symm
      · subst g1
        exact absurd (List.mem_map_of_mem Prod.snd g2) hnd.1
    · rcases List.mem_cons.1 h2 with g2 | g2
      · subst g2
        exact absurd (List.mem_map_of_mem Prod.snd g1) hnd.1
      · exact ih hnd.2 g1 g2

/-! ### Invariant of the entity manager -/

namespace EntityManager

variable {n m : Nat}

theorem AddComponentImpl_ok {s : EntityManager n m} {eid : EID} {tid : XnentTypeID}
    {comp r : Int} {s1 : EntityManager n m} {calls : List ExtCall}
    (h : s.AddComponentImpl eid tid comp = .ok (r, s1, calls)) :
    ∃ slot record pool, s.ett_table_.lookup eid = some slot ∧ tid < n ∧
      s.comp_pool_ = true ∧ s.ett_data_pool_.readAt slot = some record ∧
      s.ett_data_pool_.writeAt slot
        { mask := fun i => if i.val = tid then true else record.mask i,
          comp_table := fun i => if i.val = tid then some comp else record.comp_table i } =
        some pool ∧
      s1 = { s with ett_data_pool_ := pool } ∧ r = comp ∧ calls = [.compAcquire tid comp] := by
  unfold AddComponentImpl at h
  split at h
  · cases h
  · next slot hslot =>
    split at h
    · cases h
    · next hcp =>
      split at h
      · next htid =>
        split at h
        · cases h
        · next record hrec =>
          split at h
          · cases h
          · next pool hw =>
            injection h with h
            injection h with h1 h2
            injection h2 with h2 h3
            refine ⟨slot, record, pool, hslot, htid, by simpa using hcp, hrec, hw, h2.symm,
              h1.symm, h3.symm⟩
      · cases h

theorem RemoveComponentImpl_ok {s : EntityManager n m} {eid : EID} {tid : XnentTypeID}
    {s1 : EntityManager n m} {calls : List ExtCall}
    (h : s.RemoveComponentImpl eid tid = .ok (s1, calls)) :
    ∃ slot record pool comp, ∃ ht : tid < n, s.ett_table_.lookup eid = some slot ∧
      s.comp_pool_ = true ∧ s.ett_data_pool_.readAt slot = some record ∧
      record.comp_table ⟨tid, ht⟩ = some comp ∧
      s.ett_data_pool_.writeAt slot
        { record with mask := fun i => if i.val = tid then false else record.mask i } =
        some pool ∧
      s1 = { s with ett_data_pool_ := pool } ∧ calls = [.compRelease tid comp] := by
  unfold RemoveComponentImpl at h
  split at h
  · cases h
  · next slot hslot =>
    split at h
    · next htid =>
      split at h
      · cases h
      · next record hrec =>
        split at h
        · cases h
        · next comp hcomp =>
          split at h
          · cases h
          · next hcp =>
            split at h
            · cases h
            · next pool hw =>
              injection h with h
              injection h with h1 h2
              exact ⟨slot, record, pool, comp, htid, hslot, by simpa using hcp, hrec, hcomp, hw,
                h1.symm, h2.symm⟩
    · cases h

/-- An assignment to the record of one entity keeps the invariant, provided the record
written is good. -/
theorem inv_write {s : EntityManager n m} {held : List Int} (hinv : EMInv s held)
    {slot : Int} {v : EntityRecord n} {pool : DynamicPool (EntityRecord n)}
    (hw : s.ett_data_pool_.writeAt slot v = some pool) (hv : v.Good) :
    EMInv ({ s with ett_data_pool_ := pool } : EntityManager n m) held := by
  obtain ⟨hsig, hbits, hval, -, hwp⟩ := DynamicPool.writeAt_sig hw
  refine ⟨hinv.pool.of_sig hsig hbits, by rw [hval]; exact hinv.value_none, hinv.slots_nodup,
    hinv.slots_held, ?_⟩
  intro p hp r hr
  rcases writePools_objs _ _ _ _ hwp p hp r hr with rfl | ⟨q, hq, hrq⟩
  · exact hv
  · exact hinv.good q hq r hrq

theorem inv_read_good {s : EntityManager n m} {held : List Int} (hinv : EMInv s held)
    {slot : Int} {record : EntityRecord n} (h : s.ett_data_pool_.readAt slot = some record) :
    record.Good := by
  obtain ⟨p, hp, hr⟩ := readPools_mem _ _ _ h
  exact hinv.good p hp record hr

theorem AllGood.allGood_replace {L R : List (FixedPool (EntityRecord n))}
    {p p1 : FixedPool (EntityRecord n)} (h : AllGood (L ++ p :: R))
    (ho : p1.object_arr_ = p.object_arr_) : AllGood (L ++ p1 :: R) := by
  intro q hq r hr
  simp only [List.mem_append, List.mem_cons] at hq
  rcases hq with hq | rfl | hq
  · exact h q (by simp [hq]) r hr
  · rw [ho] at hr
    exact h p (by simp) r hr
  · exact h q (by simp [hq]) r hr

theorem AllGood.allGood_GrowExtra {s : DynamicPool (EntityRecord n)} (h : AllGood s.pools_)
    (hv : s.value_ = none) (k : Nat) (data : Int) : AllGood (s.GrowExtra k data).pools_ := by
  rcases Nat.eq_zero_or_pos k with rfl | hk
  · rw [DynamicPool.GrowExtra_zero]; exact h
  rw [DynamicPool.GrowExtra_pos s k data hk]
  intro q hq r hr
  simp only [List.mem_append, List.mem_singleton] at hq
  rcases hq with hq | rfl
  · exact h q hq r hr
  · simp only [DynamicPool.newPool, hv, FixedPool.new] at hr
    have := List.eq_of_mem_replicate hr
    subst this
    intro i hi
    cases hi

theorem GrowExtra_value {α : Type} [Inhabited α] (s : DynamicPool α) (k : Nat) (data : Int) :
    (s.GrowExtra k data).value_ = s.value_ := by
  unfold DynamicPool.GrowExtra
  split <;> rfl

theorem grown_value {α : Type} [Inhabited α] (s : DynamicPool α) (data : Int) :
    (s.grown data).value_ = s.value_ := by
  unfold DynamicPool.grown
  split
  · exact GrowExtra_value _ _ _
  · rfl

theorem AllGood.allGood_grown {s : DynamicPool (EntityRecord n)} (h : AllGood s.pools_)
    (hv : s.value_ = none) (data : Int) : AllGood (s.grown data).pools_ := by
  unfold DynamicPool.grown
  split
  · exact h.allGood_GrowExtra hv _ _
  · exact h

theorem toOption_map_some {ε α β : Type} (x : Except ε α) (f : α → β) (y : β)
    (h : x.toOption.map f = some y) : ∃ r, x = .ok r ∧ f r = y := by
  cases x with
  | error e => simp [Except.toOption] at h
  | ok r =>
    simp only [Except.toOption, Option.map_some', Option.some.injEq] at h
    exact ⟨r, rfl, h⟩

theorem inv_flags {s : EntityManager n m} {held : List Int} (hinv : EMInv s held)
    (a b c : Bool) (t : Fin n → Option Int) :
    EMInv ({ s with eid_pool_ := a, comp_pool_ := b, singlenent_pool_ := c,
                    singlenent_table_ := t } : EntityManager n m) held :=
  ⟨hinv.pool, hinv.value_none, hinv.slots_nodup, hinv.slots_held, hinv.good⟩

theorem inv_new (n m : Nat) : EMInv (EntityManager.new n m) [] := by
  refine ⟨DynamicPool.Inv.dyn_new 0 none DefaultGrowth 0, ?_, ?_, ?_, ?_⟩
  · simp [EntityManager.new, DynamicPool.new, DynamicPool.GrowExtra]
  · simp [EntityManager.new]
  · simp [EntityManager.new]
  · simp [EntityManager.new, DynamicPool.new, DynamicPool.GrowExtra]

theorem CreateEntityImpl_ok {s : EntityManager n m} {eid r : EID} {data : Int}
    {s1 : EntityManager n m} {calls : List ExtCall}
    (h : s.CreateEntityImpl eid data = .ok (r, s1, calls)) :
    ∃ tup pool, s.eid_pool_ = true ∧ s.ett_data_pool_.Acquire data = .ok (tup, pool) ∧
      s1 = { s with ett_data_pool_ := pool, ett_table_ := mapInsert s.ett_table_ eid tup } ∧
      r = eid ∧ calls = [.eidAcquire eid] := by
  unfold CreateEntityImpl at h
  split at h
  · cases h
  · next he =>
    split at h
    · cases h
    · next tup pool hacq =>
      injection h with h
      injection h with h1 h2
      injection h2 with h2 h3
      exact ⟨tup, pool, by simpa using he, hacq, h2.symm, h1.symm, h3.symm⟩

theorem inv_create {s : EntityManager n m} {held : List Int} (hinv : EMInv s held)
    {eid : EID} {data tup : Int} {pool : DynamicPool (EntityRecord n)}
    (hf : s.ett_data_pool_.PoolsAllAcquired = true →
      s.ett_data_pool_.freshAlloc (s.ett_data_pool_.growth_ s.ett_data_pool_.Size) data = true)
    (hacq : s.ett_data_pool_.Acquire data = .ok (tup, pool)) :
    EMInv ({ s with ett_data_pool_ := pool,
                    ett_table_ := mapInsert s.ett_table_ eid tup } : EntityManager n m)
      (tup :: held) := by
  obtain ⟨h1, h2, h3, hnot⟩ :=
    DynamicPool.Acquire_inv hinv.pool.shape hinv.pool.disj hinv.pool.held hf hacq
  obtain ⟨-, -, -, -, hval⟩ := DynamicPool.Acquire_frame hacq
  refine ⟨⟨h1, h2, h3⟩, ?_, ?_, ?_, ?_⟩
  · show pool.value_ = none
    rw [hval, grown_value]
    exact hinv.value_none
  · exact mapInsert_nodup _ _ _ hinv.slots_nodup fun hm => hnot (hinv.slots_held _ hm)
  · intro x hx
    rcases mapInsert_snd _ _ _ _ hx with rfl | hx
    · exact List.mem_cons_self _ _
    · exact List.mem_cons_of_mem _ (hinv.slots_held x hx)
  · obtain ⟨L, R, p, p1, hs, -, hacq1, rfl⟩ := DynamicPool.Acquire_ok hacq
    obtain ⟨-, ho, -⟩ := FixedPool.Acquire_spec hacq1
    have hg : AllGood (s.ett_data_pool_.grown data).pools_ :=
      AllGood.allGood_grown hinv.good hinv.value_none data
    rw [hs] at hg
    exact hg.allGood_replace ho

theorem ReleaseEntity_ok {s : EntityManager n m} {eid : EID} {slot : Int}
    {s1 : EntityManager n m} {calls : List ExtCall}
    (h : s.ReleaseEntity eid slot = .ok (s1, calls)) :
    ∃ record calls0 pool1 pool2, s.ett_data_pool_.readAt slot = some record ∧
      releaseComponents s.comp_pool_ record (List.finRange n) = .ok calls0 ∧
      s.ett_data_pool_.writeAt slot { record with mask := fun _ => false } = some pool1 ∧
      pool1.Release slot = .ok pool2 ∧ s.eid_pool_ = true ∧
      s1 = { s with ett_data_pool_ := pool2 } ∧ calls = calls0 ++ [.eidRelease eid] := by
  unfold ReleaseEntity at h
  split at h
  · cases h
  · next record hrec =>
    split at h
    · cases h
    · next calls0 hc =>
      split at h
      · cases h
      · next pool1 hw =>
        split at h
        · cases h
        · next pool2 hrel =>
          split at h
          · cases h
          · next he =>
            injection h with h
            injection h with h1 h2
            exact ⟨record, calls0, pool1, pool2, hrec, hc, hw, hrel, by simpa using he,
              h1.symm, h2.symm⟩

theorem DestroyEntityImpl_ok {s : EntityManager n m} {eid : EID}
    {s2 : EntityManager n m} {calls : List ExtCall}
    (h : s.DestroyEntityImpl eid = .ok (s2, calls)) :
    ∃ slot s1, s.ett_table_.lookup eid = some slot ∧
      s.ReleaseEntity eid slot = .ok (s1, calls) ∧
      s2 = { s1 with ett_table_ := mapErase s1.ett_table_ eid } := by
  unfold DestroyEntityImpl at h
  split at h
  · cases h
  · next slot hslot =>
    split at h
    · cases h
    · next s1 calls1 hrel =>
      injection h with h
      injection h with h1 h2
      subst h2
      exact ⟨slot, s1, hslot, hrel, h1.symm⟩

theorem inv_destroy {s : EntityManager n m} {held : List Int} (hinv : EMInv s held)
    {eid : EID} {s2 : EntityManager n m} {calls : List ExtCall}
    (h : s.DestroyEntityImpl eid = .ok (s2, calls)) :
    ∃ slot, s.ett_table_.lookup eid = some slot ∧ EMInv s2 (held.erase slot) := by
  obtain ⟨slot, s1, hslot, hrel, rfl⟩ := DestroyEntityImpl_ok h
  obtain ⟨record, calls0, pool1, pool2, hrec, -, hw, hrel2, -, rfl, -⟩ := ReleaseEntity_ok hrel
  refine ⟨slot, hslot, ?_⟩
  have hinv1 := inv_write hinv hw (fun i hi => by cases hi)
  obtain ⟨h1, h2, h3, -, -, -, -, -⟩ :=
    DynamicPool.Release_inv hinv1.pool.shape hinv1.pool.disj hinv1.pool.held hrel2
  have hmem := lookup_mem _ _ _ hslot
  refine ⟨⟨h1, h2, h3⟩, ?_, ?_, ?_, ?_⟩
  · obtain ⟨L, R, p, p1, hs, -, -, rfl⟩ := DynamicPool.Release_ok hrel2
    exact hinv1.value_none
  · exact mapErase_nodup _ _ hinv.slots_nodup
  · intro x hx
    obtain ⟨⟨e, x'⟩, he, rfl⟩ := List.mem_map.1 hx
    obtain ⟨hem, hne⟩ := mapErase_mem _ _ _ he
    have hxh := hinv.slots_held _ (List.mem_map_of_mem Prod.snd hem)
    refine (hinv.pool.held.nodup.mem_erase_iff).2 ⟨?_, hxh⟩
    intro hxs
    simp only at hxs
    subst hxs
    exact hne (snd_inj _ hinv.slots_nodup _ _ _ hem hmem)
  · obtain ⟨L, R, p, p1, hs, hrel3, -, rfl⟩ := DynamicPool.Release_ok hrel2
    obtain ⟨-, ho, -⟩ := FixedPool.Release_spec hrel3
    have hg : AllGood pool1.pools_ := hinv1.good
    rw [hs] at hg
    exact hg.allGood_replace ho

theorem readAt_write_same {pool pool1 : DynamicPool (EntityRecord n)} {a : Int}
    {v : EntityRecord n} (h : pool.writeAt a v = some pool1) : pool1.readAt a = some v :=
  writePools_read_same _ _ _ _ (DynamicPool.writeAt_sig h).2.2.2.2

theorem readAt_write_other {pool pool1 : DynamicPool (EntityRecord n)} {a : Int}
    {v : EntityRecord n} (h : pool.writeAt a v = some pool1) (b : Int) (hb : b ≠ a) :
    pool1.readAt b = pool.readAt b :=
  writePools_read_other _ _ _ _ (DynamicPool.writeAt_sig h).2.2.2.2 b hb

/-- An assignment to the record of entity `eid` leaves the record of every other entity
unchanged. -/
theorem frame_write {s : EntityManager n m} {held : List Int} (hinv : EMInv s held)
    {eid : EID} {slot : Int} (hslot : s.ett_table_.lookup eid = some slot)
    {v : EntityRecord n} {pool : DynamicPool (EntityRecord n)}
    (hw : s.ett_data_pool_.writeAt slot v = some pool) (e : EID) (he : e ≠ eid) :
    recordOf ({ s with ett_data_pool_ := pool } : EntityManager n m) e = recordOf s e := by
  unfold recordOf
  show (match s.ett_table_.lookup e with
    | none => none
    | some sl => pool.readAt sl) = _
  cases hl : s.ett_table_.lookup e with
  | none => rfl
  | some sl =>
    have hne : sl ≠ slot := by
      rintro rfl
      exact he (snd_inj _ hinv.slots_nodup _ _ _ (lookup_mem _ _ _ hl) (lookup_mem _ _ _ hslot))
    exact readAt_write_other hw sl hne

/-- The record of a live entity can be read and assigned. -/
theorem live_record {s : EntityManager n m} {held : List Int} (hinv : EMInv s held)
    {eid : EID} {slot : Int} (hslot : s.ett_table_.lookup eid = some slot) :
    (∃ record, s.ett_data_pool_.readAt slot = some record) ∧
      ∀ v, ∃ pool, s.ett_data_pool_.writeAt slot v = some pool := by
  have hh := hinv.slots_held slot (List.mem_map_of_mem Prod.snd (lookup_mem _ _ _ hslot))
  obtain ⟨p, hp, hocc⟩ := (hinv.pool.held.held_iff slot).1 hh
  obtain ⟨hr, hw⟩ := readPools_writePools_some s.ett_data_pool_.pools_ slot
    (fun q hq => (hinv.pool.shape.pool_len q hq).1) ⟨p, hp, hocc.inRange⟩
  refine ⟨hr, fun v => ?_⟩
  obtain ⟨ps, hps⟩ := hw v
  exact ⟨{ s.ett_data_pool_ with pools_ := ps }, by
    simp only [DynamicPool.writeAt, hps, Option.map_some']⟩

theorem inv_step {s : EntityManager n m} {held : List Int} (hinv : EMInv s held) (op : EMOp)
    {s' : EntityManager n m} (h : s.step op = some s') : ∃ held', EMInv s' held' := by
  cases op with
  | setEIDPool =>
    simp only [step, SetEIDPoolImpl] at h
    split at h
    · cases h
    · simp only [Except.toOption, Option.some.injEq] at h
      subst h
      exact ⟨held, inv_flags hinv true s.comp_pool_ s.singlenent_pool_ s.singlenent_table_⟩
  | setComponentPool =>
    simp only [step, SetComponentPoolImpl] at h
    split at h
    · cases h
    · simp only [Except.toOption, Option.some.injEq] at h
      subst h
      exact ⟨held, inv_flags hinv s.eid_pool_ true s.singlenent_pool_ s.singlenent_table_⟩
  | setSinglenentPool =>
    simp only [step, SetSinglenentPoolImpl] at h
    split at h
    · cases h
    · simp only [Except.toOption, Option.some.injEq] at h
      subst h
      exact ⟨held, inv_flags hinv s.eid_pool_ s.comp_pool_ true s.singlenent_table_⟩
  | setPolicy g k data =>
    simp only [step] at h
    split at h
    · next hf =>
      injection h with h
      subst h
      have hsh : DynamicPool.Shape (s.ett_data_pool_.SetGrowth g) :=
        ⟨hinv.pool.shape.pool_len, hinv.pool.shape.summary⟩
      have hdj : DynamicPool.Disj (s.ett_data_pool_.SetGrowth g) := hinv.pool.disj
      have hh : DynamicPool.Held (s.ett_data_pool_.SetGrowth g) held :=
        ⟨hinv.pool.held.nodup, hinv.pool.held.held_iff, hinv.pool.held.count⟩
      refine ⟨held, ⟨hsh.shape_GrowExtra _ _, hdj.disj_GrowExtra _ _ hf,
        hh.held_GrowExtra _ _⟩, ?_, hinv.slots_nodup, hinv.slots_held, ?_⟩
      · show ((s.ett_data_pool_.SetGrowth g).GrowExtra k data).value_ = none
        rw [GrowExtra_value]
        exact hinv.value_none
      · exact AllGood.allGood_GrowExtra (s := s.ett_data_pool_.SetGrowth g) hinv.good
          hinv.value_none k data
    · cases h
  | createEntity eid data =>
    simp only [step] at h
    split at h
    · cases h
    · next hf =>
      obtain ⟨⟨r, s1, calls⟩, hok, hs⟩ := toOption_map_some _ _ _ h
      simp only at hs
      subst hs
      obtain ⟨tup, pool, -, hacq, rfl, -, -⟩ := CreateEntityImpl_ok hok
      refine ⟨tup :: held, inv_create hinv ?_ hacq⟩
      intro hall
      simp only [hall, Bool.true_and, Bool.not_eq_true', Bool.not_eq_false] at hf
      simpa using hf
  | destroyEntity eid =>
    simp only [step] at h
    obtain ⟨⟨s1, calls⟩, hok, hs⟩ := toOption_map_some _ _ _ h
    simp only at hs
    subst hs
    obtain ⟨slot, -, hinv'⟩ := inv_destroy hinv hok
    exact ⟨_, hinv'⟩
  | addComponent eid tid comp =>
    simp only [step] at h
    obtain ⟨⟨r, s1, calls⟩, hok, hs⟩ := toOption_map_some _ _ _ h
    simp only at hs
    subst hs
    obtain ⟨slot, record, pool, -, -, -, hrec, hw, rfl, -, -⟩ := AddComponentImpl_ok hok
    refine ⟨held, inv_write hinv hw ?_⟩
    intro i hi
    simp only at hi ⊢
    split
    · simp
    · next hne =>
      simp only [hne, if_false] at hi
      exact inv_read_good hinv hrec i hi
  | removeComponent eid tid =>
    simp only [step] at h
    obtain ⟨⟨s1, calls⟩, hok, hs⟩ := toOption_map_some _ _ _ h
    simp only at hs
    subst hs
    obtain ⟨slot, record, pool, comp, ht, -, -, hrec, -, hw, rfl, -⟩ := RemoveComponentImpl_ok hok
    refine ⟨held, inv_write hinv hw ?_⟩
    intro i hi
    simp only at hi ⊢
    split at hi
    · cases hi
    · exact inv_read_good hinv hrec i hi
  | addSinglenent tid comp =>
    simp only [step] at h
    obtain ⟨⟨r, s1, calls⟩, hok, hs⟩ := toOption_map_some _ _ _ h
    simp only at hs
    subst hs
    unfold AddSinglenentImpl at hok
    split at hok
    · split at hok
      · cases hok
      · split at hok
        · cases hok
        · injection hok with hok
          injection hok with h1 h2
          injection h2 with h2 h3
          subst h2
          exact ⟨held, inv_flags hinv s.eid_pool_ s.comp_pool_ s.singlenent_pool_ _⟩
    · cases hok
  | removeSinglenent tid =>
    simp only [step] at h
    obtain ⟨⟨s1, calls⟩, hok, hs⟩ := toOption_map_some _ _ _ h
    simp only at hs
    subst hs
    unfold RemoveSinglenentImpl at hok
    split at hok
    · split at hok
      · cases hok
      · split at hok
        · cases hok
        · injection hok with hok
          injection hok with h1 h2
          subst h1
          exact ⟨held, inv_flags hinv s.eid_pool_ s.comp_pool_ s.singlenent_pool_ _⟩
    · cases hok

theorem inv_run (ops : List EMOp) {s : EntityManager n m} {held : List Int}
    (hinv : EMInv s held) {s' : EntityManager n m} (h : s.run ops = some s') :
    ∃ held', EMInv s' held' := by
  induction ops generalizing s held with
  | nil =>
    simp only [run] at h
    injection h with h
    subst h
    exact ⟨held, hinv⟩
  | cons op ops ih =>
    simp only [run] at h
    split at h
    · cases h
    · next s1 hs1 =>
      obtain ⟨held1, hinv1⟩ := inv_step hinv op hs1
      exact ih hinv1 h

/-- Effect of a successful `AddComponentImpl` on the record of the entity itself. -/
theorem add_effect {s : EntityManager n m} {eid : EID} {tid : XnentTypeID} {comp r : Int}
    {s1 : EntityManager n m} {calls : List ExtCall}
    (h : s.AddComponentImpl eid tid comp = .ok (r, s1, calls)) :
    s1.ett_table_ = s.ett_table_ ∧ s1.maskBit eid tid = some true ∧
      s1.tableEntry eid tid = some (some comp) ∧
      ∀ u, u ≠ tid → s1.maskBit eid u = s.maskBit eid u ∧
        s1.tableEntry eid u = s.tableEntry eid u := by
  obtain ⟨slot, record, pool, hslot, ht, -, hrec, hw, rfl, -, -⟩ := AddComponentImpl_ok h
  have hread := readAt_write_same hw
  refine ⟨rfl, ?_, ?_, ?_⟩
  · simp only [maskBit, hslot, ht, dif_pos, hread, Option.map_some', if_true]
  · simp only [tableEntry, hslot, ht, dif_pos, hread, Option.map_some', if_true]
  · intro u hu
    by_cases hun : u < n
    · simp only [maskBit, tableEntry, hslot, hun, dif_pos, hread, hrec, Option.map_some', hu,
        if_false, and_self]
    · simp only [maskBit, tableEntry, hslot, hun, dif_neg, not_false_eq_true, and_self]

/-- Effect of a successful `RemoveComponentImpl` on the record of the entity itself: the
mask bit is cleared, every slot-table entry (also entry `tid`) is left as it was. -/
theorem remove_effect {s : EntityManager n m} {eid : EID} {tid : XnentTypeID}
    {s1 : EntityManager n m} {calls : List ExtCall}
    (h : s.RemoveComponentImpl eid tid = .ok (s1, calls)) :
    s1.ett_table_ = s.ett_table_ ∧ s1.maskBit eid tid = some false ∧
      (∀ u, u ≠ tid → s1.maskBit eid u = s.maskBit eid u) ∧
      (∀ u, s1.tableEntry eid u = s.tableEntry eid u) ∧
      ∃ comp, s1.tableEntry eid tid = some (some comp) ∧ calls = [.compRelease tid comp] := by
  obtain ⟨slot, record, pool, comp, ht, hslot, -, hrec, hcomp, hw, rfl, hcalls⟩ :=
    RemoveComponentImpl_ok h
  have hread := readAt_write_same hw
  refine ⟨rfl, ?_, ?_, ?_, comp, ?_, hcalls⟩
  · simp only [maskBit, hslot, ht, dif_pos, hread, Option.map_some', if_true]
  · intro u hu
    by_cases hun : u < n
    · simp only [maskBit, hslot, hun, dif_pos, hread, hrec, Option.map_some', hu, if_false]
    · simp only [maskBit, hslot, hun, dif_neg, not_false_eq_true]
  · intro u
    by_cases hun : u < n
    · simp only [tableEntry, hslot, hun, dif_pos, hread, hrec, Option.map_some']
    · simp only [tableEntry, hslot, hun, dif_neg, not_false_eq_true]
  · simp only [tableEntry, hslot, ht, dif_pos, hread, Option.map_some', hcomp]

end EntityManager

end internal
end einu

namespace einu
namespace util

/-- C20 (code at the failing input). A pool constructed with count 2 has one sub-pool, and
that sub-pool has a free slot, but its summary bitmap has two bits: `GrowExtra` resizes the
bitmap by `delta_size` bits, not by one bit for the sub-pool it appends. -/
theorem DynamicPool.summary_bitmap_longer_than_pools :
    (DynamicPool.new 2 (none : Option Unit) DefaultGrowth 0).pools_.length = 1 ∧
      (DynamicPool.new 2 (none : Option Unit) DefaultGrowth 0).pools_bit_array_ = [true, true] ∧
      (DynamicPool.new 2 (none : Option Unit) DefaultGrowth 0).pools_bit_array_.length ≠
        (DynamicPool.new 2 (none : Option Unit) DefaultGrowth 0).pools_.length :=
  ⟨rfl, rfl, by decide⟩

end util

namespace internal

open util

/-- C16 (code at the failing input). In the state reached by `CreateEntity` and
`AddComponent(7, 0)`, bit 0 of entity 7 is set and its slot 0 holds the component at 500.
A second `AddComponent(7, 0)` returns normally: it acquires one more component (at 501) from
the component pool, releases nothing, and overwrites slot 0 with the new reference. -/
theorem EntityManager.duplicate_add_not_checked :
    (EntityManager.new 2 1).run
        [.setEIDPool, .setComponentPool, .createEntity 7 100, .addComponent 7 0 500] =
        some exWithComponent ∧
      exWithComponent.maskBit 7 0 = some true ∧
      exWithComponent.tableEntry 7 0 = some (some 500) ∧
      ∃ s1, exWithComponent.AddComponentImpl 7 0 501 = .ok (501, s1, [.compAcquire 0 501]) ∧
        s1.maskBit 7 0 = some true ∧ s1.tableEntry 7 0 = some (some 501) :=
  ⟨rfl, rfl, rfl, _, rfl, rfl, rfl⟩

end internal
end einu

namespace einu
namespace util

/-! ### Reading and writing a located slot -/

theorem readPools_decomp {α : Type} (L R : List (FixedPool α)) (q : FixedPool α) (a : Int)
    (hL : ∀ x ∈ L, ¬ x.InRange a) (hq : q.InRange a) :
    readPools (L ++ q :: R) a = q.object_arr_[(a - q.data).toNat]? := by
  induction L with
  | nil =>
    have : q.data ≤ a ∧ a < q.data + (q.bit_arr_.length : Int) := hq
    simp only [List.nil_append, readPools, this, and_self, if_true]
  | cons x L ih =>
    have hx : ¬ (x.data ≤ a ∧ a < x.data + (x.bit_arr_.length : Int)) :=
      hL x (List.mem_cons_self _ _)
    simp only [List.cons_append, readPools, hx, if_false]
    exact ih fun y hy => hL y (List.mem_cons_of_mem _ hy)

theorem writePools_decomp {α : Type} (L R : List (FixedPool α)) (q : FixedPool α) (a : Int)
    (v : α) (hL : ∀ x ∈ L, ¬ x.InRange a) (hq : q.InRange a)
    (ps' : List (FixedPool α)) (h : writePools (L ++ q :: R) a v = some ps') :
    ps' = L ++ { q with object_arr_ := q.object_arr_.set (a - q.data).toNat v } :: R := by
  induction L generalizing ps' with
  | nil =>
    have hr : q.data ≤ a ∧ a < q.data + (q.bit_arr_.length : Int) := hq
    simp only [List.nil_append, writePools, hr, and_self, if_true] at h
    split at h
    · injection h with h
      exact h.symm
    · cases h
  | cons x L ih =>
    have hx : ¬ (x.data ≤ a ∧ a < x.data + (x.bit_arr_.length : Int)) :=
      hL x (List.mem_cons_self _ _)
    rw [List.cons_append] at h
    simp only [writePools, hx, if_false] at h
    cases hw : writePools (L ++ q :: R) a v with
    | none => simp [hw] at h
    | some qs =>
      simp only [hw, Option.map_some', Option.some.injEq] at h
      subst h
      rw [ih (fun y hy => hL y (List.mem_cons_of_mem _ hy)) qs hw]
      rfl

theorem readPools_replace {α : Type} (L R : List (FixedPool α)) (p p1 : FixedPool α)
    (hd : p1.data = p.data) (ho : p1.object_arr_ = p.object_arr_)
    (hl : p1.bit_arr_.length = p.bit_arr_.length) (b : Int) :
    readPools (L ++ p1 :: R) b = readPools (L ++ p :: R) b := by
  induction L with
  | nil =>
    show readPools (p1 :: R) b = readPools (p :: R) b
    simp only [readPools, hd, ho, hl]
  | cons x L ih =>
    show readPools (x :: (L ++ p1 :: R)) b = readPools (x :: (L ++ p :: R)) b
    simp only [readPools]
    rw [ih]

theorem DynamicPool.Release_readAt {α : Type} [Inhabited α] {s s' : DynamicPool α} {obj : Int}
    (h : s.Release obj = .ok s') (b : Int) : s'.readAt b = s.readAt b := by
  obtain ⟨L, R, p, p1, hs, hrel, -, rfl⟩ := DynamicPool.Release_ok h
  obtain ⟨hd, ho, hl, -⟩ := FixedPool.Release_spec hrel
  simp only [DynamicPool.readAt, hs]
  exact readPools_replace L R p p1 hd ho hl b

end util

namespace internal

open util

namespace EntityManager

variable {n m : Nat}

theorem FreeSat.replace_bits {P : EntityRecord n → Prop}
    {L R : List (FixedPool (EntityRecord n))} {p p1 : FixedPool (EntityRecord n)}
    (h : FreeSat P (L ++ p :: R)) (ho : p1.object_arr_ = p.object_arr_)
    (hb : ∀ j : Nat, p1.bit_arr_[j]? = some true →
      p.bit_arr_[j]? = some true ∨ ∀ r : EntityRecord n, p.object_arr_[j]? = some r → P r) :
    FreeSat P (L ++ p1 :: R) := by
  intro q hq j r hj hr
  simp only [List.mem_append, List.mem_cons] at hq
  rcases hq with hq | rfl | hq
  · exact h q (by simp [hq]) j r hj hr
  · rw [ho] at hr
    rcases hb j hj with h1 | h1
    · exact h p (by simp) j r h1 hr
    · exact h1 r hr
  · exact h q (by simp [hq]) j r hj hr

theorem FreeSat.write {P : EntityRecord n → Prop}
    {L R : List (FixedPool (EntityRecord n))} {q : FixedPool (EntityRecord n)}
    (h : FreeSat P (L ++ q :: R)) (idx : Nat) (v : EntityRecord n)
    (hv : q.bit_arr_[idx]? = some true → P v) :
    FreeSat P (L ++ { q with object_arr_ := q.object_arr_.set idx v } :: R) := by
  intro p hp j r hj hr
  simp only [List.mem_append, List.mem_cons] at hp
  rcases hp with hp | rfl | hp
  · exact h p (by simp [hp]) j r hj hr
  · simp only [List.getElem?_set] at hr
    split at hr
    · next heq =>
      subst heq
      split at hr
      · injection hr with hr
        subst hr
        exact hv hj
      · cases hr
    · exact h q (by simp) j r hj hr
  · exact h p (by simp [hp]) j r hj hr

theorem FreeSat.freeSat_GrowExtra {P : EntityRecord n → Prop}
    {s : DynamicPool (EntityRecord n)} (h : FreeSat P s.pools_) (hv : s.value_ = none)
    (hP : P default) (k : Nat) (data : Int) : FreeSat P (s.GrowExtra k data).pools_ := by
  rcases Nat.eq_zero_or_pos k with rfl | hk
  · rw [DynamicPool.GrowExtra_zero]; exact h
  rw [DynamicPool.GrowExtra_pos s k data hk]
  intro q hq j r hj hr
  simp only [List.mem_append, List.mem_singleton] at hq
  rcases hq with hq | rfl
  · exact h q hq j r hj hr
  · simp only [DynamicPool.newPool, hv, FixedPool.new] at hr
    have := List.eq_of_mem_replicate (List.getElem?_mem hr)
    subst this
    exact hP

theorem FreeSat.freeSat_grown {P : EntityRecord n → Prop}
    {s : DynamicPool (EntityRecord n)} (h : FreeSat P s.pools_) (hv : s.value_ = none)
    (hP : P default) (data : Int) : FreeSat P (s.grown data).pools_ := by
  unfold DynamicPool.grown
  split
  · exact h.freeSat_GrowExtra hv hP _ _
  · exact h

/-- The slot of a live entity: the sub-pool that owns it, with the slot marked acquired. -/
theorem live_slot {s : EntityManager n m} {held : List Int} (hinv : EMInv s held)
    {eid : EID} {slot : Int} (hslot : s.ett_table_.lookup eid = some slot) :
    ∃ L q R, s.ett_data_pool_.pools_ = L ++ q :: R ∧ q.Occupied slot ∧
      (∀ x ∈ L, ¬ x.InRange slot) ∧
      (slot - q.data).toNat < q.object_arr_.length ∧
      s.ett_data_pool_.readAt slot = q.object_arr_[(slot - q.data).toNat]? := by
  have hh := hinv.slots_held slot (List.mem_map_of_mem Prod.snd (lookup_mem _ _ _ hslot))
  obtain ⟨q, hq, hocc⟩ := (hinv.pool.held.held_iff slot).1 hh
  obtain ⟨L, R, hs⟩ := List.append_of_mem hq
  have hL : ∀ x ∈ L, ¬ x.InRange slot :=
    fun x hx => hinv.pool.disj.other hs x (Or.inl hx) slot hocc.inRange
  have hlen := (hinv.pool.shape.pool_len q hq).1
  have hr := hocc.inRange
  refine ⟨L, q, R, hs, hocc, hL, ?_, ?_⟩
  · have h1 := hr.1
    have h2 := hr.2
    omega
  · simp only [DynamicPool.readAt, hs]
    exact readPools_decomp L R q slot hL hr

/-- An assignment to the record of a live entity keeps the property of the free slots. -/
theorem FreeSat.live_write {P : EntityRecord n → Prop} {s : EntityManager n m}
    {held : List Int} (hinv : EMInv s held) (h : FreeSat P s.ett_data_pool_.pools_)
    {eid : EID} {slot : Int} (hslot : s.ett_table_.lookup eid = some slot)
    {v : EntityRecord n} {pool : DynamicPool (EntityRecord n)}
    (hw : s.ett_data_pool_.writeAt slot v = some pool) : FreeSat P pool.pools_ := by
  obtain ⟨L, q, R, hs, hocc, hL, -, -⟩ := live_slot hinv hslot
  have hwp := (DynamicPool.writeAt_sig hw).2.2.2.2
  rw [hs] at hwp h
  rw [writePools_decomp L R q slot v hL hocc.inRange _ hwp]
  refine h.write _ v ?_
  intro hb
  rw [hocc.2] at hb
  cases hb

end EntityManager

end internal
end einu

namespace einu
namespace internal

open util

/-! ### The entity table as a sorted map -/

theorem mapInsert_fst (m : List (EID × Int)) (k : EID) (v : Int) (x : EID)
    (h : x ∈ (mapInsert m k v).map Prod.fst) : x = k ∨ x ∈ m.map Prod.fst := by
  induction m with
  | nil => simpa [mapInsert] using h
  | cons e m ih =>
    obtain ⟨k1, v1⟩ := e
    simp only [mapInsert] at h
    split at h
    · simpa using h
    · split at h
      · next heq =>
        simp only [List.map_cons, List.mem_cons] at h ⊢
        rcases h with h | h
        · exact Or.inl h
        · exact Or.inr (Or.inr h)
      · simp only [List.map_cons, List.mem_cons] at h ⊢
        rcases h with h | h
        · exact Or.inr (Or.inl h)
        · rcases ih h with h | h
          · exact Or.inl h
          · exact Or.inr (Or.inr h)

theorem mapInsert_sorted (m : List (EID × Int)) (k : EID) (v : Int)
    (h : (m.map Prod.fst).Pairwise (· < ·)) :
    ((mapInsert m k v).map Prod.fst).Pairwise (· < ·) := by
  induction m with
  | nil => simp [mapInsert]
  | cons e m ih =>
    obtain ⟨k1, v1⟩ := e
    simp only [List.map_cons, List.pairwise_cons] at h
    simp only [mapInsert]
    split
    · next hlt =>
      simp only [List.map_cons, List.pairwise_cons, List.mem_cons]
      refine ⟨?_, h.1, h.2⟩
      rintro x (rfl | hx)
      · exact hlt
      · exact Nat.lt_trans hlt (h.1 x hx)
    · split
      · next hlt heq =>
        subst heq
        simp only [List.map_cons, List.pairwise_cons]
        exact ⟨h.1, h.2⟩
      · next hlt hne =>
        simp only [List.map_cons, List.pairwise_cons]
        refine ⟨?_, ih h.2⟩
        intro x hx
        rcases mapInsert_fst m k v x hx with rfl | hx
        · exact Nat.lt_of_le_of_ne (Nat.le_of_not_lt hlt) (Ne.symm hne)
        · exact h.1 x hx

theorem lookup_cons_self (k : EID) (v : Int) (m : List (EID × Int)) :
    List.lookup k ((k, v) :: m) = some v := by
  simp [List.lookup]

theorem lookup_cons_ne {k k1 : EID} (hne : k ≠ k1) (v1 : Int) (m : List (EID × Int)) :
    List.lookup k ((k1, v1) :: m) = List.lookup k m := by
  have : (k == k1) = false := by simpa using hne
  simp only [List.lookup, this]

theorem lookup_mapInsert_self (m : List (EID × Int)) (k : EID) (v : Int) :
    (mapInsert m k v).lookup k = some v := by
  induction m with
  | nil => exact lookup_cons_self k v []
  | cons e m ih =>
    obtain ⟨k1, v1⟩ := e
    simp only [mapInsert]
    split
    · exact lookup_cons_self _ _ _
    · split
      · exact lookup_cons_self _ _ _
      · next hne =>
        rw [lookup_cons_ne hne]
        exact ih

theorem lookup_mapInsert_other (m : List (EID × Int)) (k : EID) (v : Int) (k' : EID)
    (hne : k' ≠ k) : (mapInsert m k v).lookup k' = m.lookup k' := by
  induction m with
  | nil =>
    simp only [mapInsert]
    rw [lookup_cons_ne hne]
  | cons e m ih =>
    obtain ⟨k1, v1⟩ := e
    simp only [mapInsert]
    split
    · rw [lookup_cons_ne hne]
    · split
      · next heq =>
        subst heq
        rw [lookup_cons_ne hne, lookup_cons_ne hne]
      · by_cases h1 : k' = k1
        · subst h1
          rw [lookup_cons_self, lookup_cons_self]
        · rw [lookup_cons_ne h1, lookup_cons_ne h1]
          exact ih

theorem lookup_mapErase_self (m : List (EID × Int)) (k : EID) :
    (mapErase m k).lookup k = none := by
  induction m with
  | nil => rfl
  | cons e m ih =>
    obtain ⟨k1, v1⟩ := e
    by_cases h1 : k1 = k
    · subst h1
      simpa [mapErase] using ih
    · have : ((k1, v1) :: m).filter (fun e => e.1 != k) =
          (k1, v1) :: m.filter (fun e => e.1 != k) := by
        simp [h1]
      rw [mapErase, this, lookup_cons_ne (Ne.symm h1)]
      exact ih

theorem lookup_mapErase_other (m : List (EID × Int)) (k k' : EID) (hne : k' ≠ k) :
    (mapErase m k).lookup k' = m.lookup k' := by
  induction m with
  | nil => rfl
  | cons e m ih =>
    obtain ⟨k1, v1⟩ := e
    by_cases h1 : k1 = k
    · subst h1
      have : ((k1, v1) :: m).filter (fun e => e.1 != k1) =
          m.filter (fun e => e.1 != k1) := by
        simp
      rw [mapErase, this, lookup_cons_ne hne]
      exact ih
    · have : ((k1, v1) :: m).filter (fun e => e.1 != k) =
          (k1, v1) :: m.filter (fun e => e.1 != k) := by
        simp [h1]
      rw [mapErase, this]
      by_cases h2 : k' = k1
      · subst h2
        rw [lookup_cons_self, lookup_cons_self]
      · rw [lookup_cons_ne h2, lookup_cons_ne h2]
        exact ih

theorem lookup_of_mem (m : List (EID × Int)) (h : (m.map Prod.fst).Pairwise (· < ·))
    (e : EID) (sl : Int) (hm : (e, sl) ∈ m) : m.lookup e = some sl := by
  induction m with
  | nil => simp at hm
  | cons a m ih =>
    obtain ⟨k1, v1⟩ := a
    simp only [List.map_cons, List.pairwise_cons] at h
    rcases List.mem_cons.1 hm with heq | hm'
    · obtain ⟨rfl, rfl⟩ := Prod.mk.inj heq
      exact lookup_cons_self _ _ _
    · have hlt := h.1 e (List.mem_map_of_mem Prod.fst hm')
      have hne : e ≠ k1 := Nat.ne_of_gt hlt
      rw [lookup_cons_ne hne]
      exact ih h.2 hm'

theorem mapErase_sorted (m : List (EID × Int)) (k : EID)
    (h : (m.map Prod.fst).Pairwise (· < ·)) :
    ((mapErase m k).map Prod.fst).Pairwise (· < ·) :=
  h.sublist ((List.filter_sublist m).map Prod.fst)

end internal
end einu

namespace einu
namespace internal

open util

namespace EntityManager

variable {n m : Nat}

/-- A destruction keeps the property `P` of the free slots when every record with a reset
mask has it: the mask of the released record is reset before its slot is freed. -/
theorem FreeSat.destroy {P : EntityRecord n → Prop} {s : EntityManager n m}
    {held : List Int} (hinv : EMInv s held) (h : FreeSat P s.ett_data_pool_.pools_)
    (hP : ∀ r : EntityRecord n, P { r with mask := fun _ => false })
    {eid : EID} {s2 : EntityManager n m} {calls : List ExtCall}
    (hd : s.DestroyEntityImpl eid = .ok (s2, calls)) :
    FreeSat P s2.ett_data_pool_.pools_ := by
  obtain ⟨slot, s1, hslot, hrel, rfl⟩ := DestroyEntityImpl_ok hd
  obtain ⟨record, calls0, pool1, pool2, hrec, -, hw, hrel2, -, rfl, -⟩ := ReleaseEntity_ok hrel
  have h1 : FreeSat P pool1.pools_ := h.live_write hinv hslot hw
  have hinv1 := inv_write hinv hw (fun i hi => by cases hi)
  have hread := readAt_write_same hw
  obtain ⟨L, R, p, p1, hs, hrel3, -, rfl⟩ := DynamicPool.Release_ok hrel2
  obtain ⟨hle, hb, rfl⟩ := FixedPool.fixed_Release_ok hrel3
  obtain ⟨-, -, -, hin, -, -, -⟩ := FixedPool.Release_spec hrel3
  have hL : ∀ x ∈ L, ¬ x.InRange slot :=
    fun x hx => hinv1.pool.disj.other hs x (Or.inl hx) slot hin
  have hobj : p.object_arr_[(slot - p.data).toNat]? =
      some { record with mask := fun _ => false } := by
    have := readPools_decomp L R p slot hL hin
    simp only [DynamicPool.readAt, hs] at hread
    rw [← this]
    exact hread
  show FreeSat P (L ++ _ :: R)
  rw [hs] at h1
  refine h1.replace_bits rfl ?_
  intro j hj
  simp only [List.getElem?_set] at hj
  split at hj
  · next heq =>
    right
    intro r hr
    rw [← heq, hobj] at hr
    injection hr with hr
    subst hr
    exact hP record
  · exact Or.inl hj

/-- One call keeps the property `P` of the free slots of the record pool, when the
value-initialised record has it and, for a destruction, every record with a reset mask has
it. -/
theorem freeSat_step {P : EntityRecord n → Prop} (hdef : P default) {s : EntityManager n m}
    {held : List Int} (hinv : EMInv s held) (h : FreeSat P s.ett_data_pool_.pools_)
    (op : EMOp)
    (hop : op.isDestroy = true → ∀ r : EntityRecord n, P { r with mask := fun _ => false })
    {s' : EntityManager n m} (hstep : s.step op = some s') :
    FreeSat P s'.ett_data_pool_.pools_ := by
  cases op with
  | setEIDPool =>
    simp only [step, SetEIDPoolImpl] at hstep
    split at hstep
    · cases hstep
    · simp only [Except.toOption, Option.some.injEq] at hstep
      subst hstep
      exact h
  | setComponentPool =>
    simp only [step, SetComponentPoolImpl] at hstep
    split at hstep
    · cases hstep
    · simp only [Except.toOption, Option.some.injEq] at hstep
      subst hstep
      exact h
  | setSinglenentPool =>
    simp only [step, SetSinglenentPoolImpl] at hstep
    split at hstep
    · cases hstep
    · simp only [Except.toOption, Option.some.injEq] at hstep
      subst hstep
      exact h
  | setPolicy g k data =>
    simp only [step] at hstep
    split at hstep
    · injection hstep with hstep
      subst hstep
      exact FreeSat.freeSat_GrowExtra (s := s.ett_data_pool_.SetGrowth g) h hinv.value_none
        hdef k data
    · cases hstep
  | createEntity eid data =>
    simp only [step] at hstep
    split at hstep
    · cases hstep
    · obtain ⟨⟨r, s1, calls⟩, hok, hs⟩ := toOption_map_some _ _ _ hstep
      simp only at hs
      subst hs
      obtain ⟨tup, pool, -, hacq, rfl, -, -⟩ := CreateEntityImpl_ok hok
      obtain ⟨L, R, p, p1, hs, -, hacq1, rfl⟩ := DynamicPool.Acquire_ok hacq
      obtain ⟨pos, -, hat⟩ := FixedPool.fixed_Acquire_ok hacq1
      obtain ⟨-, -, rfl⟩ := FixedPool.AcquireAt_ok hat
      have hg := h.freeSat_grown hinv.value_none hdef data
      rw [hs] at hg
      show FreeSat P (L ++ _ :: R)
      refine hg.replace_bits rfl ?_
      intro j hj
      simp only [List.getElem?_set] at hj
      split at hj
      · split at hj <;> cases hj
      · exact Or.inl hj
  | destroyEntity eid =>
    simp only [step] at hstep
    obtain ⟨⟨s1, calls⟩, hok, hs⟩ := toOption_map_some _ _ _ hstep
    simp only at hs
    subst hs
    exact h.destroy hinv (hop rfl) hok
  | addComponent eid tid comp =>
    simp only [step] at hstep
    obtain ⟨⟨r, s1, calls⟩, hok, hs⟩ := toOption_map_some _ _ _ hstep
    simp only at hs
    subst hs
    obtain ⟨slot, record, pool, hslot, -, -, -, hw, rfl, -, -⟩ := AddComponentImpl_ok hok
    exact h.live_write hinv hslot hw
  | removeComponent eid tid =>
    simp only [step] at hstep
    obtain ⟨⟨s1, calls⟩, hok, hs⟩ := toOption_map_some _ _ _ hstep
    simp only at hs
    subst hs
    obtain ⟨slot, record, pool, comp, ht, hslot, -, -, -, hw, rfl, -⟩ :=
      RemoveComponentImpl_ok hok
    exact h.live_write hinv hslot hw
  | addSinglenent tid comp =>
    simp only [step] at hstep
    obtain ⟨⟨r, s1, calls⟩, hok, hs⟩ := toOption_map_some _ _ _ hstep
    simp only at hs
    subst hs
    unfold AddSinglenentImpl at hok
    split at hok
    · split at hok
      · cases hok
      · split at hok
        · cases hok
        · injection hok with hok
          injection hok with h1 h2
          injection h2 with h2 h3
          subst h2
          exact h
    · cases hok
  | removeSinglenent tid =>
    simp only [step] at hstep
    obtain ⟨⟨s1, calls⟩, hok, hs⟩ := toOption_map_some _ _ _ hstep
    simp only at hs
    subst hs
    unfold RemoveSinglenentImpl at hok
    split at hok
    · split at hok
      · cases hok
      · split at hok
        · cases hok
        · injection hok with hok
          injection hok with h1 h2
          subst h1
          exact h
    · cases hok

/-- One call keeps the entity table sorted by key. -/
theorem sorted_step {s : EntityManager n m} (h : KeysSorted s) (op : EMOp)
    {s' : EntityManager n m} (hstep : s.step op = some s') : KeysSorted s' := by
  cases op with
  | setEIDPool =>
    simp only [step, SetEIDPoolImpl] at hstep
    split at hstep
    · cases hstep
    · simp only [Except.toOption, Option.some.injEq] at hstep
      subst hstep
      exact h
  | setComponentPool =>
    simp only [step, SetComponentPoolImpl] at hstep
    split at hstep
    · cases hstep
    · simp only [Except.toOption, Option.some.injEq] at hstep
      subst hstep
      exact h
  | setSinglenentPool =>
    simp only [step, SetSinglenentPoolImpl] at hstep
    split at hstep
    · cases hstep
    · simp only [Except.toOption, Option.some.injEq] at hstep
      subst hstep
      exact h
  | setPolicy g k data =>
    simp only [step] at hstep
    split at hstep
    · injection hstep with hstep
      subst hstep
      exact h
    · cases hstep
  | createEntity eid data =>
    simp only [step] at hstep
    split at hstep
    · cases hstep
    · obtain ⟨⟨r, s1, calls⟩, hok, hs⟩ := toOption_map_some _ _ _ hstep
      simp only at hs
      subst hs
      obtain ⟨tup, pool, -, hacq, rfl, -, -⟩ := CreateEntityImpl_ok hok
      exact mapInsert_sorted _ _ _ h
  | destroyEntity eid =>
    simp only [step] at hstep
    obtain ⟨⟨s1, calls⟩, hok, hs⟩ := toOption_map_some _ _ _ hstep
    simp only at hs
    subst hs
    obtain ⟨slot, s1, hslot, hrel, rfl⟩ := DestroyEntityImpl_ok hok
    obtain ⟨record, calls0, pool1, pool2, -, -, -, -, -, rfl, -⟩ := ReleaseEntity_ok hrel
    exact mapErase_sorted _ _ h
  | addComponent eid tid comp =>
    simp only [step] at hstep
    obtain ⟨⟨r, s1, calls⟩, hok, hs⟩ := toOption_map_some _ _ _ hstep
    simp only at hs
    subst hs
    obtain ⟨slot, record, pool, -, -, -, -, -, rfl, -, -⟩ := AddComponentImpl_ok hok
    exact h
  | removeComponent eid tid =>
    simp only [step] at hstep
    obtain ⟨⟨s1, calls⟩, hok, hs⟩ := toOption_map_some _ _ _ hstep
    simp only at hs
    subst hs
    obtain ⟨slot, record, pool, comp, ht, -, -, -, -, -, rfl, -⟩ := RemoveComponentImpl_ok hok
    exact h
  | addSinglenent tid comp =>
    simp only [step] at hstep
    obtain ⟨⟨r, s1, calls⟩, hok, hs⟩ := toOption_map_some _ _ _ hstep
    simp only at hs
    subst hs
    unfold AddSinglenentImpl at hok
    split at hok
    · split at hok
      · cases hok
      · split at hok
        · cases hok
        · injection hok with hok
          injection hok with h1 h2
          injection h2 with h2 h3
          subst h2
          exact h
    · cases hok
  | removeSinglenent tid =>
    simp only [step] at hstep
    obtain ⟨⟨s1, calls⟩, hok, hs⟩ := toOption_map_some _ _ _ hstep
    simp only at hs
    subst hs
    unfold RemoveSinglenentImpl at hok
    split at hok
    · split at hok
      · cases hok
      · split at hok
        · cases hok
        · injection hok with hok
          injection hok with h1 h2
          subst h1
          exact h
    · cases hok

theorem freeSat_run {P : EntityRecord n → Prop} (hdef : P default) (ops : List EMOp)
    (hops : ∀ op ∈ ops, op.isDestroy = true →
      ∀ r : EntityRecord n, P { r with mask := fun _ => false })
    {s : EntityManager n m} {held : List Int} (hinv : EMInv s held)
    (h : FreeSat P s.ett_data_pool_.pools_) {s' : EntityManager n m}
    (hrun : s.run ops = some s') : FreeSat P s'.ett_data_pool_.pools_ := by
  induction ops generalizing s held with
  | nil =>
    simp only [run] at hrun
    injection hrun with hrun
    subst hrun
    exact h
  | cons op ops ih =>
    simp only [run] at hrun
    split at hrun
    · cases hrun
    · next s1 hs1 =>
      obtain ⟨held1, hinv1⟩ := inv_step hinv op hs1
      exact ih (fun o ho => hops o (List.mem_cons_of_mem _ ho)) hinv1
        (freeSat_step hdef hinv h op (hops op (List.mem_cons_self _ _)) hs1) hrun

theorem sorted_run (ops : List EMOp) {s : EntityManager n m} (h : KeysSorted s)
    {s' : EntityManager n m} (hrun : s.run ops = some s') : KeysSorted s' := by
  induction ops generalizing s with
  | nil =>
    simp only [run] at hrun
    injection hrun with hrun
    subst hrun
    exact h
  | cons op ops ih =>
    simp only [run] at hrun
    split at hrun
    · cases hrun
    · next s1 hs1 => exact ih (sorted_step h op hs1) hrun

/-- Every state reached from a default-constructed entity manager satisfies both
invariants. -/
theorem reachable_inv (ops : List EMOp) {s : EntityManager n m}
    (hrun : (EntityManager.new n m).run ops = some s) :
    ∃ held, EMInv s held ∧ EMInv2 s := by
  obtain ⟨held, hinv⟩ := inv_run ops (inv_new n m) hrun
  have h0 : FreeSat (fun r : EntityRecord n => ∀ i, r.mask i = false)
      (EntityManager.new n m).ett_data_pool_.pools_ := by
    intro p hp
    simp [EntityManager.new, DynamicPool.new, DynamicPool.GrowExtra] at hp
  refine ⟨held, hinv, ?_, ?_⟩
  · exact sorted_run ops (by simp [KeysSorted, EntityManager.new]) hrun
  · exact freeSat_run (fun _ => rfl) ops (fun _ _ _ _ _ => rfl) (inv_new n m) h0 hrun

end EntityManager

end internal
end einu

namespace einu
namespace internal

open util

namespace EntityManager

variable {n m : Nat}

/-- The record handed to a new entity is the content of a free slot. -/
theorem create_record {P : EntityRecord n → Prop} (hdef : P default) {s : EntityManager n m}
    {held : List Int} (hinv : EMInv s held) (h : FreeSat P s.ett_data_pool_.pools_)
    {eid r : EID} {data : Int} {s1 : EntityManager n m} {calls : List ExtCall}
    (hfresh : s.ett_data_pool_.PoolsAllAcquired = true →
      s.ett_data_pool_.freshAlloc (s.ett_data_pool_.growth_ s.ett_data_pool_.Size) data = true)
    (hcreate : s.CreateEntityImpl eid data = .ok (r, s1, calls)) :
    r = eid ∧ calls = [.eidAcquire eid] ∧ s1.ContainsEntityImpl eid = true ∧
      ∃ record, s1.recordOf eid = some record ∧ P record := by
  obtain ⟨tup, pool, -, hacq, rfl, hr, hcalls⟩ := CreateEntityImpl_ok hcreate
  have hlook : (mapInsert s.ett_table_ eid tup).lookup eid = some tup :=
    lookup_mapInsert_self _ _ _
  refine ⟨hr, hcalls, by simp only [ContainsEntityImpl, hlook, Option.isSome_some], ?_⟩
  obtain ⟨L, R, p, p1, hs, -, hacq1, rfl⟩ := DynamicPool.Acquire_ok hacq
  obtain ⟨pos, -, hat⟩ := FixedPool.fixed_Acquire_ok hacq1
  obtain ⟨hd, ho, hl, hin, -, -, -, htup, hbit⟩ := FixedPool.AcquireAt_spec hat
  have hdj := hinv.pool.disj.disj_grown data hfresh
  have hsh := hinv.pool.shape.shape_grown data
  have hg := h.freeSat_grown hinv.value_none hdef data
  have hL : ∀ x ∈ L, ¬ x.InRange tup := fun x hx => hdj.other hs x (Or.inl hx) tup hin
  have hin1 : p1.InRange tup := by
    simpa [FixedPool.InRange, hd, hl] using hin
  have hpm : p ∈ (s.ett_data_pool_.grown data).pools_ := by simp [hs]
  have hlen := (hsh.pool_len p hpm).1
  have hpos : pos < p.bit_arr_.length := by
    rcases List.getElem?_eq_some.1 hbit with ⟨hlt, -⟩
    exact hlt
  have hidx : (tup - p1.data).toNat = pos := by
    rw [hd, htup]
    omega
  obtain ⟨rec0, hrec0⟩ : ∃ r0, p.object_arr_[pos]? = some r0 :=
    ⟨_, List.getElem?_eq_getElem (by omega)⟩
  have hread : readPools (L ++ p1 :: R) tup = some rec0 := by
    rw [readPools_decomp L R p1 tup hL hin1, hidx, ho]
    exact hrec0
  refine ⟨rec0, ?_, ?_⟩
  · simp only [recordOf, hlook, DynamicPool.readAt]
    exact hread
  · exact hg p hpm pos rec0 hbit hrec0

end EntityManager

end internal
end einu

namespace einu
namespace internal

open util

theorem releaseComponents_eq {n : Nat} (cp : Bool) (record : EntityRecord n)
    (is : List (Fin n)) (calls : List ExtCall)
    (h : EntityManager.releaseComponents cp record is = .ok calls) :
    calls = is.filterMap fun i =>
      if record.mask i then (record.comp_table i).map (ExtCall.compRelease i.val) else none := by
  induction is generalizing calls with
  | nil =>
    simp only [EntityManager.releaseComponents] at h
    injection h with h
    simp [← h]
  | cons i is ih =>
    simp only [EntityManager.releaseComponents] at h
    split at h
    · next hm =>
      split at h
      · cases h
      · next comp hc =>
        split at h
        · cases h
        · split at h
          · cases h
          · next calls0 h0 =>
            injection h with h
            rw [List.filterMap_cons_some (b := ExtCall.compRelease i.val comp)
              (by simp [hm, hc]), ← h, ih calls0 h0]
    · next hm =>
      rw [List.filterMap_cons_none (by simp [hm])]
      exact ih calls h

theorem mem_compReleases {n : Nat} (record : EntityRecord n) (tid : XnentTypeID) (comp : Int) :
    ExtCall.compRelease tid comp ∈ compReleases record ↔
      ∃ h : tid < n, record.mask ⟨tid, h⟩ = true ∧ record.comp_table ⟨tid, h⟩ = some comp := by
  unfold compReleases
  rw [List.mem_filterMap]
  constructor
  · rintro ⟨i, -, hi⟩
    split at hi
    · next hm =>
      cases hc : record.comp_table i with
      | none => simp [hc] at hi
      | some c =>
        simp only [hc, Option.map_some', Option.some.injEq, ExtCall.compRelease.injEq] at hi
        obtain ⟨h1, h2⟩ := hi
        subst h1
        subst h2
        exact ⟨i.isLt, hm, hc⟩
    · cases hi
  · rintro ⟨h, hm, hc⟩
    exact ⟨⟨tid, h⟩, List.mem_finRange _, by simp [hm, hc]⟩

theorem nodup_compReleases {n : Nat} (record : EntityRecord n) :
    (compReleases record).Nodup := by
  unfold compReleases
  refine List.Nodup.filterMap ?_ (List.nodup_finRange n)
  intro a a' b hb hb'
  split at hb
  · split at hb'
    · cases ha : record.comp_table a with
      | none => simp [ha] at hb
      | some c =>
        cases ha' : record.comp_table a' with
        | none => simp [ha'] at hb'
        | some c' =>
          simp only [ha, Option.map_some', Option.mem_def, Option.some.injEq] at hb
          simp only [ha', Option.map_some', Option.mem_def, Option.some.injEq] at hb'
          rw [← hb] at hb'
          simp only [ExtCall.compRelease.injEq] at hb'
          exact Fin.ext hb'.1.symm
    · cases hb'
  · cases hb

end internal
end einu

namespace einu
namespace internal

open util

theorem freeCount_of_sig {α : Type} [Inhabited α] {s s' : DynamicPool α}
    (hsig : s'.pools_.map FixedPool.sig = s.pools_.map FixedPool.sig) :
    s'.freeCount = s.freeCount := by
  unfold DynamicPool.freeCount
  exact congrArg List.sum (DynamicPool.map_of_sig (fun t => t.2.1.count true) hsig)

end internal
end einu

namespace einu
namespace internal

open util

namespace EntityManager

variable {n m : Nat}

/-! ### The query -/

theorem collectComps_eq (record : EntityRecord n) (xs : List XnentTypeID)
    (hxs : ∀ t ∈ xs, t < n) : collectComps record xs = .ok (compsOf record xs) := by
  induction xs with
  | nil => rfl
  | cons t xs ih =>
    have ht : t < n := hxs t (List.mem_cons_self _ _)
    have := ih fun u hu => hxs u (List.mem_cons_of_mem _ hu)
    simp only [collectComps, ht, dif_pos, this, compsOf, List.map_cons]

theorem queryLoop_eq (pool : DynamicPool (EntityRecord n)) (smask : Fin n → Bool)
    (xs : List XnentTypeID) (hxs : ∀ t ∈ xs, t < n) (table : List (EID × Int))
    (hread : ∀ e ∈ table, ∃ r, pool.readAt e.2 = some r) (buffer : EntityBuffer) :
    queryLoop pool smask xs buffer table =
      .ok { eids := buffer.eids ++ (matching pool smask table).map Prod.fst,
            comps := buffer.comps ++
              (matching pool smask table).flatMap fun er => compsOf er.2 xs } := by
  induction table generalizing buffer with
  | nil => simp [queryLoop, matching]
  | cons e table ih =>
    obtain ⟨eid, slot⟩ := e
    obtain ⟨r, hr⟩ := hread (eid, slot) (List.mem_cons_self _ _)
    have hread' : ∀ e ∈ table, ∃ r, pool.readAt e.2 = some r :=
      fun e he => hread e (List.mem_cons_of_mem _ he)
    simp only at hr
    by_cases hm : maskMatch r.mask smask = true
    · have hcons : matching pool smask ((eid, slot) :: table) =
          (eid, r) :: matching pool smask table := by
        unfold matching
        exact List.filterMap_cons_some (by simp [hr, hm])
      simp only [queryLoop, hr, hm, if_true, collectComps_eq r xs hxs, ih hread', hcons,
        List.map_cons, List.flatMap_cons, List.append_assoc, List.singleton_append]
    · have hcons : matching pool smask ((eid, slot) :: table) = matching pool smask table := by
        unfold matching
        exact List.filterMap_cons_none (by simp [hr, hm])
      have hm' : maskMatch r.mask smask = false := by simpa using hm
      simp only [queryLoop, hr, hm', Bool.false_eq_true, if_false, ih hread', hcons]

theorem mem_matching (pool : DynamicPool (EntityRecord n)) (smask : Fin n → Bool)
    (table : List (EID × Int)) (e : EID) (r : EntityRecord n) :
    (e, r) ∈ matching pool smask table ↔
      ∃ sl, (e, sl) ∈ table ∧ pool.readAt sl = some r ∧ maskMatch r.mask smask = true := by
  unfold matching
  rw [List.mem_filterMap]
  constructor
  · rintro ⟨⟨e', sl⟩, hmem, h⟩
    cases hr : pool.readAt sl with
    | none => simp [hr] at h
    | some r' =>
      simp only [hr, Option.some_bind] at h
      split at h
      · next hm =>
        injection h with h
        obtain ⟨rfl, rfl⟩ := Prod.mk.inj h
        exact ⟨sl, hmem, hr, hm⟩
      · cases h
  · rintro ⟨sl, hmem, hr, hm⟩
    exact ⟨(e, sl), hmem, by simp [hr, hm]⟩

theorem matching_fst_sublist (pool : DynamicPool (EntityRecord n)) (smask : Fin n → Bool)
    (table : List (EID × Int)) :
    ((matching pool smask table).map Prod.fst).Sublist (table.map Prod.fst) := by
  induction table with
  | nil => simp [matching]
  | cons e table ih =>
    cases hf : ((pool.readAt e.2).bind fun r =>
        if maskMatch r.mask smask then some (e.1, r) else none) with
    | none =>
      have : matching pool smask (e :: table) = matching pool smask table := by
        unfold matching
        exact List.filterMap_cons_none hf
      rw [this]
      exact List.Sublist.cons _ ih
    | some er =>
      have hcons : matching pool smask (e :: table) = er :: matching pool smask table := by
        unfold matching
        exact List.filterMap_cons_some hf
      have hfst : er.1 = e.1 := by
        cases hr : pool.readAt e.2 with
        | none => simp [hr] at hf
        | some r =>
          simp only [hr, Option.some_bind] at hf
          split at hf
          · injection hf with hf
            rw [← hf]
          · cases hf
      rw [hcons, List.map_cons, List.map_cons, hfst]
      exact List.Sublist.cons₂ _ ih

theorem maskMatch_iff (emask smask : Fin n → Bool) :
    maskMatch emask smask = true ↔ ∀ i, smask i = true → emask i = true := by
  unfold maskMatch
  rw [List.all_eq_true]
  constructor
  · intro h i hi
    have := h i (List.mem_finRange i)
    rw [hi] at this
    simpa using this
  · intro h i _
    cases hs : smask i with
    | false => simp
    | true => simp [h i hs]

end EntityManager

end internal
end einu

namespace einu
namespace internal

open util

namespace EntityManager

variable {n m : Nat}

/-- The result of the query in a state that satisfies the invariants: the buffer extended
by the matching entries of the entity table, in table order. -/
theorem query_eq {s : EntityManager n m} {held : List Int} (hinv : EMInv s held)
    (hinv2 : EMInv2 s) (buffer : EntityBuffer) (smask : Fin n → Bool)
    (xs : List XnentTypeID) (hxs : ∀ t ∈ xs, t < n) :
    s.GetEntitiesWithComponentsImpl buffer smask xs =
      .ok { eids := buffer.eids ++ (matching s.ett_data_pool_ smask s.ett_table_).map Prod.fst,
            comps := buffer.comps ++
              (matching s.ett_data_pool_ smask s.ett_table_).flatMap
                fun er => compsOf er.2 xs } := by
  unfold GetEntitiesWithComponentsImpl
  refine queryLoop_eq _ _ _ hxs _ ?_ _
  rintro ⟨e, sl⟩ he
  exact (live_record hinv (lookup_of_mem _ hinv2.sorted e sl he)).1

theorem mem_matching_iff {s : EntityManager n m} (hinv2 : EMInv2 s) (smask : Fin n → Bool)
    (e : EID) (r : EntityRecord n) :
    (e, r) ∈ matching s.ett_data_pool_ smask s.ett_table_ ↔
      s.recordOf e = some r ∧ maskMatch r.mask smask = true := by
  rw [mem_matching]
  constructor
  · rintro ⟨sl, hmem, hr, hm⟩
    refine ⟨?_, hm⟩
    simp only [recordOf, lookup_of_mem _ hinv2.sorted e sl hmem, hr]
  · rintro ⟨hrec, hm⟩
    unfold recordOf at hrec
    cases hl : s.ett_table_.lookup e with
    | none => simp [hl] at hrec
    | some sl =>
      simp only [hl] at hrec
      exact ⟨sl, lookup_mem _ _ _ hl, hrec, hm⟩

theorem matching_sorted {s : EntityManager n m} (hinv2 : EMInv2 s) (smask : Fin n → Bool) :
    ((matching s.ett_data_pool_ smask s.ett_table_).map Prod.fst).Pairwise (· < ·) :=
  List.Pairwise.sublist (matching_fst_sublist _ _ _) hinv2.sorted

end EntityManager

/-- C13. Query exactness: in every state reached from a default-constructed entity manager
by calls that return normally, for every buffer and every list of required type indices
(each below the number of component types) with the required mask `Q` having exactly those
bits set, the query returns normally and the identifiers it appends are, each once, exactly
the live entities whose mask `E` passes the test `E AND Q == Q`, which are exactly the
live entities that have every required component. -/
theorem EntityManager.query_exactness (n m : Nat) (ops : List EMOp) (s : EntityManager n m)
    (hrun : (EntityManager.new n m).run ops = some s) (buffer : EntityBuffer)
    (smask : Fin n → Bool) (xs : List XnentTypeID) (hxs : ∀ t ∈ xs, t < n)
    (hQ : ∀ i : Fin n, smask i = true ↔ i.val ∈ xs) :
    ∃ es cs, s.GetEntitiesWithComponentsImpl buffer smask xs =
        .ok { eids := buffer.eids ++ es, comps := buffer.comps ++ cs } ∧
      es.Nodup ∧
      (∀ e, e ∈ es ↔
        ∃ record, s.recordOf e = some record ∧
          EntityManager.maskMatch record.mask smask = true) ∧
      (∀ e, e ∈ es ↔
        s.ContainsEntityImpl e = true ∧ ∀ t ∈ xs, s.maskBit e t = some true) := by
  obtain ⟨held, hinv, hinv2⟩ := EntityManager.reachable_inv ops hrun
  have hmem : ∀ e, e ∈ (EntityManager.matching s.ett_data_pool_ smask s.ett_table_).map
      Prod.fst ↔ ∃ record, s.recordOf e = some record ∧
        EntityManager.maskMatch record.mask smask = true := by
    intro e
    rw [List.mem_map]
    constructor
    · rintro ⟨⟨e', r⟩, hm, rfl⟩
      exact ⟨r, (EntityManager.mem_matching_iff hinv2 smask e' r).1 hm⟩
    · rintro ⟨r, hr⟩
      exact ⟨(e, r), (EntityManager.mem_matching_iff hinv2 smask e r).2 hr, rfl⟩
  refine ⟨_, _, EntityManager.query_eq hinv hinv2 buffer smask xs hxs, ?_, hmem, ?_⟩
  · exact (EntityManager.matching_sorted hinv2 smask).imp (fun h => Nat.ne_of_lt h)
  · intro e
    rw [hmem]
    constructor
    · rintro ⟨r, hrec, hm⟩
      unfold EntityManager.recordOf at hrec
      cases hl : s.ett_table_.lookup e with
      | none => simp [hl] at hrec
      | some sl =>
        simp only [hl] at hrec
        refine ⟨by simp only [EntityManager.ContainsEntityImpl, hl, Option.isSome_some], ?_⟩
        intro t ht
        have htn := hxs t ht
        have hbit := (EntityManager.maskMatch_iff _ _).1 hm ⟨t, htn⟩ ((hQ ⟨t, htn⟩).2 ht)
        simp only [EntityManager.maskBit, hl, htn, dif_pos, hrec, Option.map_some', hbit]
    · rintro ⟨hlive, hall⟩
      unfold EntityManager.ContainsEntityImpl at hlive
      cases hl : s.ett_table_.lookup e with
      | none => simp [hl] at hlive
      | some sl =>
        obtain ⟨⟨r, hr⟩, -⟩ := EntityManager.live_record hinv hl
        refine ⟨r, by simp only [EntityManager.recordOf, hl, hr], ?_⟩
        rw [EntityManager.maskMatch_iff]
        intro i hi
        have := hall i.val ((hQ i).1 hi)
        simp only [EntityManager.maskBit, hl, i.isLt, dif_pos, hr, Option.map_some',
          Option.some.injEq] at this
        exact this

theorem EntityManager.query_exactness_witness :
    (EntityManager.new 3 1).run
        [.setEIDPool, .setComponentPool, .createEntity 1 100, .createEntity 2 200,
          .createEntity 3 300, .addComponent 1 0 500, .addComponent 1 1 501,
          .addComponent 2 0 502, .addComponent 3 0 503, .addComponent 3 1 504,
          .addComponent 3 2 505] = some exPopulation ∧
      (∀ t ∈ ([0, 1] : List XnentTypeID), t < 3) ∧
      (∀ i : Fin 3, (i.val == 0 || i.val == 1) = true ↔ i.val ∈ ([0, 1] : List XnentTypeID)) ∧
      exPopulation.GetEntitiesWithComponentsImpl ⟨[], []⟩
          (fun i => i.val == 0 || i.val == 1) [0, 1] =
        .ok ⟨[1, 3], [some 500, some 501, some 503, some 504]⟩ ∧
      ∃ es cs, exPopulation.GetEntitiesWithComponentsImpl ⟨[], []⟩
          (fun i => i.val == 0 || i.val == 1) [0, 1] =
          .ok { eids := [] ++ es, comps := [] ++ cs } ∧
        es.Nodup ∧
        (∀ e, e ∈ es ↔
          ∃ record, exPopulation.recordOf e = some record ∧
            EntityManager.maskMatch record.mask (fun i => i.val == 0 || i.val == 1) = true) ∧
        (∀ e, e ∈ es ↔
          exPopulation.ContainsEntityImpl e = true ∧
            ∀ t ∈ ([0, 1] : List XnentTypeID), exPopulation.maskBit e t = some true) :=
  ⟨rfl, by decide, by decide, rfl,
    EntityManager.query_exactness 3 1
      [.setEIDPool, .setComponentPool, .createEntity 1 100, .createEntity 2 200,
        .createEntity 3 300, .addComponent 1 0 500, .addComponent 1 1 501,
        .addComponent 2 0 502, .addComponent 3 0 503, .addComponent 3 1 504,
        .addComponent 3 2 505] exPopulation rfl ⟨[], []⟩
      (fun i => i.val == 0 || i.val == 1) [0, 1] (by decide) (by decide)⟩

end internal
end einu

namespace einu
namespace internal

open util

theorem flatMap_length_const {α β : Type} (f : α → List β) (len : Nat) (M : List α)
    (hlen : ∀ x ∈ M, (f x).length = len) : (M.flatMap f).length = M.length * len := by
  induction M with
  | nil => simp
  | cons x M ih =>
    have h1 := hlen x (List.mem_cons_self _ _)
    have h2 := ih fun y hy => hlen y (List.mem_cons_of_mem _ hy)
    simp only [List.flatMap_cons, List.length_append, h1, h2, List.length_cons]
    rw [Nat.add_mul, Nat.one_mul, Nat.add_comm]

theorem flatMap_getElem? {α β : Type} (f : α → List β) (len : Nat) (M : List α)
    (hlen : ∀ x ∈ M, (f x).length = len) (j k : Nat) (hk : k < len) :
    (M.flatMap f)[j * len + k]? = (M[j]?).bind fun x => (f x)[k]? := by
  induction M generalizing j with
  | nil => simp
  | cons x M ih =>
    have h1 := hlen x (List.mem_cons_self _ _)
    have h2 := ih fun y hy => hlen y (List.mem_cons_of_mem _ hy)
    rw [List.flatMap_cons]
    cases j with
    | zero =>
      simp only [Nat.zero_mul, Nat.zero_add, List.getElem?_cons_zero, Option.some_bind]
      exact List.getElem?_append_left (by omega)
    | succ j =>
      have hge : (f x).length ≤ (j + 1) * len + k := by
        rw [h1, Nat.add_mul, Nat.one_mul]
        omega
      rw [List.getElem?_append_right hge, List.getElem?_cons_succ]
      have : (j + 1) * len + k - (f x).length = j * len + k := by
        rw [h1, Nat.add_mul, Nat.one_mul]
        omega
      rw [this]
      exact h2 j

/-- C14. Query result layout: in every state reached from a default-constructed entity
manager by calls that return normally, for every buffer and every list of required type
indices `t_0 .. t_(n-1)` that are all set in the query mask, the query returns normally,
keeps the previous contents of the buffer in front, and appends identifiers `es` and
component references `cs` with `|cs| = |es| * n`, where the reference at appended position
`j * n + k` is non-null, is the slot-table entry for type `t_k` of the `j`-th appended
entity, and is what `GetComponent` returns for that entity and type. -/
theorem EntityManager.query_layout (n m : Nat) (ops : List EMOp) (s : EntityManager n m)
    (hrun : (EntityManager.new n m).run ops = some s) (buffer : EntityBuffer)
    (smask : Fin n → Bool) (xs : List XnentTypeID)
    (hset : ∀ t ∈ xs, ∃ h : t < n, smask ⟨t, h⟩ = true) :
    ∃ es cs, s.GetEntitiesWithComponentsImpl buffer smask xs =
        .ok { eids := buffer.eids ++ es, comps := buffer.comps ++ cs } ∧
      cs.length = es.length * xs.length ∧
      ∀ j k e t, es[j]? = some e → xs[k]? = some t →
        ∃ c, cs[j * xs.length + k]? = some (some c) ∧ s.tableEntry e t = some (some c) ∧
          s.GetComponentImpl e t = .ok c := by
  obtain ⟨held, hinv, hinv2⟩ := EntityManager.reachable_inv ops hrun
  have hxs : ∀ t ∈ xs, t < n := fun t ht => (hset t ht).1
  have hlen : ∀ er ∈ EntityManager.matching s.ett_data_pool_ smask s.ett_table_,
      (EntityManager.compsOf er.2 xs).length = xs.length := by
    intro er _
    simp [EntityManager.compsOf]
  refine ⟨_, _, EntityManager.query_eq hinv hinv2 buffer smask xs hxs, ?_, ?_⟩
  · rw [flatMap_length_const _ xs.length _ hlen, List.length_map]
  · intro j k e t hj hk
    rw [List.getElem?_map] at hj
    cases hM : (EntityManager.matching s.ett_data_pool_ smask s.ett_table_)[j]? with
    | none => simp [hM] at hj
    | some er =>
      obtain ⟨e', r⟩ := er
      simp only [hM, Option.map_some', Option.some.injEq] at hj
      subst hj
      obtain ⟨hrec, hm⟩ :=
        (EntityManager.mem_matching_iff hinv2 smask e' r).1 (List.getElem?_mem hM)
      have htm : t ∈ xs := List.getElem?_mem hk
      obtain ⟨htn, hst⟩ := hset t htm
      have hbit : r.mask ⟨t, htn⟩ = true := (EntityManager.maskMatch_iff _ _).1 hm _ hst
      have hklt : k < xs.length := by
        rcases List.getElem?_eq_some.1 hk with ⟨hlt, -⟩
        exact hlt
      unfold EntityManager.recordOf at hrec
      cases hl : s.ett_table_.lookup e' with
      | none => simp [hl] at hrec
      | some sl =>
        simp only [hl] at hrec
        have hgood := EntityManager.inv_read_good hinv hrec ⟨t, htn⟩ hbit
        cases hc : r.comp_table ⟨t, htn⟩ with
        | none => exact absurd hc hgood
        | some c =>
          refine ⟨c, ?_, ?_, ?_⟩
          · rw [flatMap_getElem? _ xs.length _ hlen j k hklt, hM]
            simp only [Option.some_bind, EntityManager.compsOf, List.getElem?_map, hk,
              Option.map_some', htn, dif_pos, hc]
          · simp only [EntityManager.tableEntry, hl, htn, dif_pos, hrec, Option.map_some', hc]
          · simp only [EntityManager.GetComponentImpl, hl, htn, dif_pos, hrec, hbit, if_true, hc]

theorem EntityManager.query_layout_witness :
    (EntityManager.new 3 1).run
        [.setEIDPool, .setComponentPool, .createEntity 1 100, .createEntity 2 200,
          .createEntity 3 300, .addComponent 1 0 500, .addComponent 1 1 501,
          .addComponent 2 0 502, .addComponent 3 0 503, .addComponent 3 1 504,
          .addComponent 3 2 505] = some exPopulation ∧
      (∀ t ∈ ([1, 0] : List XnentTypeID),
        ∃ h : t < 3, (fun i : Fin 3 => i.val == 0 || i.val == 1) ⟨t, h⟩ = true) ∧
      exPopulation.GetEntitiesWithComponentsImpl ⟨[9], [some 900]⟩
          (fun i => i.val == 0 || i.val == 1) [1, 0] =
        .ok ⟨[9, 1, 3], [some 900, some 501, some 500, some 504, some 503]⟩ ∧
      ∃ es cs, exPopulation.GetEntitiesWithComponentsImpl ⟨[9], [some 900]⟩
          (fun i => i.val == 0 || i.val == 1) [1, 0] =
          .ok { eids := [9] ++ es, comps := [some 900] ++ cs } ∧
        cs.length = es.length * ([1, 0] : List XnentTypeID).length ∧
        ∀ j k e t, es[j]? = some e → ([1, 0] : List XnentTypeID)[k]? = some t →
          ∃ c, cs[j * ([1, 0] : List XnentTypeID).length + k]? = some (some c) ∧
            exPopulation.tableEntry e t = some (some c) ∧
            exPopulation.GetComponentImpl e t = .ok c :=
  ⟨rfl, by decide, rfl,
    EntityManager.query_layout 3 1
      [.setEIDPool, .setComponentPool, .createEntity 1 100, .createEntity 2 200,
        .createEntity 3 300, .addComponent 1 0 500, .addComponent 1 1 501,
        .addComponent 2 0 502, .addComponent 3 0 503, .addComponent 3 1 504,
        .addComponent 3 2 505] exPopulation rfl ⟨[9], [some 900]⟩
      (fun i => i.val == 0 || i.val == 1) [1, 0] (by decide)⟩

end internal
end einu

namespace einu
namespace internal

open util

theorem sorted_pair_eq (l : List EID) (a b : EID) (hs : l.Pairwise (· < ·)) (hab : a < b)
    (hmem : ∀ e, e ∈ l ↔ e = a ∨ e = b) : l = [a, b] := by
  have hs2 : ([a, b] : List EID).Pairwise (· < ·) := by simp [hab]
  have hnd : l.Nodup := hs.imp (fun h => Nat.ne_of_lt h)
  have hnd2 : ([a, b] : List EID).Nodup := hs2.imp (fun h => Nat.ne_of_lt h)
  have hperm : l.Perm [a, b] :=
    (List.perm_ext_iff_of_nodup hnd hnd2).2 fun e => by
      rw [hmem e]
      simp
  exact List.eq_of_perm_of_sorted hperm hs hs2

/-- C15 (counterexample). The identifier pool hands out 3, 2, 1 in that order; component
type `A` is added to all three entities and removed from the second one (2).  The query for
`A` into an empty buffer returns the identifiers `[1, 3]`: the entity created third comes
before the entity created first, so the result is not the creation order `[3, 1]`. -/
theorem EntityManager.query_not_in_creation_order :
    (EntityManager.new 1 1).run
        [.setEIDPool, .setComponentPool, .createEntity 3 100, .createEntity 2 200,
          .createEntity 1 300, .addComponent 3 0 500, .addComponent 2 0 501,
          .addComponent 1 0 502, .removeComponent 2 0] = some exDescending ∧
      exDescending.GetEntitiesWithComponentsImpl ⟨[], []⟩ (fun _ => true) [0] =
        .ok ⟨[1, 3], [some 502, some 500]⟩ ∧
      exDescending.GetEntitiesWithComponentsImpl ⟨[], []⟩ (fun _ => true) [0] ≠
        .ok ⟨[3, 1], [some 500, some 502]⟩ :=
  ⟨rfl, rfl, by
    intro h
    have h2 : exDescending.GetEntitiesWithComponentsImpl ⟨[], []⟩ (fun _ => true) [0] =
        .ok ⟨[1, 3], [some 502, some 500]⟩ := rfl
    rw [h2] at h
    injection h with h
    injection h with h _
    exact absurd h (by decide)⟩

/-- C15 (amended). Query lists entities in increasing identifier order: in every state
reached from a default-constructed entity manager by calls that return normally, the query
returns normally and the identifiers it appends are the live entities whose mask passes the
mask test, in strictly increasing order of identifier (the key order of the entity table),
whatever the order of creation.  In particular, when exactly two entities `a < b` match,
the appended sequence is `[a, b]`. -/
theorem EntityManager.query_key_order (n m : Nat) (ops : List EMOp) (s : EntityManager n m)
    (hrun : (EntityManager.new n m).run ops = some s) (buffer : EntityBuffer)
    (smask : Fin n → Bool) (xs : List XnentTypeID) (hxs : ∀ t ∈ xs, t < n) :
    ∃ es cs, s.GetEntitiesWithComponentsImpl buffer smask xs =
        .ok { eids := buffer.eids ++ es, comps := buffer.comps ++ cs } ∧
      es.Pairwise (· < ·) ∧
      es.Sublist (s.ett_table_.map Prod.fst) ∧
      (∀ e, e ∈ es ↔
        ∃ record, s.recordOf e = some record ∧
          EntityManager.maskMatch record.mask smask = true) ∧
      ∀ a b, a < b →
        (∀ e, (∃ record, s.recordOf e = some record ∧
          EntityManager.maskMatch record.mask smask = true) ↔ e = a ∨ e = b) →
        es = [a, b] := by
  obtain ⟨held, hinv, hinv2⟩ := EntityManager.reachable_inv ops hrun
  have hmem : ∀ e, e ∈ (EntityManager.matching s.ett_data_pool_ smask s.ett_table_).map
      Prod.fst ↔ ∃ record, s.recordOf e = some record ∧
        EntityManager.maskMatch record.mask smask = true := by
    intro e
    rw [List.mem_map]
    constructor
    · rintro ⟨⟨e', r⟩, hm, rfl⟩
      exact ⟨r, (EntityManager.mem_matching_iff hinv2 smask e' r).1 hm⟩
    · rintro ⟨r, hr⟩
      exact ⟨(e, r), (EntityManager.mem_matching_iff hinv2 smask e r).2 hr, rfl⟩
  refine ⟨_, _, EntityManager.query_eq hinv hinv2 buffer smask xs hxs,
    EntityManager.matching_sorted hinv2 smask,
    EntityManager.matching_fst_sublist _ _ _, hmem, ?_⟩
  intro a b hab hex
  exact sorted_pair_eq _ a b (EntityManager.matching_sorted hinv2 smask) hab
    fun e => (hmem e).trans (hex e)

theorem EntityManager.query_key_order_witness :
    (EntityManager.new 1 1).run
        [.setEIDPool, .setComponentPool, .createEntity 1 100, .createEntity 2 200,
          .createEntity 3 300, .addComponent 1 0 500, .addComponent 2 0 501,
          .addComponent 3 0 502, .removeComponent 2 0] = some exAscending ∧
      (∀ t ∈ ([0] : List XnentTypeID), t < 1) ∧
      exAscending.GetEntitiesWithComponentsImpl ⟨[], []⟩ (fun _ => true) [0] =
        .ok ⟨[1, 3], [some 500, some 502]⟩ ∧
      ∃ es cs, exAscending.GetEntitiesWithComponentsImpl ⟨[], []⟩ (fun _ => true) [0] =
          .ok { eids := [] ++ es, comps := [] ++ cs } ∧
        es.Pairwise (· < ·) ∧
        es.Sublist (exAscending.ett_table_.map Prod.fst) ∧
        (∀ e, e ∈ es ↔
          ∃ record, exAscending.recordOf e = some record ∧
            EntityManager.maskMatch record.mask (fun _ => true) = true) ∧
        ∀ a b, a < b →
          (∀ e, (∃ record, exAscending.recordOf e = some record ∧
            EntityManager.maskMatch record.mask (fun _ => true) = true) ↔ e = a ∨ e = b) →
          es = [a, b] :=
  ⟨rfl, by decide, rfl,
    EntityManager.query_key_order 1 1
      [.setEIDPool, .setComponentPool, .createEntity 1 100, .createEntity 2 200,
        .createEntity 3 300, .addComponent 1 0 500, .addComponent 2 0 501,
        .addComponent 3 0 502, .removeComponent 2 0] exAscending rfl ⟨[], []⟩
      (fun _ => true) [0] (by decide)⟩

end internal
end einu

namespace einu
namespace internal

open util

namespace EntityManager

variable {n m : Nat}

theorem toOption_some {ε α : Type} (x : Except ε α) (y : α) (h : x.toOption = some y) :
    x = .ok y := by
  cases x with
  | error e => simp [Except.toOption] at h
  | ok r =>
    simp only [Except.toOption, Option.some.injEq] at h
    rw [h]

theorem releaseComponents_calls (comp_pool : Bool) (record : EntityRecord n)
    (is : List (Fin n)) (calls : List ExtCall)
    (h : releaseComponents comp_pool record is = .ok calls) :
    ∀ c ∈ calls, ∃ i comp, c = ExtCall.compRelease i comp := by
  induction is generalizing calls with
  | nil =>
    simp only [releaseComponents, Except.ok.injEq] at h
    subst h
    simp
  | cons i is ih =>
    unfold releaseComponents at h
    split at h
    · split at h
      · cases h
      · next comp _ =>
        split at h
        · cases h
        · split at h
          · cases h
          · next calls0 hc =>
            injection h with h
            subst h
            intro c hcm
            rcases List.mem_cons.1 hcm with rfl | hcm
            · exact ⟨_, _, rfl⟩
            · exact ih calls0 hc c hcm
    · exact ih calls h

/-- A call other than `RemoveSinglenent(tid)` that returns normally keeps the singleton
pool pointer and the singleton at `tid`, and does not release anything to the singleton
pool under the type index `tid`. -/
theorem stepCalls_singlenent {s s1 : EntityManager n m} {op : EMOp} {calls : List ExtCall}
    (tid : XnentTypeID) (h : tid < n) (comp : Int) (hp : s.singlenent_pool_ = true)
    (ht : s.singlenent_table_ ⟨tid, h⟩ = some comp) (hop : op ≠ .removeSinglenent tid)
    (hstep : s.stepCalls op = some (s1, calls)) :
    s1.singlenent_pool_ = true ∧ s1.singlenent_table_ ⟨tid, h⟩ = some comp ∧
      ∀ c, ExtCall.singlenentRelease tid c ∉ calls := by
  cases op with
  | setEIDPool =>
    obtain ⟨r, hr, hf⟩ := toOption_map_some _ _ _ hstep
    unfold SetEIDPoolImpl at hr
    split at hr
    · cases hr
    · injection hr with hr
      subst hr
      injection hf with hf1 hf2
      subst hf1 hf2
      exact ⟨hp, ht, by simp⟩
  | setComponentPool =>
    obtain ⟨r, hr, hf⟩ := toOption_map_some _ _ _ hstep
    unfold SetComponentPoolImpl at hr
    split at hr
    · cases hr
    · injection hr with hr
      subst hr
      injection hf with hf1 hf2
      subst hf1 hf2
      exact ⟨hp, ht, by simp⟩
  | setSinglenentPool =>
    obtain ⟨r, hr, hf⟩ := toOption_map_some _ _ _ hstep
    unfold SetSinglenentPoolImpl at hr
    rw [hp] at hr
    simp at hr
  | setPolicy g i d =>
    simp only [stepCalls] at hstep
    split at hstep
    · injection hstep with hstep
      injection hstep with hf1 hf2
      subst hf1 hf2
      exact ⟨hp, ht, by simp⟩
    · cases hstep
  | createEntity eid data =>
    simp only [stepCalls] at hstep
    split at hstep
    · cases hstep
    · obtain ⟨r, hr, hf⟩ := toOption_map_some _ _ _ hstep
      obtain ⟨r0, s0, c0⟩ := r
      obtain ⟨tup, pool, -, -, rfl, -, rfl⟩ := CreateEntityImpl_ok hr
      injection hf with hf1 hf2
      subst hf1 hf2
      exact ⟨hp, ht, by simp⟩
  | destroyEntity eid =>
    have hr := toOption_some _ _ hstep
    obtain ⟨slot, s0, -, hrel, rfl⟩ := DestroyEntityImpl_ok hr
    obtain ⟨record, calls0, pool1, pool2, -, hc, -, -, -, rfl, rfl⟩ := ReleaseEntity_ok hrel
    refine ⟨hp, ht, ?_⟩
    intro c hc2
    rcases List.mem_append.1 hc2 with hc2 | hc2
    · obtain ⟨i, comp2, hi⟩ := releaseComponents_calls _ _ _ _ hc _ hc2
      cases hi
    · simp at hc2
  | addComponent eid t c =>
    obtain ⟨r, hr, hf⟩ := toOption_map_some _ _ _ hstep
    obtain ⟨r0, s0, c0⟩ := r
    obtain ⟨slot, record, pool, -, -, -, -, -, rfl, -, rfl⟩ := AddComponentImpl_ok hr
    injection hf with hf1 hf2
    subst hf1 hf2
    exact ⟨hp, ht, by simp⟩
  | removeComponent eid t =>
    have hr := toOption_some _ _ hstep
    obtain ⟨slot, record, pool, comp2, htn, -, -, -, -, -, rfl, rfl⟩ := RemoveComponentImpl_ok hr
    exact ⟨hp, ht, by simp⟩
  | addSinglenent t c =>
    obtain ⟨r, hr, hf⟩ := toOption_map_some _ _ _ hstep
    obtain ⟨r0, s0, c0⟩ := r
    injection hf with hf1 hf2
    subst hf1 hf2
    unfold AddSinglenentImpl at hr
    split at hr
    · next htn =>
      split at hr
      · cases hr
      · next hnone =>
        split at hr
        · cases hr
        · injection hr with hr
          injection hr with hr1 hr2
          injection hr2 with hr2 hr3
          subst hr2 hr3
          have hne : tid ≠ t := by
            rintro rfl
            rw [ht] at hnone
            cases hnone
          refine ⟨hp, ?_, by simp⟩
          simp only [hne, if_false, ht]
    · cases hr
  | removeSinglenent t =>
    have hr := toOption_some _ _ hstep
    have hne : tid ≠ t := by
      rintro rfl
      exact hop rfl
    unfold RemoveSinglenentImpl at hr
    split at hr
    · next htn =>
      split at hr
      · cases hr
      · next c hsome =>
        split at hr
        · cases hr
        · injection hr with hr
          injection hr with hr1 hr2
          subst hr1 hr2
          refine ⟨hp, ?_, ?_⟩
          · simp only [hne, if_false, ht]
          · intro c2 hc2
            simp only [List.mem_singleton, ExtCall.singlenentRelease.injEq] at hc2
            exact hne hc2.1
    · cases hr

theorem trace_singlenent {s s1 : EntityManager n m} {ops : List EMOp} {calls : List ExtCall}
    (tid : XnentTypeID) (h : tid < n) (comp : Int) (hp : s.singlenent_pool_ = true)
    (ht : s.singlenent_table_ ⟨tid, h⟩ = some comp)
    (hops : ∀ op ∈ ops, op ≠ .removeSinglenent tid)
    (htr : s.trace ops = some (s1, calls)) :
    s1.singlenent_pool_ = true ∧ s1.singlenent_table_ ⟨tid, h⟩ = some comp ∧
      ∀ c, ExtCall.singlenentRelease tid c ∉ calls := by
  induction ops generalizing s calls with
  | nil =>
    simp only [trace, Option.some.injEq, Prod.mk.injEq] at htr
    obtain ⟨rfl, rfl⟩ := htr
    exact ⟨hp, ht, by simp⟩
  | cons op ops ih =>
    unfold trace at htr
    split at htr
    · cases htr
    · next s0 calls0 hs =>
      split at htr
      · cases htr
      · next s2 calls2 ht2 =>
        injection htr with htr
        injection htr with h1 h2
        subst h1 h2
        obtain ⟨hp0, ht0, hc0⟩ :=
          stepCalls_singlenent tid h comp hp ht (hops op (List.mem_cons_self _ _)) hs
        obtain ⟨hp2, ht2, hc2⟩ :=
          ih hp0 ht0 (fun o ho => hops o (List.mem_cons_of_mem _ ho)) ht2
        refine ⟨hp2, ht2, ?_⟩
        intro c hc
        rcases List.mem_append.1 hc with hc | hc
        · exact hc0 c hc
        · exact hc2 c hc

end EntityManager

/-- C19. Singleton round trip: for every type index `tid` (below the size of the singleton
table) with no singleton present and with the singleton pool set, `AddSinglenent(tid)`
returns normally with the reference `comp` that the pool handed out; after every sequence
of further calls that return normally and are not `RemoveSinglenent(tid)` (entity
operations and singleton operations on other type indices), `GetSinglenent(tid)` returns
`comp` and nothing has been released to the singleton pool under `tid`; then
`RemoveSinglenent(tid)` returns normally, releases exactly `comp` (one call), leaves the
slot `tid` empty and the other slots unchanged, and `AddSinglenent(tid)` returns normally
again. -/
theorem EntityManager.singlenent_round_trip (n m : Nat) (s : EntityManager n m)
    (tid : XnentTypeID) (comp : Int) (h : tid < n) (hpool : s.singlenent_pool_ = true)
    (hnone : s.singlenent_table_ ⟨tid, h⟩ = none) :
    ∃ s1, s.AddSinglenentImpl tid comp = .ok (comp, s1, [.singlenentAcquire tid comp]) ∧
      ∀ ops s2 calls, (∀ op ∈ ops, op ≠ EMOp.removeSinglenent tid) →
        s1.trace ops = some (s2, calls) →
        s2.GetSinglenentImpl tid = .ok comp ∧
        (∀ c, ExtCall.singlenentRelease tid c ∉ calls) ∧
        ∃ s3, s2.RemoveSinglenentImpl tid = .ok (s3, [.singlenentRelease tid comp]) ∧
          s2.trace [.removeSinglenent tid] = some (s3, [.singlenentRelease tid comp]) ∧
          s3.singlenent_table_ ⟨tid, h⟩ = none ∧
          (∀ i : Fin n, i.val ≠ tid → s3.singlenent_table_ i = s2.singlenent_table_ i) ∧
          ∀ comp2, ∃ s4,
            s3.AddSinglenentImpl tid comp2 = .ok (comp2, s4, [.singlenentAcquire tid comp2]) ∧
            s4.GetSinglenentImpl tid = .ok comp2 := by
  refine ⟨{ s with singlenent_table_ :=
      fun i => if i.val = tid then some comp else s.singlenent_table_ i }, ?_, ?_⟩
  · simp only [EntityManager.AddSinglenentImpl, h, dif_pos, hnone, hpool, Bool.not_true,
      Bool.false_eq_true, if_false]
  · intro ops s2 calls hops htr
    obtain ⟨hp2, ht2, hc2⟩ := EntityManager.trace_singlenent tid h comp
      (show ({ s with singlenent_table_ :=
        fun i => if i.val = tid then some comp else s.singlenent_table_ i } :
          EntityManager n m).singlenent_pool_ = true from hpool)
      (show (if tid = tid then some comp else s.singlenent_table_ ⟨tid, h⟩) = some comp by
        simp) hops htr
    have hrem : s2.RemoveSinglenentImpl tid =
        .ok ({ s2 with singlenent_table_ :=
          fun i => if i.val = tid then none else s2.singlenent_table_ i },
          [.singlenentRelease tid comp]) := by
      simp only [EntityManager.RemoveSinglenentImpl, h, dif_pos, ht2, hp2, Bool.not_true,
        Bool.false_eq_true, if_false]
    refine ⟨?_, hc2, _, hrem, ?_, ?_, ?_, ?_⟩
    · simp only [EntityManager.GetSinglenentImpl, h, dif_pos, ht2]
    · simp only [EntityManager.trace, EntityManager.stepCalls, hrem, Except.toOption,
        List.append_nil]
    · simp
    · intro i hi
      simp only [hi, if_false]
    · intro comp2
      refine ⟨{ s2 with singlenent_table_ :=
          fun i => if i.val = tid then some comp2
            else if i.val = tid then none else s2.singlenent_table_ i }, ?_, ?_⟩
      · simp only [EntityManager.AddSinglenentImpl, h, dif_pos, if_true, hp2, Bool.not_true,
          Bool.false_eq_true, if_false]
      · simp only [EntityManager.GetSinglenentImpl, h, dif_pos, if_true]

theorem EntityManager.singlenent_round_trip_witness :
    exSinglenentPool.singlenent_pool_ = true ∧
      exSinglenentPool.singlenent_table_ ⟨1, by decide⟩ = none ∧
      (∃ s2, (EntityManager.new 2 1).trace
          [.setSinglenentPool, .addSinglenent 1 700, .setEIDPool, .setComponentPool,
            .createEntity 7 100, .addComponent 7 1 500, .addSinglenent 0 701,
            .removeSinglenent 0, .destroyEntity 7] =
          some (s2, [.singlenentAcquire 1 700, .eidAcquire 7, .compAcquire 1 500,
            .singlenentAcquire 0 701, .singlenentRelease 0 701, .compRelease 1 500,
            .eidRelease 7]) ∧
        s2.GetSinglenentImpl 1 = .ok 700) ∧
      ∃ s1, exSinglenentPool.AddSinglenentImpl 1 700 =
          .ok (700, s1, [.singlenentAcquire 1 700]) ∧
        ∀ ops s2 calls, (∀ op ∈ ops, op ≠ EMOp.removeSinglenent 1) →
          s1.trace ops = some (s2, calls) →
          s2.GetSinglenentImpl 1 = .ok 700 ∧
          (∀ c, ExtCall.singlenentRelease 1 c ∉ calls) ∧
          ∃ s3, s2.RemoveSinglenentImpl 1 = .ok (s3, [.singlenentRelease 1 700]) ∧
            s2.trace [.removeSinglenent 1] = some (s3, [.singlenentRelease 1 700]) ∧
            s3.singlenent_table_ ⟨1, by decide⟩ = none ∧
            (∀ i : Fin 2, i.val ≠ 1 → s3.singlenent_table_ i = s2.singlenent_table_ i) ∧
            ∀ comp2, ∃ s4,
              s3.AddSinglenentImpl 1 comp2 = .ok (comp2, s4, [.singlenentAcquire 1 comp2]) ∧
              s4.GetSinglenentImpl 1 = .ok comp2 :=
  ⟨rfl, rfl, ⟨_, rfl, rfl⟩,
    EntityManager.singlenent_round_trip 2 1 exSinglenentPool 1 700 (by decide) rfl rfl⟩

end internal
end einu

namespace einu
namespace internal

open util

theorem flatMap_congr_mem {α β : Type} (l : List α) (f g : α → List β)
    (h : ∀ x ∈ l, f x = g x) : l.flatMap f = l.flatMap g := by
  induction l with
  | nil => rfl
  | cons x l ih =>
    rw [List.flatMap_cons, List.flatMap_cons, h x (List.mem_cons_self _ _),
      ih fun y hy => h y (List.mem_cons_of_mem _ hy)]

theorem filterMap_congr_mem {α β : Type} (l : List α) (f g : α → Option β)
    (h : ∀ x ∈ l, f x = g x) : l.filterMap f = l.filterMap g := by
  induction l with
  | nil => rfl
  | cons x l ih =>
    have hx := h x (List.mem_cons_self _ _)
    have hl := ih fun y hy => h y (List.mem_cons_of_mem _ hy)
    cases hf : f x with
    | none =>
      rw [List.filterMap_cons_none hf, List.filterMap_cons_none (hx ▸ hf), hl]
    | some b =>
      rw [List.filterMap_cons_some hf, List.filterMap_cons_some (hx ▸ hf), hl]

namespace EntityManager

variable {n m : Nat}

/-- The first loop of `ResetImpl` on a list of entries whose slots are distinct and held:
the calls it makes on the external pools, and the record pool afterwards. -/
theorem releaseAll_spec (tbl : List (EID × Int)) {s s1 : EntityManager n m} {held : List Int}
    {calls : List ExtCall}
    (hinv : EMInv ({ s with ett_table_ := tbl } : EntityManager n m) held)
    (h : releaseAll s tbl = .ok (s1, calls)) :
    calls = tbl.flatMap (fun e =>
        ((s.ett_data_pool_.readAt e.2).map compReleases).getD [] ++
          [ExtCall.eidRelease e.1]) ∧
      s1.ett_data_pool_.freeCount = s.ett_data_pool_.freeCount + tbl.length ∧
      (∀ x ∈ tbl.map Prod.snd, ¬ ∃ p ∈ s1.ett_data_pool_.pools_, p.Occupied x) ∧
      (∃ held', DynamicPool.Held s1.ett_data_pool_ held' ∧ ∀ x ∈ held', x ∈ held) ∧
      s1.eid_pool_ = s.eid_pool_ ∧ s1.comp_pool_ = s.comp_pool_ ∧
      s1.singlenent_pool_ = s.singlenent_pool_ ∧ s1.ett_table_ = s.ett_table_ ∧
      s1.singlenent_table_ = s.singlenent_table_ := by
  induction tbl generalizing s held calls with
  | nil =>
    simp only [releaseAll, Except.ok.injEq, Prod.mk.injEq] at h
    obtain ⟨rfl, rfl⟩ := h
    exact ⟨rfl, rfl, by simp, ⟨held, hinv.pool.held, fun x hx => hx⟩, rfl, rfl, rfl, rfl, rfl⟩
  | cons e rest ih =>
    obtain ⟨eid, slot⟩ := e
    unfold releaseAll at h
    split at h
    · cases h
    · next s0 calls0 hrel =>
      split at h
      · cases h
      · next s2 calls2 hrest =>
        injection h with h
        injection h with h1 h2
        subst h1 h2
        obtain ⟨record, c0, pool1, pool2, hrec, hc0, hw, hrel2, -, rfl, rfl⟩ :=
          ReleaseEntity_ok hrel
        have hc0e : c0 = compReleases record := releaseComponents_eq _ _ _ _ hc0
        subst hc0e
        have hinv1 := inv_write hinv hw (fun i hi => by cases hi)
        obtain ⟨h1, h2, h3, -, -, -, hfc, -⟩ :=
          DynamicPool.Release_inv hinv1.pool.shape hinv1.pool.disj hinv1.pool.held hrel2
        obtain ⟨hsig, -, -, -, -⟩ := DynamicPool.writeAt_sig hw
        have hnd : (slot :: rest.map Prod.snd).Nodup := hinv.slots_nodup
        have hnotin : slot ∉ rest.map Prod.snd := (List.nodup_cons.1 hnd).1
        have hinv0 : EMInv ({ ({ s with ett_data_pool_ := pool2 } : EntityManager n m) with
            ett_table_ := rest } : EntityManager n m) (held.erase slot) := by
          refine ⟨⟨h1, h2, h3⟩, ?_, (List.nodup_cons.1 hnd).2, ?_, ?_⟩
          · obtain ⟨L, R, p, p1, hs, -, -, rfl⟩ := DynamicPool.Release_ok hrel2
            exact hinv1.value_none
          · intro x hx
            have hxh := hinv.slots_held x (List.mem_cons_of_mem _ hx)
            refine (hinv.pool.held.nodup.mem_erase_iff).2 ⟨?_, hxh⟩
            rintro rfl
            exact hnotin hx
          · obtain ⟨L, R, p, p1, hs, hrel3, -, rfl⟩ := DynamicPool.Release_ok hrel2
            obtain ⟨-, ho, -⟩ := FixedPool.Release_spec hrel3
            have hg : AllGood pool1.pools_ := hinv1.good
            rw [hs] at hg
            exact hg.allGood_replace ho
        obtain ⟨hcalls, hcount, hfree, ⟨held', hheld', hsub⟩, e1, e2, e3, e4, e5⟩ :=
          ih hinv0 hrest
        have hread : ∀ e ∈ rest, pool2.readAt e.2 = s.ett_data_pool_.readAt e.2 := by
          intro e he
          have hne : e.2 ≠ slot := by
            intro heq
            exact hnotin (heq ▸ List.mem_map_of_mem Prod.snd he)
          rw [DynamicPool.Release_readAt hrel2, readAt_write_other hw _ hne]
        refine ⟨?_, ?_, ?_, ⟨held', hheld', fun x hx => List.mem_of_mem_erase (hsub x hx)⟩,
          e1, e2, e3, e4, e5⟩
        · rw [hcalls, List.flatMap_cons]
          simp only [hrec, Option.map_some', Option.getD_some]
          congr 1
          exact flatMap_congr_mem _ _ _ fun e he => by
            show ((pool2.readAt e.2).map compReleases).getD [] ++ _ = _
            rw [hread e he]
        · have hfc1 : pool2.freeCount = s.ett_data_pool_.freeCount + 1 := by
            rw [hfc, freeCount_of_sig hsig]
          have hc2 : s2.ett_data_pool_.freeCount = pool2.freeCount + rest.length := hcount
          rw [hc2, hfc1, List.length_cons]
          omega
        · intro x hx
          rcases List.mem_cons.1 hx with rfl | hx
          · intro hocc
            have hm := hsub _ ((hheld'.held_iff _).2 hocc)
            exact ((hinv1.pool.held.nodup.mem_erase_iff).1 hm).1 rfl
          · exact hfree x hx

theorem removeSinglenents_spec (is : List (Fin n)) (hnd : is.Nodup)
    {s s1 : EntityManager n m} {calls : List ExtCall}
    (h : removeSinglenents s is = .ok (s1, calls)) :
    calls = is.filterMap (fun i =>
        (s.singlenent_table_ i).map (ExtCall.singlenentRelease i.val)) ∧
      s1.ett_table_ = s.ett_table_ := by
  induction is generalizing s calls with
  | nil =>
    simp only [removeSinglenents, Except.ok.injEq, Prod.mk.injEq] at h
    obtain ⟨rfl, rfl⟩ := h
    exact ⟨rfl, rfl⟩
  | cons i is ih =>
    obtain ⟨hni, hnd'⟩ := List.nodup_cons.1 hnd
    unfold removeSinglenents at h
    split at h
    · split at h
      · cases h
      · next s0 calls0 hrem =>
        split at h
        · cases h
        · next s2 calls2 hrest =>
          injection h with h
          injection h with h1 h2
          subst h1 h2
          unfold RemoveSinglenentImpl at hrem
          split at hrem
          · next hlt =>
            split at hrem
            · cases hrem
            · next comp hc =>
              split at hrem
              · cases hrem
              · injection hrem with hrem
                injection hrem with hr1 hr2
                subst hr1 hr2
                obtain ⟨hcalls, htab⟩ := ih hnd' hrest
                have hci : s.singlenent_table_ i = some comp := hc
                refine ⟨?_, htab⟩
                rw [hcalls]
                have hhead : (fun j : Fin n =>
                    (s.singlenent_table_ j).map (ExtCall.singlenentRelease j.val)) i =
                    some (ExtCall.singlenentRelease i.val comp) := by
                  simp only [hci, Option.map_some']
                have hcons : (i :: is).filterMap (fun j : Fin n =>
                    (s.singlenent_table_ j).map (ExtCall.singlenentRelease j.val)) =
                    ExtCall.singlenentRelease i.val comp :: is.filterMap (fun j : Fin n =>
                      (s.singlenent_table_ j).map (ExtCall.singlenentRelease j.val)) :=
                  List.filterMap_cons_some hhead
                rw [hcons, List.singleton_append]
                congr 1
                exact filterMap_congr_mem _ _ _ fun j hj => by
                  have hne : j.val ≠ i.val := by
                    intro heq
                    exact hni (Fin.ext heq ▸ hj)
                  simp only [hne, if_false]
          · cases hrem
    · next hnone =>
      obtain ⟨hcalls, htab⟩ := ih hnd' h
      refine ⟨?_, htab⟩
      have hhead : (fun j : Fin n =>
          (s.singlenent_table_ j).map (ExtCall.singlenentRelease j.val)) i = none := by
        cases hs : s.singlenent_table_ i with
        | none => simp only [hs, Option.map_none']
        | some c => simp [hs] at hnone
      have hcons : (i :: is).filterMap (fun j : Fin n =>
          (s.singlenent_table_ j).map (ExtCall.singlenentRelease j.val)) =
          is.filterMap (fun j : Fin n =>
            (s.singlenent_table_ j).map (ExtCall.singlenentRelease j.val)) :=
        List.filterMap_cons_none hhead
      rw [hcons, hcalls]

theorem removeSinglenents_none (is : List (Fin n)) (s : EntityManager n m)
    (h : ∀ i, s.singlenent_table_ i = none) : removeSinglenents s is = .ok (s, []) := by
  induction is with
  | nil => rfl
  | cons i is ih =>
    unfold removeSinglenents
    simp only [h i, Option.isSome_none, Bool.false_eq_true, if_false, ih]

theorem ResetImpl_ok {s s' : EntityManager n m} {calls : List ExtCall}
    (h : s.ResetImpl = .ok (s', calls)) :
    ∃ s1 calls1 s2 calls2, releaseAll s s.ett_table_ = .ok (s1, calls1) ∧
      removeSinglenents ({ s1 with ett_table_ := [] } : EntityManager n m)
        (List.finRange n) = .ok (s2, calls2) ∧
      calls = calls1 ++ calls2 ∧ s' = EntityManager.new n m := by
  unfold ResetImpl at h
  split at h
  · cases h
  · next s1 calls1 h1 =>
    split at h
    · cases h
    · next s2 calls2 h2 =>
      injection h with h
      injection h with ha hb
      refine ⟨s1, calls1, s2, calls2, h1, h2, hb.symm, ?_⟩
      have htab := (removeSinglenents_spec _ (List.nodup_finRange n) h2).2
      rw [← ha]
      simp only [EntityManager.new, DynamicPool.new, DynamicPool.GrowExtra, DynamicPool.Clear,
        if_true, htab]

/-- `Reset()` on a table with no live entity and no singleton returns normally, makes no
call on the external pools and gives the default-constructed state. -/
theorem ResetImpl_empty (s : EntityManager n m) (ht : s.ett_table_ = [])
    (hs : ∀ i, s.singlenent_table_ i = none) :
    s.ResetImpl = .ok (EntityManager.new n m, []) := by
  unfold ResetImpl
  rw [ht]
  simp only [releaseAll]
  rw [removeSinglenents_none (List.finRange n)
    ({ s with ett_table_ := [] } : EntityManager n m) (fun i => hs i)]
  simp only [EntityManager.new, DynamicPool.new, DynamicPool.GrowExtra, DynamicPool.Clear,
    if_true, List.append_nil]

end EntityManager

end internal
end einu

namespace einu
namespace internal

open util

namespace EntityManager

variable {n m : Nat}

end EntityManager

end internal
end einu

namespace einu
namespace internal

open util

end internal
end einu

namespace einu
namespace internal

open util

end internal
end einu

namespace einu
namespace internal

open util

end internal
end einu

namespace einu
namespace util

variable {α : Type} [Inhabited α]

/-- `Has` is range containment for a reference whose offset is below `2 ^ 32`. -/
theorem FixedPool.Has_iff_inRange (p : FixedPool α) (obj : Int) (h : obj - p.data < 2 ^ 32) :
    p.Has obj = true ↔ p.InRange obj := by
  unfold FixedPool.Has FixedPool.InRange FixedPool.Size
  simp only [Bool.and_eq_true, decide_eq_true_eq]
  constructor
  · rintro ⟨h0, h1⟩
    rw [Int.emod_eq_of_lt h0 h] at h1
    omega
  · rintro ⟨h0, h1⟩
    have h0' : 0 ≤ obj - p.data := by omega
    rw [Int.emod_eq_of_lt h0' h]
    omega

namespace DynamicPool

theorem storage_of_sig {ps ps' : List (FixedPool α)}
    (h : ps'.map FixedPool.sig = ps.map FixedPool.sig) :
    ps'.map (fun p => (p.data, p.bit_arr_.length)) =
      ps.map (fun p => (p.data, p.bit_arr_.length)) :=
  map_of_sig (fun t => (t.1, t.2.1.length)) h

theorem NoWrap.of_storage {s s' : DynamicPool α} (hn : NoWrap s)
    (h : s'.storage = s.storage) : NoWrap s' := by
  unfold NoWrap
  rw [h]
  exact hn

/-- With the storage inside one window of `2 ^ 32` elements, `Release` of a held reference
returns normally. -/
theorem Release_succeeds {s : DynamicPool α} {held : List Int} (hsh : Shape s) (hdj : Disj s)
    (hh : Held s held) (hnw : NoWrap s) {obj : Int} (hobj : obj ∈ held) :
    ∃ s', s.Release obj = .ok s' := by
  obtain ⟨p, hp, hocc⟩ := (hh.held_iff obj).1 hobj
  obtain ⟨L, R, hs⟩ := List.append_of_mem hp
  have hin := hocc.inRange
  have hst : ∀ q ∈ s.pools_, (q.data, q.bit_arr_.length) ∈ s.storage := fun q hq =>
    List.mem_map_of_mem (fun p : FixedPool α => (p.data, p.bit_arr_.length)) hq
  have hoff : ∀ q ∈ s.pools_, obj - q.data < 2 ^ 32 := by
    intro q hq
    have := hnw _ (hst q hq) _ (hst p hp)
    have h2 := hin.2
    simp only at this
    omega
  have hHas : p.Has obj = true := (FixedPool.Has_iff_inRange p obj (hoff p hp)).2 hin
  have hL : ∀ y ∈ L, (fun pool : FixedPool α => pool.Has obj) y = false := by
    intro y hy
    have hym : y ∈ s.pools_ := by
      rw [hs]
      exact List.mem_append_left _ hy
    have hny := hdj.other hs y (Or.inl hy) obj hin
    cases hc : y.Has obj with
    | false => exact hc
    | true => exact absurd ((FixedPool.Has_iff_inRange y obj (hoff y hym)).1 hc) hny
  have hf := find_if_mid (fun pool : FixedPool α => pool.Has obj) L R p hHas hL
  have hlen : L.length < s.pools_bit_array_.length := by
    have h1 := hsh.length_le
    have h2 : s.pools_bit_array_.length =
        s.pools_.length + (s.Size - s.pools_.length) := by
      rw [hsh.summary]
      simp
    have h3 : L.length < s.pools_.length := by
      rw [hs]
      simp
    omega
  have hneg : ¬ obj - p.data < 0 := by
    have := hocc.1
    omega
  cases hr : s.Release obj with
  | ok s' => exact ⟨s', rfl⟩
  | error e =>
    exfalso
    unfold Release at hr
    have hf' : find_if (fun pool : FixedPool α => pool.Has obj) s.pools_ = some L.length := by
      rw [hs]
      exact hf
    have hget : s.pools_[L.length]? = some p := by
      rw [hs]
      exact getElem?_mid _ _ _
    simp only [hf', hget, FixedPool.Release, hneg, if_false, hocc.2, hlen, if_true] at hr
    cases hr

end DynamicPool

end util
end einu

namespace einu
namespace internal

open util

namespace EntityManager

variable {n m : Nat}

theorem releaseComponents_succeeds (record : EntityRecord n) (hg : record.Good)
    (is : List (Fin n)) : ∃ calls, releaseComponents true record is = .ok calls := by
  induction is with
  | nil => exact ⟨[], rfl⟩
  | cons i is ih =>
    obtain ⟨calls, hc⟩ := ih
    unfold releaseComponents
    by_cases hm : record.mask i = true
    · cases hct : record.comp_table i with
      | none => exact absurd hct (hg i hm)
      | some comp =>
        refine ⟨.compRelease i.val comp :: calls, ?_⟩
        simp only [hm, if_true, hc, Bool.not_true, Bool.false_eq_true, if_false]
    · refine ⟨calls, ?_⟩
      simp only [hm, Bool.false_eq_true, if_false, hc]

/-- With both pools set and the record pool inside one window of `2 ^ 32` elements,
`ReleaseEntity` on a held slot returns normally. -/
theorem ReleaseEntity_succeeds {s : EntityManager n m} {held : List Int}
    (hpool : DynamicPool.Inv s.ett_data_pool_ held) (hgood : AllGood s.ett_data_pool_.pools_)
    (heid : s.eid_pool_ = true) (hcomp : s.comp_pool_ = true)
    (hnw : s.ett_data_pool_.NoWrap) (eid : EID) {slot : Int} (hslot : slot ∈ held) :
    ∃ s1 calls, s.ReleaseEntity eid slot = .ok (s1, calls) := by
  obtain ⟨p, hp, hocc⟩ := (hpool.held.held_iff slot).1 hslot
  obtain ⟨⟨record, hrec⟩, hw⟩ := readPools_writePools_some s.ett_data_pool_.pools_ slot
    (fun q hq => (hpool.shape.pool_len q hq).1) ⟨p, hp, hocc.inRange⟩
  obtain ⟨ps, hps⟩ := hw { record with mask := fun _ => false }
  have hrec' : s.ett_data_pool_.readAt slot = some record := hrec
  have hwa : s.ett_data_pool_.writeAt slot { record with mask := fun _ => false } =
      some { s.ett_data_pool_ with pools_ := ps } := by
    simp only [DynamicPool.writeAt, hps, Option.map_some']
  obtain ⟨hsig, hbits, -, -, -⟩ := DynamicPool.writeAt_sig hwa
  have hpool1 := hpool.of_sig hsig hbits
  have hnw1 : DynamicPool.NoWrap ({ s.ett_data_pool_ with pools_ := ps } :
      DynamicPool (EntityRecord n)) := hnw.of_storage (DynamicPool.storage_of_sig hsig)
  obtain ⟨pool2, hrel⟩ :=
    DynamicPool.Release_succeeds hpool1.shape hpool1.disj hpool1.held hnw1 hslot
  obtain ⟨q, hq, hrq⟩ := readPools_mem _ _ _ hrec
  obtain ⟨calls0, hc0⟩ :=
    releaseComponents_succeeds record (hgood q hq record hrq) (List.finRange n)
  cases hr : s.ReleaseEntity eid slot with
  | ok r => exact ⟨r.1, r.2, rfl⟩
  | error e =>
    exfalso
    unfold ReleaseEntity at hr
    simp only [hrec', hcomp, hc0, hwa, hrel, heid, Bool.not_true, Bool.false_eq_true,
      if_false] at hr
    cases hr

/-- The state after `ReleaseEntity` on the first entry of a list of entries. -/
theorem release_head_inv {s s0 : EntityManager n m} {held : List Int} {eid : EID}
    {slot : Int} {rest : List (EID × Int)} {calls0 : List ExtCall}
    (hinv : EMInv ({ s with ett_table_ := (eid, slot) :: rest } : EntityManager n m) held)
    (hrel : s.ReleaseEntity eid slot = .ok (s0, calls0)) :
    EMInv ({ s0 with ett_table_ := rest } : EntityManager n m) (held.erase slot) ∧
      s0.ett_data_pool_.storage = s.ett_data_pool_.storage ∧
      s0.eid_pool_ = s.eid_pool_ ∧ s0.comp_pool_ = s.comp_pool_ ∧
      s0.singlenent_pool_ = s.singlenent_pool_ := by
  obtain ⟨record, c0, pool1, pool2, hrec, hc0, hw, hrel2, -, rfl, rfl⟩ := ReleaseEntity_ok hrel
  have hinv1 := inv_write hinv hw (fun i hi => by cases hi)
  obtain ⟨h1, h2, h3, -, -, hst, -, -⟩ :=
    DynamicPool.Release_inv hinv1.pool.shape hinv1.pool.disj hinv1.pool.held hrel2
  obtain ⟨hsig, -, -, -, -⟩ := DynamicPool.writeAt_sig hw
  have hnd : (slot :: rest.map Prod.snd).Nodup := hinv.slots_nodup
  have hnotin : slot ∉ rest.map Prod.snd := (List.nodup_cons.1 hnd).1
  refine ⟨⟨⟨h1, h2, h3⟩, ?_, (List.nodup_cons.1 hnd).2, ?_, ?_⟩, ?_, rfl, rfl, rfl⟩
  · obtain ⟨L, R, p, p1, hs, -, -, rfl⟩ := DynamicPool.Release_ok hrel2
    exact hinv1.value_none
  · intro x hx
    have hxh := hinv.slots_held x (List.mem_cons_of_mem _ hx)
    refine (hinv.pool.held.nodup.mem_erase_iff).2 ⟨?_, hxh⟩
    rintro rfl
    exact hnotin hx
  · obtain ⟨L, R, p, p1, hs, hrel3, -, rfl⟩ := DynamicPool.Release_ok hrel2
    obtain ⟨-, ho, -⟩ := FixedPool.Release_spec hrel3
    have hg : AllGood pool1.pools_ := hinv1.good
    rw [hs] at hg
    exact hg.allGood_replace ho
  · show pool2.storage = _
    rw [hst]
    exact DynamicPool.storage_of_sig hsig

theorem releaseAll_succeeds (tbl : List (EID × Int)) {s : EntityManager n m}
    {held : List Int}
    (hinv : EMInv ({ s with ett_table_ := tbl } : EntityManager n m) held)
    (heid : s.eid_pool_ = true) (hcomp : s.comp_pool_ = true)
    (hnw : s.ett_data_pool_.NoWrap) :
    ∃ s1 calls, releaseAll s tbl = .ok (s1, calls) := by
  induction tbl generalizing s held with
  | nil => exact ⟨s, [], rfl⟩
  | cons e rest ih =>
    obtain ⟨eid, slot⟩ := e
    have hslot : slot ∈ held := hinv.slots_held slot (List.mem_cons_self _ _)
    obtain ⟨s0, calls0, hrel⟩ :=
      @ReleaseEntity_succeeds n m s held hinv.pool hinv.good heid hcomp hnw eid slot hslot
    obtain ⟨hinv0, hst, e1, e2, -⟩ := release_head_inv hinv hrel
    obtain ⟨s1, calls1, hrest⟩ :=
      ih hinv0 (e1.trans heid) (e2.trans hcomp) (hnw.of_storage hst)
    refine ⟨s1, calls0 ++ calls1, ?_⟩
    unfold releaseAll
    simp only [hrel, hrest]

theorem removeSinglenents_succeeds (is : List (Fin n)) (s : EntityManager n m)
    (hp : s.singlenent_pool_ = true) : ∃ s1 calls, removeSinglenents s is = .ok (s1, calls) := by
  induction is generalizing s with
  | nil => exact ⟨s, [], rfl⟩
  | cons i is ih =>
    unfold removeSinglenents
    cases hs : s.singlenent_table_ i with
    | none =>
      simp only [Option.isSome_none, Bool.false_eq_true, if_false]
      exact ih s hp
    | some c =>
      have hs' : s.singlenent_table_ ⟨i.val, i.isLt⟩ = some c := hs
      have hrem : s.RemoveSinglenentImpl i.val =
          .ok ({ s with singlenent_table_ :=
              fun j => if j.val = i.val then none else s.singlenent_table_ j },
            [.singlenentRelease i.val c]) := by
        simp only [RemoveSinglenentImpl, i.isLt, dif_pos, hs', hp, Bool.not_true,
          Bool.false_eq_true, if_false]
      obtain ⟨s1, calls1, hrest⟩ := ih
        ({ s with singlenent_table_ :=
            fun j => if j.val = i.val then none else s.singlenent_table_ j } :
          EntityManager n m) hp
      refine ⟨s1, [.singlenentRelease i.val c] ++ calls1, ?_⟩
      simp only [Option.isSome_some, if_true, hrem, hrest]

/-- With the three pools set and the record pool inside one window of `2 ^ 32` elements,
`Reset()` returns normally. -/
theorem ResetImpl_succeeds {s : EntityManager n m} {held : List Int} (hinv : EMInv s held)
    (heid : s.eid_pool_ = true) (hcomp : s.comp_pool_ = true)
    (hsing : s.singlenent_pool_ = true) (hnw : s.ett_data_pool_.NoWrap) :
    ∃ s' calls, s.ResetImpl = .ok (s', calls) := by
  have hinv' : EMInv ({ s with ett_table_ := s.ett_table_ } : EntityManager n m) held := hinv
  obtain ⟨s1, calls1, h1⟩ := releaseAll_succeeds s.ett_table_ hinv' heid hcomp hnw
  obtain ⟨-, -, -, -, -, -, e3, -, -⟩ := releaseAll_spec s.ett_table_ hinv' h1
  obtain ⟨s2, calls2, h2⟩ := removeSinglenents_succeeds (List.finRange n)
    ({ s1 with ett_table_ := [] } : EntityManager n m) (e3.trans hsing)
  unfold ResetImpl
  simp only [h1, h2]
  exact ⟨_, _, rfl⟩

/-- With both pools set and the record pool inside one window of `2 ^ 32` elements,
`DestroyEntity` of a live entity returns normally. -/
theorem DestroyEntityImpl_succeeds {s : EntityManager n m} {held : List Int}
    (hinv : EMInv s held) (heid : s.eid_pool_ = true) (hcomp : s.comp_pool_ = true)
    (hnw : s.ett_data_pool_.NoWrap) {eid : EID} (hlive : s.ContainsEntityImpl eid = true) :
    ∃ s1 calls, s.DestroyEntityImpl eid = .ok (s1, calls) := by
  unfold ContainsEntityImpl at hlive
  cases hl : s.ett_table_.lookup eid with
  | none => simp [hl] at hlive
  | some slot =>
    have hslot : slot ∈ held :=
      hinv.slots_held slot (List.mem_map_of_mem Prod.snd (lookup_mem _ _ _ hl))
    obtain ⟨s0, calls0, hrel⟩ :=
      ReleaseEntity_succeeds hinv.pool hinv.good heid hcomp hnw eid hslot
    unfold DestroyEntityImpl
    simp only [hl, hrel]
    exact ⟨_, _, rfl⟩

end EntityManager

end internal
end einu

namespace einu
namespace internal

open util

/-- DestroyEntity postcondition where the record pool does not wrap (the part of C12 that
holds): in every state reached from a default-constructed
entity manager by calls that return normally, `DestroyEntity(E)` of a live entity returns
normally when the identifier and component pools are set and the storage of the record pool
lies within one window of `2 ^ 32` elements (where the cast in `Has` cannot wrap); and a
`DestroyEntity(E)` that returns normally
leaves `Exists(E)` false; the calls it makes on the external pools are, in this order, one
release to the component pool for every set bit of the mask of `E`, under that type index
and with the slot-table entry of that type (nothing for a bit that is clear, such as one
cleared by `RemoveComponent`), followed by one release of the identifier `E`, with no call
repeated; the record of `E` is released to the record pool once (its slot was acquired and
is free afterwards, and the pool has one more free slot); and the liveness and the record
(mask and slot table) of every other entity are unchanged. -/
theorem EntityManager.destroy_postcondition (n m : Nat) (ops : List EMOp)
    (s : EntityManager n m) (hrun : (EntityManager.new n m).run ops = some s)
    (eid : EID) :
    (s.ContainsEntityImpl eid = true → s.eid_pool_ = true → s.comp_pool_ = true →
      s.ett_data_pool_.NoWrap → ∃ s1 calls, s.DestroyEntityImpl eid = .ok (s1, calls)) ∧
    ∀ (s1 : EntityManager n m) (calls : List ExtCall),
      s.DestroyEntityImpl eid = .ok (s1, calls) →
      s1.ContainsEntityImpl eid = false ∧
      ∃ slot record, s.ett_table_.lookup eid = some slot ∧ s.recordOf eid = some record ∧
        calls = compReleases record ++ [.eidRelease eid] ∧
        (∀ tid comp, ExtCall.compRelease tid comp ∈ calls ↔
          ∃ h : tid < n, record.mask ⟨tid, h⟩ = true ∧
            record.comp_table ⟨tid, h⟩ = some comp) ∧
        (∀ e, ExtCall.eidRelease e ∈ calls ↔ e = eid) ∧ calls.Nodup ∧
        s1.ett_data_pool_.freeCount = s.ett_data_pool_.freeCount + 1 ∧
        (∃ p ∈ s.ett_data_pool_.pools_, p.Occupied slot) ∧
        (¬ ∃ p ∈ s1.ett_data_pool_.pools_, p.Occupied slot) ∧
        (∀ e, e ≠ eid → s1.ContainsEntityImpl e = s.ContainsEntityImpl e ∧
          s1.recordOf e = s.recordOf e) := by
  obtain ⟨held, hinv, -⟩ := EntityManager.reachable_inv ops hrun
  refine ⟨fun hlive heid hcomp hnw =>
    EntityManager.DestroyEntityImpl_succeeds hinv heid hcomp hnw hlive, ?_⟩
  intro s1 calls hd
  obtain ⟨slot, s0, hslot, hrel, rfl⟩ := EntityManager.DestroyEntityImpl_ok hd
  obtain ⟨record, calls0, pool1, pool2, hrec, hc0, hw, hrel2, -, rfl, rfl⟩ :=
    EntityManager.ReleaseEntity_ok hrel
  have hcalls0 : calls0 = compReleases record := releaseComponents_eq _ _ _ _ hc0
  subst hcalls0
  have hinv1 := EntityManager.inv_write hinv hw (fun i hi => by cases hi)
  obtain ⟨-, -, hheld2, hmem, -, -, hfc, -⟩ :=
    DynamicPool.Release_inv hinv1.pool.shape hinv1.pool.disj hinv1.pool.held hrel2
  obtain ⟨hsig, -, -, -, -⟩ := DynamicPool.writeAt_sig hw
  refine ⟨?_, slot, record, hslot, ?_, rfl, ?_, ?_, ?_, ?_, ?_, ?_, ?_⟩
  · simp only [EntityManager.ContainsEntityImpl, lookup_mapErase_self, Option.isSome_none]
  · simp only [EntityManager.recordOf, hslot, hrec]
  · intro tid comp
    rw [← mem_compReleases]
    simp
  · intro e
    constructor
    · intro he
      rcases List.mem_append.1 he with he | he
      · unfold compReleases at he
        obtain ⟨i, -, hi⟩ := List.mem_filterMap.1 he
        split at hi
        · cases hc : record.comp_table i with
          | none => simp [hc] at hi
          | some c => simp [hc] at hi
        · cases hi
      · simpa using he
    · rintro rfl
      simp
  · rw [List.nodup_append]
    refine ⟨nodup_compReleases record, by simp, ?_⟩
    intro x hx hx'
    simp only [List.mem_singleton] at hx'
    subst hx'
    unfold compReleases at hx
    obtain ⟨i, -, hi⟩ := List.mem_filterMap.1 hx
    split at hi
    · cases hc : record.comp_table i with
      | none => simp [hc] at hi
      | some c => simp [hc] at hi
    · cases hi
  · show pool2.freeCount = _
    rw [hfc, freeCount_of_sig hsig]
  · exact (hinv.pool.held.held_iff slot).1
      (hinv.slots_held slot (List.mem_map_of_mem Prod.snd (lookup_mem _ _ _ hslot)))
  · intro hocc
    have := (hheld2.held_iff slot).2 hocc
    exact ((hinv1.pool.held.nodup.mem_erase_iff).1 this).1 rfl
  · intro e he
    refine ⟨?_, ?_⟩
    · simp only [EntityManager.ContainsEntityImpl, lookup_mapErase_other _ _ _ he]
    · simp only [EntityManager.recordOf, lookup_mapErase_other _ _ _ he]
      cases hl : s.ett_table_.lookup e with
      | none => rfl
      | some sl =>
        have hne : sl ≠ slot := by
          rintro rfl
          exact he (snd_inj _ hinv.slots_nodup _ _ _ (lookup_mem _ _ _ hl)
            (lookup_mem _ _ _ hslot))
        show pool2.readAt sl = s.ett_data_pool_.readAt sl
        rw [DynamicPool.Release_readAt hrel2, EntityManager.readAt_write_other hw sl hne]

theorem EntityManager.destroy_postcondition_witness :
    (EntityManager.new 2 1).run
        [.setEIDPool, .setComponentPool, .createEntity 7 100, .addComponent 7 0 500] =
        some exWithComponent ∧
      exWithComponent.ContainsEntityImpl 7 = true ∧
      exWithComponent.ett_data_pool_.NoWrap ∧
      (∃ s1 calls, exWithComponent.DestroyEntityImpl 7 = .ok (s1, calls)) ∧
      exWithComponent.DestroyEntityImpl 7 =
        .ok (exRecycled, [.compRelease 0 500, .eidRelease 7]) ∧
      exRecycled.ContainsEntityImpl 7 = false ∧
      ∃ slot record, exWithComponent.ett_table_.lookup 7 = some slot ∧
        exWithComponent.recordOf 7 = some record ∧
        [ExtCall.compRelease 0 500, .eidRelease 7] = compReleases record ++ [.eidRelease 7] ∧
        (∀ tid comp, ExtCall.compRelease tid comp ∈
            [ExtCall.compRelease 0 500, .eidRelease 7] ↔
          ∃ h : tid < 2, record.mask ⟨tid, h⟩ = true ∧
            record.comp_table ⟨tid, h⟩ = some comp) ∧
        (∀ e, ExtCall.eidRelease e ∈ [ExtCall.compRelease 0 500, .eidRelease 7] ↔ e = 7) ∧
        [ExtCall.compRelease 0 500, .eidRelease 7].Nodup ∧
        exRecycled.ett_data_pool_.freeCount = exWithComponent.ett_data_pool_.freeCount + 1 ∧
        (∃ p ∈ exWithComponent.ett_data_pool_.pools_, p.Occupied slot) ∧
        (¬ ∃ p ∈ exRecycled.ett_data_pool_.pools_, p.Occupied slot) ∧
        (∀ e, e ≠ 7 → exRecycled.ContainsEntityImpl e = exWithComponent.ContainsEntityImpl e ∧
          exRecycled.recordOf e = exWithComponent.recordOf e) :=
  ⟨rfl, rfl, by simp [DynamicPool.NoWrap, DynamicPool.storage, exWithComponent],
    (EntityManager.destroy_postcondition 2 1
      [.setEIDPool, .setComponentPool, .createEntity 7 100, .addComponent 7 0 500]
      exWithComponent rfl 7).1 rfl rfl rfl
      (by simp [DynamicPool.NoWrap, DynamicPool.storage, exWithComponent]),
    rfl,
    (EntityManager.destroy_postcondition 2 1
      [.setEIDPool, .setComponentPool, .createEntity 7 100, .addComponent 7 0 500]
      exWithComponent rfl 7).2 exRecycled [.compRelease 0 500, .eidRelease 7] rfl⟩

end internal
end einu

namespace einu
namespace internal

open util

/-- Reset returns to the just-constructed state and is idempotent, where the record pool
does not wrap (the part of C18 that holds): in every state
reached from a default-constructed entity manager by calls that return normally, `Reset()`
returns normally when the three pools are set and the storage of the record pool lies
within one window of `2 ^ 32` elements (where the cast in `Has` cannot wrap); and a
`Reset()` that returns normally gives the state of a default-constructed entity manager (no
live entity, every singleton slot null, the record pool with no sub-pool, size 0 and the
default growth function, the three pool pointers null).  The calls it makes on the external
pools are, for every live entity in turn (each identifier being listed once), one release
for every set bit of its mask followed by one release of its identifier, and then one
release for every live singleton; the record of every live entity is released to the record
pool once (its slot was acquired and is free after the first loop, which frees as many slots
as there are entities).  `Reset()` applied to the result, to a default-constructed entity
manager, or to any entity manager with no live entity and no singleton returns normally,
makes no call and gives the default-constructed state again, so `Reset(); Reset()` equals
`Reset()`. -/
theorem EntityManager.reset_to_constructed (n m : Nat) (ops : List EMOp)
    (s : EntityManager n m) (hrun : (EntityManager.new n m).run ops = some s) :
    (s.eid_pool_ = true → s.comp_pool_ = true → s.singlenent_pool_ = true →
      s.ett_data_pool_.NoWrap → ∃ s' calls, s.ResetImpl = .ok (s', calls)) ∧
    ∀ (s' : EntityManager n m) (calls : List ExtCall), s.ResetImpl = .ok (s', calls) →
      s' = EntityManager.new n m ∧
      (∀ e, s'.ContainsEntityImpl e = false) ∧ (∀ i, s'.singlenent_table_ i = none) ∧
      s'.ett_data_pool_.pools_ = [] ∧ s'.ett_data_pool_.Size = 0 ∧
      s'.ett_data_pool_.growth_ = DefaultGrowth ∧
      s'.eid_pool_ = false ∧ s'.comp_pool_ = false ∧ s'.singlenent_pool_ = false ∧
      (s.ett_table_.map Prod.fst).Nodup ∧
      calls = s.ett_table_.flatMap (fun e =>
          ((s.recordOf e.1).map compReleases).getD [] ++ [ExtCall.eidRelease e.1]) ++
        (List.finRange n).filterMap (fun i =>
          (s.singlenent_table_ i).map (ExtCall.singlenentRelease i.val)) ∧
      (∃ s1 calls1, EntityManager.releaseAll s s.ett_table_ = .ok (s1, calls1) ∧
        s1.ett_data_pool_.freeCount = s.ett_data_pool_.freeCount + s.ett_table_.length ∧
        ∀ e ∈ s.ett_table_, (∃ p ∈ s.ett_data_pool_.pools_, p.Occupied e.2) ∧
          ¬ ∃ p ∈ s1.ett_data_pool_.pools_, p.Occupied e.2) ∧
      s'.ResetImpl = .ok (s', []) ∧
      (EntityManager.new n m).ResetImpl = .ok (EntityManager.new n m, []) ∧
      ∀ t : EntityManager n m, t.ett_table_ = [] → (∀ i, t.singlenent_table_ i = none) →
        t.ResetImpl = .ok (EntityManager.new n m, []) ∧
          (EntityManager.new n m).ett_table_ = t.ett_table_ ∧
          ∀ i, (EntityManager.new n m).singlenent_table_ i = t.singlenent_table_ i := by
  obtain ⟨held, hinv, hinv2⟩ := EntityManager.reachable_inv ops hrun
  refine ⟨fun heid hcomp hsing hnw =>
    EntityManager.ResetImpl_succeeds hinv heid hcomp hsing hnw, ?_⟩
  intro s' calls hreset
  obtain ⟨s1, calls1, s2, calls2, hrel, hrem, rfl, rfl⟩ := EntityManager.ResetImpl_ok hreset
  have hinv' : EMInv ({ s with ett_table_ := s.ett_table_ } : EntityManager n m) held := hinv
  obtain ⟨hc1, hcount, hfree, -, -, -, -, -, hst⟩ :=
    EntityManager.releaseAll_spec s.ett_table_ hinv' hrel
  obtain ⟨hc2, -⟩ := EntityManager.removeSinglenents_spec _ (List.nodup_finRange n) hrem
  have hnew : (EntityManager.new n m).ResetImpl = .ok (EntityManager.new n m, []) :=
    EntityManager.ResetImpl_empty _ rfl (fun _ => rfl)
  refine ⟨rfl, fun _ => rfl, fun _ => rfl, rfl, rfl, rfl, rfl, rfl, rfl,
    hinv2.sorted.imp (fun h => Nat.ne_of_lt h), ?_, ⟨s1, calls1, hrel, hcount, ?_⟩, hnew, hnew,
    ?_⟩
  · rw [hc1, hc2]
    congr 1
    · exact flatMap_congr_mem _ _ _ fun e he => by
        simp only [EntityManager.recordOf, lookup_of_mem _ hinv2.sorted e.1 e.2 he]
    · exact filterMap_congr_mem _ _ _ fun i _ => by
        show (s1.singlenent_table_ i).map _ = _
        rw [hst]
  · intro e he
    refine ⟨?_, hfree e.2 (List.mem_map_of_mem Prod.snd he)⟩
    exact (hinv.pool.held.held_iff e.2).1
      (hinv.slots_held e.2 (List.mem_map_of_mem Prod.snd he))
  · intro t ht hs
    refine ⟨EntityManager.ResetImpl_empty t ht hs, ?_, ?_⟩
    · rw [ht]
      rfl
    · intro i
      rw [hs i]
      rfl

theorem EntityManager.reset_to_constructed_witness :
    (EntityManager.new 2 1).run
        [.setEIDPool, .setComponentPool, .setSinglenentPool, .createEntity 1 100,
          .createEntity 2 200, .addComponent 1 0 500, .addSinglenent 0 700,
          .addSinglenent 1 701] = some exSetUp ∧
      exSetUp.ett_data_pool_.NoWrap ∧
      (∃ s' calls, exSetUp.ResetImpl = .ok (s', calls)) ∧
      exSetUp.ResetImpl =
        .ok (EntityManager.new 2 1, [.compRelease 0 500, .eidRelease 1, .eidRelease 2,
          .singlenentRelease 0 700, .singlenentRelease 1 701]) ∧
      (EntityManager.new 2 1 = EntityManager.new 2 1 ∧
        (∀ e, (EntityManager.new 2 1).ContainsEntityImpl e = false) ∧
        (∀ i, (EntityManager.new 2 1).singlenent_table_ i = none) ∧
        (EntityManager.new 2 1).ett_data_pool_.pools_ = [] ∧
        (EntityManager.new 2 1).ett_data_pool_.Size = 0 ∧
        (EntityManager.new 2 1).ett_data_pool_.growth_ = DefaultGrowth ∧
        (EntityManager.new 2 1).eid_pool_ = false ∧
        (EntityManager.new 2 1).comp_pool_ = false ∧
        (EntityManager.new 2 1).singlenent_pool_ = false ∧
        (exSetUp.ett_table_.map Prod.fst).Nodup ∧
        [ExtCall.compRelease 0 500, .eidRelease 1, .eidRelease 2, .singlenentRelease 0 700,
            .singlenentRelease 1 701] =
          exSetUp.ett_table_.flatMap (fun e =>
            ((exSetUp.recordOf e.1).map compReleases).getD [] ++ [ExtCall.eidRelease e.1]) ++
          (List.finRange 2).filterMap (fun i =>
            (exSetUp.singlenent_table_ i).map (ExtCall.singlenentRelease i.val)) ∧
        (∃ s1 calls1, EntityManager.releaseAll exSetUp exSetUp.ett_table_ = .ok (s1, calls1) ∧
          s1.ett_data_pool_.freeCount =
            exSetUp.ett_data_pool_.freeCount + exSetUp.ett_table_.length ∧
          ∀ e ∈ exSetUp.ett_table_, (∃ p ∈ exSetUp.ett_data_pool_.pools_, p.Occupied e.2) ∧
            ¬ ∃ p ∈ s1.ett_data_pool_.pools_, p.Occupied e.2) ∧
        (EntityManager.new 2 1).ResetImpl = .ok (EntityManager.new 2 1, []) ∧
        (EntityManager.new 2 1).ResetImpl = .ok (EntityManager.new 2 1, []) ∧
        ∀ t : EntityManager 2 1, t.ett_table_ = [] → (∀ i, t.singlenent_table_ i = none) →
          t.ResetImpl = .ok (EntityManager.new 2 1, []) ∧
            (EntityManager.new 2 1).ett_table_ = t.ett_table_ ∧
            ∀ i, (EntityManager.new 2 1).singlenent_table_ i = t.singlenent_table_ i) :=
  ⟨rfl, by
      unfold DynamicPool.NoWrap
      rw [show exSetUp.ett_data_pool_.storage = [(100, 1), (200, 1)] from rfl]
      simp,
    (EntityManager.reset_to_constructed 2 1
      [.setEIDPool, .setComponentPool, .setSinglenentPool, .createEntity 1 100,
        .createEntity 2 200, .addComponent 1 0 500, .addSinglenent 0 700,
        .addSinglenent 1 701] exSetUp rfl).1 rfl rfl rfl
      (by
        unfold DynamicPool.NoWrap
        rw [show exSetUp.ett_data_pool_.storage = [(100, 1), (200, 1)] from rfl]
        simp),
    rfl,
    (EntityManager.reset_to_constructed 2 1
      [.setEIDPool, .setComponentPool, .setSinglenentPool, .createEntity 1 100,
        .createEntity 2 200, .addComponent 1 0 500, .addSinglenent 0 700,
        .addSinglenent 1 701] exSetUp rfl).2 (EntityManager.new 2 1)
      [.compRelease 0 500, .eidRelease 1, .eidRelease 2, .singlenentRelease 0 700,
        .singlenentRelease 1 701] rfl⟩

end internal
end einu

namespace einu
namespace util

/-- C21 (code at the failing input). A slot pool of capacity 1 and a reference at element
offset `2 ^ 32` from its storage: `Has` returns true although the offset is not below the
capacity, because `(unsigned)idx` is 0.  In the growable pool whose second sub-pool lies
`2 ^ 32` elements above the first (both slots acquired), `Release` of the reference handed
out by the second sub-pool stops its scan at the first sub-pool, which does not own the
reference, and indexes the bitmap of that sub-pool out of range; the owner is sub-pool 1. -/
theorem DynamicPool.release_picks_foreign_sub_pool :
    (⟨0, [()], [false]⟩ : FixedPool Unit).Size = 1 ∧
      (⟨0, [()], [false]⟩ : FixedPool Unit).Has 4294967296 = true ∧
      ¬ (4294967296 - (⟨0, [()], [false]⟩ : FixedPool Unit).data < (1 : Int)) ∧
      DynamicPool.run ((DynamicPool.new 1 (none : Option Unit) DefaultGrowth 0), [])
          [.acquire 0, .acquire 4294967296] = some (exFarApart, [4294967296, 0]) ∧
      find_if (fun pool : FixedPool Unit => pool.Has 4294967296) exFarApart.pools_ = some 0 ∧
      exFarApart.locate 4294967296 = some (1, 0) ∧
      exFarApart.Release 4294967296 = .error .outOfRange :=
  ⟨rfl, by decide, by decide, rfl, by decide, by decide, rfl⟩

end util
end einu

namespace einu
namespace util

theorem readPools_append_left {α : Type} (ps qs : List (FixedPool α)) (a : Int)
    (h : ∃ p ∈ ps, p.InRange a) : readPools (ps ++ qs) a = readPools ps a := by
  induction ps with
  | nil =>
    obtain ⟨p, hp, -⟩ := h
    cases hp
  | cons x ps ih =>
    show readPools (x :: (ps ++ qs)) a = readPools (x :: ps) a
    by_cases hx : x.data ≤ a ∧ a < x.data + (x.bit_arr_.length : Int)
    · simp only [readPools, hx, and_self, if_true]
    · simp only [readPools, hx, if_false]
      apply ih
      obtain ⟨p, hp, hin⟩ := h
      rcases List.mem_cons.1 hp with rfl | hp
      · exact absurd hin hx
      · exact ⟨p, hp, hin⟩

namespace DynamicPool

variable {α : Type} [Inhabited α]

theorem GrowExtra_readAt (s : DynamicPool α) (k : Nat) (data : Int) (a : Int)
    (h : ∃ p ∈ s.pools_, p.InRange a) : (s.GrowExtra k data).readAt a = s.readAt a := by
  rcases Nat.eq_zero_or_pos k with rfl | hk
  · rw [GrowExtra_zero]
  · rw [GrowExtra_pos s k data hk]
    exact readPools_append_left _ _ a h

theorem grown_readAt (s : DynamicPool α) (data : Int) (a : Int)
    (h : ∃ p ∈ s.pools_, p.InRange a) : (s.grown data).readAt a = s.readAt a := by
  unfold grown
  split
  · exact GrowExtra_readAt s _ data a h
  · rfl

/-- `Acquire` leaves the objects of the existing slots as they are. -/
theorem Acquire_readAt {s s' : DynamicPool α} {data r : Int}
    (hacq : s.Acquire data = .ok (r, s')) (a : Int) (h : ∃ p ∈ s.pools_, p.InRange a) :
    s'.readAt a = s.readAt a := by
  obtain ⟨L, R, p, p1, hs, -, hacq1, rfl⟩ := Acquire_ok hacq
  obtain ⟨hd, ho, hl, -⟩ := FixedPool.Acquire_spec hacq1
  rw [← grown_readAt s data a h]
  show readPools (L ++ p1 :: R) a = readPools (s.grown data).pools_ a
  rw [hs]
  exact readPools_replace L R p p1 hd ho hl a

end DynamicPool

end util
end einu

namespace einu
namespace internal

open util

namespace EntityManager

variable {n m : Nat}

theorem maskBit_eq (s : EntityManager n m) (E : EID) (T : XnentTypeID) :
    s.maskBit E T =
      if h : T < n then (s.recordOf E).map (fun r => r.mask ⟨T, h⟩) else none := by
  unfold maskBit recordOf
  cases s.ett_table_.lookup E with
  | none => by_cases h : T < n <;> simp [h]
  | some slot => rfl

theorem tableEntry_eq (s : EntityManager n m) (E : EID) (T : XnentTypeID) :
    s.tableEntry E T =
      if h : T < n then (s.recordOf E).map (fun r => r.comp_table ⟨T, h⟩) else none := by
  unfold tableEntry recordOf
  cases s.ett_table_.lookup E with
  | none => by_cases h : T < n <;> simp [h]
  | some slot => rfl

theorem Attached.of_recordOf {s s1 : EntityManager n m} {E : EID} {T : XnentTypeID} {r : Int}
    (h : s1.Attached E T r) (heq : s1.recordOf E = s.recordOf E) : s.Attached E T r := by
  unfold Attached at h ⊢
  rw [maskBit_eq, tableEntry_eq] at h ⊢
  rw [← heq]
  exact h

theorem held_inRange {s : EntityManager n m} {held : List Int} (hinv : EMInv s held)
    {E : EID} {slot : Int} (hslot : s.ett_table_.lookup E = some slot) :
    ∃ p ∈ s.ett_data_pool_.pools_, p.InRange slot := by
  have hh := hinv.slots_held slot (List.mem_map_of_mem Prod.snd (lookup_mem _ _ _ hslot))
  obtain ⟨p, hp, hocc⟩ := (hinv.pool.held.held_iff slot).1 hh
  exact ⟨p, hp, hocc.inRange⟩

/-- A call leaves the record of every entity it does not operate on as it is. -/
theorem recordOf_frame {s s1 : EntityManager n m} {held : List Int} (hinv : EMInv s held)
    {op : EMOp} (hstep : s.step op = some s1) (E : EID) (hE : op.entity ≠ some E) :
    s1.recordOf E = s.recordOf E := by
  cases op with
  | setEIDPool =>
    simp only [step, SetEIDPoolImpl] at hstep
    split at hstep
    · cases hstep
    · simp only [Except.toOption, Option.some.injEq] at hstep
      subst hstep
      rfl
  | setComponentPool =>
    simp only [step, SetComponentPoolImpl] at hstep
    split at hstep
    · cases hstep
    · simp only [Except.toOption, Option.some.injEq] at hstep
      subst hstep
      rfl
  | setSinglenentPool =>
    simp only [step, SetSinglenentPoolImpl] at hstep
    split at hstep
    · cases hstep
    · simp only [Except.toOption, Option.some.injEq] at hstep
      subst hstep
      rfl
  | setPolicy g k data =>
    simp only [step] at hstep
    split at hstep
    · injection hstep with hstep
      subst hstep
      unfold recordOf
      show (match s.ett_table_.lookup E with
        | none => none
        | some slot => ((s.ett_data_pool_.SetGrowth g).GrowExtra k data).readAt slot) = _
      cases hl : s.ett_table_.lookup E with
      | none => rfl
      | some slot =>
        exact DynamicPool.GrowExtra_readAt (s.ett_data_pool_.SetGrowth g) k data slot
          (held_inRange hinv hl)
    · cases hstep
  | createEntity eid data =>
    have hne : E ≠ eid := fun h => hE (by rw [h]; rfl)
    simp only [step] at hstep
    split at hstep
    · cases hstep
    · obtain ⟨⟨r, s0, calls⟩, hok, hs⟩ := toOption_map_some _ _ _ hstep
      simp only at hs
      subst hs
      obtain ⟨tup, pool, -, hacq, rfl, -, -⟩ := CreateEntityImpl_ok hok
      unfold recordOf
      show (match (mapInsert s.ett_table_ eid tup).lookup E with
        | none => none
        | some slot => pool.readAt slot) = _
      rw [lookup_mapInsert_other _ _ _ _ hne]
      cases hl : s.ett_table_.lookup E with
      | none => rfl
      | some slot => exact DynamicPool.Acquire_readAt hacq slot (held_inRange hinv hl)
  | destroyEntity eid =>
    have hne : E ≠ eid := fun h => hE (by rw [h]; rfl)
    simp only [step] at hstep
    obtain ⟨⟨s0, calls⟩, hok, hs⟩ := toOption_map_some _ _ _ hstep
    simp only at hs
    subst hs
    obtain ⟨slot, s2, hslot, hrel, rfl⟩ := DestroyEntityImpl_ok hok
    obtain ⟨record, calls0, pool1, pool2, hrec, -, hw, hrel2, -, rfl, -⟩ :=
      ReleaseEntity_ok hrel
    unfold recordOf
    show (match (mapErase s.ett_table_ eid).lookup E with
      | none => none
      | some sl => pool2.readAt sl) = _
    rw [lookup_mapErase_other _ _ _ hne]
    cases hl : s.ett_table_.lookup E with
    | none => rfl
    | some sl =>
      have hsl : sl ≠ slot := by
        rintro rfl
        exact hne (snd_inj _ hinv.slots_nodup _ _ _ (lookup_mem _ _ _ hl)
          (lookup_mem _ _ _ hslot))
      show pool2.readAt sl = s.ett_data_pool_.readAt sl
      rw [DynamicPool.Release_readAt hrel2, readAt_write_other hw sl hsl]
  | addComponent eid tid comp =>
    have hne : E ≠ eid := fun h => hE (by rw [h]; rfl)
    simp only [step] at hstep
    obtain ⟨⟨r, s0, calls⟩, hok, hs⟩ := toOption_map_some _ _ _ hstep
    simp only at hs
    subst hs
    obtain ⟨slot, record, pool, hslot, -, -, -, hw, rfl, -, -⟩ := AddComponentImpl_ok hok
    exact frame_write hinv hslot hw E hne
  | removeComponent eid tid =>
    have hne : E ≠ eid := fun h => hE (by rw [h]; rfl)
    simp only [step] at hstep
    obtain ⟨⟨s0, calls⟩, hok, hs⟩ := toOption_map_some _ _ _ hstep
    simp only at hs
    subst hs
    obtain ⟨slot, record, pool, comp, ht, hslot, -, -, -, hw, rfl, -⟩ :=
      RemoveComponentImpl_ok hok
    exact frame_write hinv hslot hw E hne
  | addSinglenent tid comp =>
    simp only [step] at hstep
    obtain ⟨⟨r, s0, calls⟩, hok, hs⟩ := toOption_map_some _ _ _ hstep
    simp only at hs
    subst hs
    unfold AddSinglenentImpl at hok
    split at hok
    · split at hok
      · cases hok
      · split at hok
        · cases hok
        · injection hok with hok
          injection hok with h1 h2
          injection h2 with h2 h3
          subst h2
          rfl
    · cases hok
  | removeSinglenent tid =>
    simp only [step] at hstep
    obtain ⟨⟨s0, calls⟩, hok, hs⟩ := toOption_map_some _ _ _ hstep
    simp only at hs
    subst hs
    unfold RemoveSinglenentImpl at hok
    split at hok
    · split at hok
      · cases hok
      · split at hok
        · cases hok
        · injection hok with hok
          injection hok with h1 h2
          subst h1
          rfl
    · cases hok

end EntityManager

end internal
end einu

namespace einu
namespace internal

open util

namespace EntityManager

variable {n m : Nat}

theorem touches_of_entity_ne (op : EMOp) (E : EID) (T : XnentTypeID)
    (h : op.entity ≠ some E) : op.touches E T = false := by
  cases op <;> simp only [EMOp.touches, EMOp.entity] at h ⊢
  case createEntity eid data =>
    have : eid ≠ E := fun he => h (by rw [he])
    simpa using this
  case destroyEntity eid =>
    have : eid ≠ E := fun he => h (by rw [he])
    simpa using this
  case addComponent eid tid comp =>
    have : eid ≠ E := fun he => h (by rw [he])
    simp [this]
  case removeComponent eid tid =>
    have : eid ≠ E := fun he => h (by rw [he])
    simp [this]

/-- An attachment present after a call was made by that call, which then is
`AddComponent(E, T)` returning `r`, or was present before it and the call does not touch
it. -/
theorem attached_step {s s1 : EntityManager n m} {held : List Int} (hinv : EMInv s held)
    (hinv2 : EMInv2 s) {op : EMOp} (hstep : s.step op = some s1) {E : EID}
    {T : XnentTypeID} {r : Int} (h : s1.Attached E T r) :
    op = .addComponent E T r ∨ (op.touches E T = false ∧ s.Attached E T r) := by
  by_cases hE : op.entity = some E
  · cases op with
    | setEIDPool => cases hE
    | setComponentPool => cases hE
    | setSinglenentPool => cases hE
    | setPolicy g k data => cases hE
    | addSinglenent tid comp => cases hE
    | removeSinglenent tid => cases hE
    | createEntity eid data =>
      simp only [EMOp.entity, Option.some.injEq] at hE
      subst hE
      exfalso
      simp only [step] at hstep
      split at hstep
      · cases hstep
      · next hcond =>
        obtain ⟨⟨r0, s0, calls⟩, hok, hs⟩ := toOption_map_some _ _ _ hstep
        simp only at hs
        subst hs
        have hfresh : s.ett_data_pool_.PoolsAllAcquired = true →
            s.ett_data_pool_.freshAlloc
              (s.ett_data_pool_.growth_ s.ett_data_pool_.Size) data = true := by
          intro hall
          cases hf : s.ett_data_pool_.freshAlloc
              (s.ett_data_pool_.growth_ s.ett_data_pool_.Size) data with
          | true => rfl
          | false => simp [hall, hf] at hcond
        obtain ⟨-, -, -, record, hrec, hzero⟩ :=
          create_record (P := fun r : EntityRecord n => ∀ i, r.mask i = false)
            (fun _ => rfl) hinv hinv2.free_zero hfresh hok
        have hm := h.1
        rw [maskBit_eq] at hm
        split at hm
        · simp only [hrec, Option.map_some', hzero, Option.some.injEq] at hm
          cases hm
        · cases hm
    | destroyEntity eid =>
      simp only [EMOp.entity, Option.some.injEq] at hE
      subst hE
      exfalso
      simp only [step] at hstep
      obtain ⟨⟨s0, calls⟩, hok, hs⟩ := toOption_map_some _ _ _ hstep
      simp only at hs
      subst hs
      obtain ⟨slot, s2, hslot, hrel, rfl⟩ := DestroyEntityImpl_ok hok
      have hm := h.1
      simp only [maskBit, lookup_mapErase_self] at hm
      cases hm
    | addComponent eid tid comp =>
      simp only [EMOp.entity, Option.some.injEq] at hE
      subst hE
      simp only [step] at hstep
      obtain ⟨⟨r0, s0, calls⟩, hok, hs⟩ := toOption_map_some _ _ _ hstep
      simp only at hs
      subst hs
      obtain ⟨-, -, h3, h4⟩ := add_effect hok
      by_cases ht : T = tid
      · subst ht
        left
        have := h.2
        rw [h3] at this
        injection this with this
        injection this with this
        rw [this]
      · right
        obtain ⟨hm, hte⟩ := h4 T ht
        refine ⟨by simp [EMOp.touches, Ne.symm ht], ?_, ?_⟩
        · rw [← hm]
          exact h.1
        · rw [← hte]
          exact h.2
    | removeComponent eid tid =>
      simp only [EMOp.entity, Option.some.injEq] at hE
      subst hE
      simp only [step] at hstep
      obtain ⟨⟨s0, calls⟩, hok, hs⟩ := toOption_map_some _ _ _ hstep
      simp only at hs
      subst hs
      obtain ⟨-, h2, h3, h4, -⟩ := remove_effect hok
      by_cases ht : T = tid
      · subst ht
        exfalso
        have := h.1
        rw [h2] at this
        cases this
      · right
        refine ⟨by simp [EMOp.touches, Ne.symm ht], ?_, ?_⟩
        · rw [← h3 T ht]
          exact h.1
        · rw [← h4 T]
          exact h.2
  · exact Or.inr ⟨touches_of_entity_ne op E T hE,
      h.of_recordOf (recordOf_frame hinv hstep E hE)⟩

end EntityManager

end internal
end einu

namespace einu
namespace internal

open util

namespace EntityManager

variable {n m : Nat}

theorem reach_step {s s1 : EntityManager n m} (hr : ∃ held, EMInv s held ∧ EMInv2 s)
    {op : EMOp} (hstep : s.step op = some s1) : ∃ held1, EMInv s1 held1 ∧ EMInv2 s1 := by
  obtain ⟨held, hinv, hinv2⟩ := hr
  obtain ⟨held1, hinv1⟩ := inv_step hinv op hstep
  exact ⟨held1, hinv1, sorted_step hinv2.sorted op hstep,
    freeSat_step (P := fun r : EntityRecord n => ∀ i, r.mask i = false) (fun _ => rfl) hinv
      hinv2.free_zero op (fun _ _ _ => rfl) hstep⟩

theorem recordAdd_of_touches (g : EID → XnentTypeID → Option Int) (op : EMOp) (E : EID)
    (T : XnentTypeID) (h : op.touches E T = false) : recordAdd g op E T = g E T := by
  cases op <;> try rfl
  case addComponent eid tid comp =>
    simp only [EMOp.touches, Bool.and_eq_false_imp, beq_iff_eq, beq_eq_false_iff_ne] at h
    simp only [recordAdd]
    split
    · next hc => exact absurd hc.2 (h hc.1.symm).symm
    · rfl

/-- In the states reached by a call sequence, the table slot of every set mask bit holds
the reference returned by the most recent `AddComponent` for that entity and type. -/
theorem lastAdded_run (ops : List EMOp) {s s1 : EntityManager n m}
    {g : EID → XnentTypeID → Option Int} (hr : ∃ held, EMInv s held ∧ EMInv2 s)
    (hg : ∀ E T r, s.Attached E T r → g E T = some r) (hrun : s.run ops = some s1) :
    ∀ E T r, s1.Attached E T r → lastAdded g ops E T = some r := by
  induction ops generalizing s g with
  | nil =>
    simp only [run, Option.some.injEq] at hrun
    subst hrun
    exact hg
  | cons op ops ih =>
    simp only [run] at hrun
    split at hrun
    · cases hrun
    · next s0 hstep =>
      obtain ⟨held, hinv, hinv2⟩ := hr
      refine ih (reach_step ⟨held, hinv, hinv2⟩ hstep) ?_ hrun
      intro E T r hatt
      rcases attached_step hinv hinv2 hstep hatt with rfl | ⟨ht, hold⟩
      · simp only [recordAdd, and_self, if_true]
      · rw [recordAdd_of_touches g op E T ht]
        exact hg E T r hold

end EntityManager

end internal
end einu

namespace einu
namespace internal

open util

namespace EntityManager

variable {n m : Nat}

end EntityManager

end internal
end einu

namespace einu
namespace internal

open util

namespace EntityManager

variable {n m : Nat}

theorem attached_of_maskBit {s : EntityManager n m} {held : List Int} (hinv : EMInv s held)
    {E : EID} {T : XnentTypeID} (hbit : s.maskBit E T = some true) :
    ∃ r, s.Attached E T r ∧ s.GetComponentImpl E T = .ok r := by
  have hbit0 := hbit
  unfold maskBit at hbit
  cases hl : s.ett_table_.lookup E with
  | none => simp [hl] at hbit
  | some slot =>
    simp only [hl] at hbit
    by_cases ht : T < n
    · simp only [ht, dif_pos] at hbit
      cases hrec : s.ett_data_pool_.readAt slot with
      | none => simp [hrec] at hbit
      | some record =>
        simp only [hrec, Option.map_some', Option.some.injEq] at hbit
        have hgood := inv_read_good hinv hrec ⟨T, ht⟩ hbit
        cases hc : record.comp_table ⟨T, ht⟩ with
        | none => exact absurd hc hgood
        | some c =>
          refine ⟨c, ⟨hbit0, ?_⟩, ?_⟩
          · simp only [tableEntry, hl, ht, dif_pos, hrec, Option.map_some', hc]
          · simp only [GetComponentImpl, hl, ht, dif_pos, hrec, hbit, if_true, hc]
    · simp [ht] at hbit

theorem not_attached_new (n m : Nat) (E : EID) (T : XnentTypeID) (r : Int) :
    ¬ (EntityManager.new n m).Attached E T r := by
  intro h
  have := h.1
  simp [maskBit, EntityManager.new] at this

end EntityManager

end internal
end einu

namespace einu
namespace internal

open util

/-- Why the precondition of `RemoveComponent` is assumed for the part of C22 about
releases: the code does not check it.  Entity 2 lives on the record recycled from entity 1,
whose slot 0 still holds the reference 500; the component pool has handed 500 out again, to
entity 3.  `RemoveComponent(2, 0)`, called although bit 0 of entity 2 is clear, returns
normally and releases 500, which entity 3 still holds under a set bit. -/
theorem EntityManager.unchecked_remove_releases_attached :
    ∃ s calls, (EntityManager.new 2 1).trace
        [.setEIDPool, .setComponentPool, .createEntity 1 100, .addComponent 1 0 500,
          .destroyEntity 1, .createEntity 2 0, .createEntity 3 200, .addComponent 3 0 500,
          .removeComponent 2 0] = some (s, calls) ∧
      EntityManager.legal (EntityManager.new 2 1) []
        [.setEIDPool, .setComponentPool, .createEntity 1 100, .addComponent 1 0 500,
          .destroyEntity 1, .createEntity 2 0, .createEntity 3 200, .addComponent 3 0 500,
          .removeComponent 2 0] = false ∧
      calls = [.eidAcquire 1, .compAcquire 0 500, .compRelease 0 500, .eidRelease 1,
        .eidAcquire 2, .eidAcquire 3, .compAcquire 0 500, .compRelease 0 500] ∧
      s.maskBit 3 0 = some true ∧ s.GetComponentImpl 3 0 = .ok 500 ∧
      (0, 500) ∉ EntityManager.outstanding calls :=
  ⟨_, _, rfl, rfl, rfl, rfl, rfl, by decide⟩

end internal
end einu

namespace einu
namespace internal

open util

namespace EntityManager

variable {n m : Nat}

/-- With the component pool set, `RemoveComponent(E, T)` on a set bit returns normally: it
releases the slot-table entry of `T` to the component pool and clears the bit. -/
theorem RemoveComponentImpl_succeeds {s : EntityManager n m} {held : List Int}
    (hinv : EMInv s held) (hcp : s.comp_pool_ = true) {E : EID} {T : XnentTypeID}
    (hbit : s.maskBit E T = some true) :
    ∃ s1 comp, s.RemoveComponentImpl E T = .ok (s1, [.compRelease T comp]) ∧
      s.tableEntry E T = some (some comp) ∧ s1.maskBit E T = some false := by
  unfold maskBit at hbit
  cases hl : s.ett_table_.lookup E with
  | none => simp [hl] at hbit
  | some slot =>
    simp only [hl] at hbit
    by_cases ht : T < n
    · simp only [ht, dif_pos] at hbit
      cases hrec : s.ett_data_pool_.readAt slot with
      | none => simp [hrec] at hbit
      | some record =>
        simp only [hrec, Option.map_some', Option.some.injEq] at hbit
        have hgood := inv_read_good hinv hrec ⟨T, ht⟩ hbit
        cases hc : record.comp_table ⟨T, ht⟩ with
        | none => exact absurd hc hgood
        | some c =>
          obtain ⟨-, hw⟩ := live_record hinv hl
          obtain ⟨pool, hpool⟩ := hw
            { record with mask := fun i => if i.val = T then false else record.mask i }
          have hok : s.RemoveComponentImpl E T =
              .ok ({ s with ett_data_pool_ := pool }, [.compRelease T c]) := by
            simp only [RemoveComponentImpl, hl, ht, dif_pos, hrec, hc, hcp, Bool.not_true,
              Bool.false_eq_true, if_false, hpool]
          refine ⟨_, c, hok, ?_, (remove_effect hok).2.1⟩
          simp only [tableEntry, hl, ht, dif_pos, hrec, Option.map_some', hc]
    · simp [ht] at hbit

/-- No call unsets the component pool, and `AddComponent` returns normally only when it is
set. -/
theorem comp_pool_step {s s1 : EntityManager n m} {op : EMOp} (hstep : s.step op = some s1)
    (h : s.comp_pool_ = true ∨ ∃ e t c, op = .addComponent e t c) : s1.comp_pool_ = true := by
  cases op with
  | setEIDPool =>
    simp only [step, SetEIDPoolImpl] at hstep
    split at hstep
    · cases hstep
    · simp only [Except.toOption, Option.some.injEq] at hstep
      subst hstep
      rcases h with h | ⟨e, t, c, h⟩
      · exact h
      · cases h
  | setComponentPool =>
    simp only [step, SetComponentPoolImpl] at hstep
    split at hstep
    · cases hstep
    · simp only [Except.toOption, Option.some.injEq] at hstep
      subst hstep
      rfl
  | setSinglenentPool =>
    simp only [step, SetSinglenentPoolImpl] at hstep
    split at hstep
    · cases hstep
    · simp only [Except.toOption, Option.some.injEq] at hstep
      subst hstep
      rcases h with h | ⟨e, t, c, h⟩
      · exact h
      · cases h
  | setPolicy g k data =>
    simp only [step] at hstep
    split at hstep
    · injection hstep with hstep
      subst hstep
      rcases h with h | ⟨e, t, c, h⟩
      · exact h
      · cases h
    · cases hstep
  | createEntity eid data =>
    simp only [step] at hstep
    split at hstep
    · cases hstep
    · obtain ⟨⟨r, s0, calls⟩, hok, hs⟩ := toOption_map_some _ _ _ hstep
      simp only at hs
      subst hs
      obtain ⟨tup, pool, -, -, rfl, -, -⟩ := CreateEntityImpl_ok hok
      rcases h with h | ⟨e, t, c, h⟩
      · exact h
      · cases h
  | destroyEntity eid =>
    simp only [step] at hstep
    obtain ⟨⟨s0, calls⟩, hok, hs⟩ := toOption_map_some _ _ _ hstep
    simp only at hs
    subst hs
    obtain ⟨slot, s2, -, hrel, rfl⟩ := DestroyEntityImpl_ok hok
    obtain ⟨record, calls0, pool1, pool2, -, -, -, -, -, rfl, -⟩ := ReleaseEntity_ok hrel
    rcases h with h | ⟨e, t, c, h⟩
    · exact h
    · cases h
  | addComponent eid tid comp =>
    simp only [step] at hstep
    obtain ⟨⟨r, s0, calls⟩, hok, hs⟩ := toOption_map_some _ _ _ hstep
    simp only at hs
    subst hs
    obtain ⟨slot, record, pool, -, -, hcp, -, -, rfl, -, -⟩ := AddComponentImpl_ok hok
    exact hcp
  | removeComponent eid tid =>
    simp only [step] at hstep
    obtain ⟨⟨s0, calls⟩, hok, hs⟩ := toOption_map_some _ _ _ hstep
    simp only at hs
    subst hs
    obtain ⟨slot, record, pool, comp, ht, -, hcp, -, -, -, rfl, -⟩ :=
      RemoveComponentImpl_ok hok
    exact hcp
  | addSinglenent tid comp =>
    simp only [step] at hstep
    obtain ⟨⟨r, s0, calls⟩, hok, hs⟩ := toOption_map_some _ _ _ hstep
    simp only at hs
    subst hs
    unfold AddSinglenentImpl at hok
    split at hok
    · split at hok
      · cases hok
      · split at hok
        · cases hok
        · injection hok with hok
          injection hok with h1 h2
          injection h2 with h2 h3
          subst h2
          rcases h with h | ⟨e, t, c, h⟩
          · exact h
          · cases h
    · cases hok
  | removeSinglenent tid =>
    simp only [step] at hstep
    obtain ⟨⟨s0, calls⟩, hok, hs⟩ := toOption_map_some _ _ _ hstep
    simp only at hs
    subst hs
    unfold RemoveSinglenentImpl at hok
    split at hok
    · split at hok
      · cases hok
      · split at hok
        · cases hok
        · injection hok with hok
          injection hok with h1 h2
          subst h1
          rcases h with h | ⟨e, t, c, h⟩
          · exact h
          · cases h
    · cases hok

theorem recordAdd_isSome (g : EID → XnentTypeID → Option Int) (op : EMOp) (E : EID)
    (T : XnentTypeID) (h : (recordAdd g op E T).isSome = true) :
    (g E T).isSome = true ∨ ∃ e t c, op = .addComponent e t c := by
  cases op <;> try exact Or.inl h
  case addComponent eid tid comp => exact Or.inr ⟨eid, tid, comp, rfl⟩

/-- When the call sequence contains an `AddComponent`, the component pool is set in the
state it reaches. -/
theorem comp_pool_of_lastAdded (ops : List EMOp) {s0 s : EntityManager n m}
    {g : EID → XnentTypeID → Option Int}
    (hg : (∃ E T, (g E T).isSome = true) → s0.comp_pool_ = true)
    (hrun : s0.run ops = some s) :
    (∃ E T, (lastAdded g ops E T).isSome = true) → s.comp_pool_ = true := by
  induction ops generalizing s0 g with
  | nil =>
    simp only [run, Option.some.injEq] at hrun
    subst hrun
    exact hg
  | cons op ops ih =>
    simp only [run] at hrun
    split at hrun
    · cases hrun
    · next s1 hstep =>
      refine ih ?_ hrun
      rintro ⟨E, T, h⟩
      rcases recordAdd_isSome g op E T h with h | h
      · exact comp_pool_step hstep (Or.inl (hg ⟨E, T, h⟩))
      · exact comp_pool_step hstep (Or.inr h)

/-- In a reachable state a set mask bit implies that the component pool is set. -/
theorem comp_pool_of_maskBit (ops : List EMOp) {s : EntityManager n m}
    (hrun : (EntityManager.new n m).run ops = some s) {E : EID} {T : XnentTypeID}
    (hbit : s.maskBit E T = some true) : s.comp_pool_ = true := by
  obtain ⟨held, hinv, hinv2⟩ := reachable_inv ops hrun
  obtain ⟨r, hatt, -⟩ := attached_of_maskBit hinv hbit
  have hlast : lastAdded (fun _ _ => none) ops E T = some r :=
    lastAdded_run ops (reachable_inv [] rfl)
      (fun E T r h => absurd h (not_attached_new n m E T r)) hrun E T r hatt
  refine comp_pool_of_lastAdded ops ?_ hrun ⟨E, T, by rw [hlast]; rfl⟩
  rintro ⟨E2, T2, h⟩
  cases h

end EntityManager

end internal
end einu

namespace einu
namespace internal

open util

/-- C9. Component presence and frame: in every state reached from a default-constructed
entity manager by calls that return normally, a successful `AddComponent(E, T)` leaves the
mask bit `T` of `E` set and a successful `RemoveComponent(E, T)` leaves it clear (also right
after that `AddComponent`); each of the two leaves the mask bits and slot-table entries of
every other type `U != T` of `E`, the entity table, and the record (mask and slot table) of
every other entity unchanged.  `AddComponent(E, T)` returns normally for every live `E` and
every type index `T` once the component pool is set.  `RemoveComponent(E, T)` returns
normally whenever bit `T` of `E` is set, in particular right after `AddComponent(E, T)`: it
releases the reference held in slot `T` (after that `AddComponent`, the one it returned) and
leaves the bit clear. -/
theorem EntityManager.component_presence_and_frame (n m : Nat) (ops : List EMOp)
    (s : EntityManager n m) (hrun : (EntityManager.new n m).run ops = some s)
    (eid : EID) (tid : XnentTypeID) :
    (∀ comp r s1 calls, s.AddComponentImpl eid tid comp = .ok (r, s1, calls) →
      s1.maskBit eid tid = some true ∧
        (∀ u, u ≠ tid → s1.maskBit eid u = s.maskBit eid u ∧
          s1.tableEntry eid u = s.tableEntry eid u) ∧
        (∀ e, e ≠ eid → s1.recordOf e = s.recordOf e) ∧ s1.ett_table_ = s.ett_table_ ∧
        (∃ s2, s1.RemoveComponentImpl eid tid = .ok (s2, [.compRelease tid r]) ∧
          s2.maskBit eid tid = some false) ∧
        ∀ s2 calls2, s1.RemoveComponentImpl eid tid = .ok (s2, calls2) →
          s2.maskBit eid tid = some false) ∧
      (∀ s1 calls, s.RemoveComponentImpl eid tid = .ok (s1, calls) →
        s1.maskBit eid tid = some false ∧
          (∀ u, u ≠ tid → s1.maskBit eid u = s.maskBit eid u ∧
            s1.tableEntry eid u = s.tableEntry eid u) ∧
          (∀ e, e ≠ eid → s1.recordOf e = s.recordOf e) ∧ s1.ett_table_ = s.ett_table_) ∧
      (s.ContainsEntityImpl eid = true → tid < n → s.comp_pool_ = true →
        ∀ comp, ∃ s1 calls, s.AddComponentImpl eid tid comp = .ok (comp, s1, calls)) ∧
      (s.maskBit eid tid = some true →
        ∃ s1 comp, s.RemoveComponentImpl eid tid = .ok (s1, [.compRelease tid comp]) ∧
          s.tableEntry eid tid = some (some comp) ∧ s1.maskBit eid tid = some false) := by
  obtain ⟨held, hinv⟩ := EntityManager.inv_run ops (EntityManager.inv_new n m) hrun
  refine ⟨?_, ?_, ?_, ?_⟩
  · intro comp r s1 calls h
    obtain ⟨h1, h2, h3, h4⟩ := EntityManager.add_effect h
    obtain ⟨slot, record, pool, hslot, -, hcp, hrec, hw, rfl, hr, -⟩ :=
      EntityManager.AddComponentImpl_ok h
    refine ⟨h2, h4, fun e he => EntityManager.frame_write hinv hslot hw e he, h1, ?_, ?_⟩
    · have hinv1 : EMInv ({ s with ett_data_pool_ := pool } : EntityManager n m) held :=
        EntityManager.inv_write hinv hw (fun i hi => by
          by_cases hit : i.val = tid
          · simp [hit]
          · simp only [hit, if_false] at hi ⊢
            exact EntityManager.inv_read_good hinv hrec i hi)
      obtain ⟨s2, c, hok, hte, hclear⟩ :=
        EntityManager.RemoveComponentImpl_succeeds hinv1 hcp h2
      rw [h3] at hte
      injection hte with hte
      injection hte with hte
      subst hr
      rw [hte]
      exact ⟨s2, hok, hclear⟩
    · intro s2 calls2 h2r
      exact (EntityManager.remove_effect h2r).2.1
  · intro s1 calls h
    obtain ⟨h1, h2, h3, h4, -⟩ := EntityManager.remove_effect h
    obtain ⟨slot, record, pool, comp, ht, hslot, -, -, -, hw, rfl, -⟩ :=
      EntityManager.RemoveComponentImpl_ok h
    exact ⟨h2, fun u hu => ⟨h3 u hu, h4 u⟩,
      fun e he => EntityManager.frame_write hinv hslot hw e he, h1⟩
  · intro hlive ht hcp comp
    unfold EntityManager.ContainsEntityImpl at hlive
    cases hslot : s.ett_table_.lookup eid with
    | none => simp [hslot] at hlive
    | some slot =>
      obtain ⟨⟨record, hrec⟩, hw⟩ := EntityManager.live_record hinv hslot
      obtain ⟨pool, hpool⟩ := hw
        { mask := fun i => if i.val = tid then true else record.mask i,
          comp_table := fun i => if i.val = tid then some comp else record.comp_table i }
      refine ⟨{ s with ett_data_pool_ := pool }, [.compAcquire tid comp], ?_⟩
      simp only [EntityManager.AddComponentImpl, hslot, hcp, Bool.not_true, Bool.false_eq_true,
        if_false, ht, if_true, hrec, hpool]
  · intro hbit
    exact EntityManager.RemoveComponentImpl_succeeds hinv
      (EntityManager.comp_pool_of_maskBit ops hrun hbit) hbit

theorem EntityManager.component_presence_and_frame_witness :
    (EntityManager.new 2 1).run [.setEIDPool, .setComponentPool, .createEntity 7 100] =
        some exOneEntity ∧
      ((∀ comp r s1 calls, exOneEntity.AddComponentImpl 7 0 comp = .ok (r, s1, calls) →
        s1.maskBit 7 0 = some true ∧
          (∀ u, u ≠ 0 → s1.maskBit 7 u = exOneEntity.maskBit 7 u ∧
            s1.tableEntry 7 u = exOneEntity.tableEntry 7 u) ∧
          (∀ e, e ≠ 7 → s1.recordOf e = exOneEntity.recordOf e) ∧
          s1.ett_table_ = exOneEntity.ett_table_ ∧
          (∃ s2, s1.RemoveComponentImpl 7 0 = .ok (s2, [.compRelease 0 r]) ∧
            s2.maskBit 7 0 = some false) ∧
          ∀ s2 calls2, s1.RemoveComponentImpl 7 0 = .ok (s2, calls2) →
            s2.maskBit 7 0 = some false) ∧
      (∀ s1 calls, exOneEntity.RemoveComponentImpl 7 0 = .ok (s1, calls) →
        s1.maskBit 7 0 = some false ∧
          (∀ u, u ≠ 0 → s1.maskBit 7 u = exOneEntity.maskBit 7 u ∧
            s1.tableEntry 7 u = exOneEntity.tableEntry 7 u) ∧
          (∀ e, e ≠ 7 → s1.recordOf e = exOneEntity.recordOf e) ∧
          s1.ett_table_ = exOneEntity.ett_table_) ∧
      (exOneEntity.ContainsEntityImpl 7 = true → 0 < 2 → exOneEntity.comp_pool_ = true →
        ∀ comp, ∃ s1 calls, exOneEntity.AddComponentImpl 7 0 comp = .ok (comp, s1, calls)) ∧
      (exOneEntity.maskBit 7 0 = some true →
        ∃ s1 comp, exOneEntity.RemoveComponentImpl 7 0 = .ok (s1, [.compRelease 0 comp]) ∧
          exOneEntity.tableEntry 7 0 = some (some comp) ∧ s1.maskBit 7 0 = some false)) ∧
      exOneEntity.AddComponentImpl 7 0 500 = .ok (500, exWithComponent, [.compAcquire 0 500]) ∧
      exWithComponent.maskBit 7 0 = some true ∧
      ∃ s2, exWithComponent.RemoveComponentImpl 7 0 = .ok (s2, [.compRelease 0 500]) ∧
        s2.maskBit 7 0 = some false :=
  ⟨rfl, EntityManager.component_presence_and_frame 2 1
    [.setEIDPool, .setComponentPool, .createEntity 7 100] exOneEntity rfl 7 0,
    rfl, rfl, _, rfl, rfl⟩

end internal
end einu

namespace einu
namespace util

/-- C7 (code at the failing input). A pool constructed with count 1 and the default growth
holds two references after two `Acquire` calls; the second sub-pool lies `2 ^ 32` elements
above the first.  `Release` of the held reference `2 ^ 32`, which sub-pool 1 owns, does not
return normally: its scan stops at sub-pool 0, whose `Has` accepts the reference, and the
bitmap of that sub-pool is indexed out of range.  The releases that the claim starts from
cannot be made, so no storage is given back for the following `Acquire`. -/
theorem DynamicPool.held_release_fails_far_apart :
    DynamicPool.run ((DynamicPool.new 1 (none : Option Unit) DefaultGrowth 0), [])
        [.acquire 0, .acquire 4294967296] = some (exFarApart, [4294967296, 0]) ∧
      (4294967296 : Int) ∈ ([4294967296, 0] : List Int) ∧
      ([4294967296] : List Int).Nodup ∧
      exFarApart.locate 4294967296 = some (1, 0) ∧
      (exFarApart.pools_.map fun pool => pool.Has 4294967296) = [true, true] ∧
      exFarApart.Release 4294967296 = .error .outOfRange ∧
      DynamicPool.run (exFarApart, [4294967296, 0])
        (([4294967296] : List Int).map DynOp.release) = none :=
  ⟨rfl, by decide, by decide, by decide, by decide, rfl, rfl⟩

end util

namespace internal

open util

/-- C12 (code at the failing input). An entity manager with its pools set and two live
entities whose records lie in two sub-pools `2 ^ 32` elements apart.  `DestroyEntity(2)`
does not return normally: the release of the record of entity 2 stops its scan at sub-pool
0, whose `Has` accepts the record although sub-pool 1 owns it, and indexes the bitmap of
sub-pool 0 out of range; the record is not released in the sub-pool that owns it. -/
theorem EntityManager.destroy_fails_on_far_record :
    (EntityManager.new 1 1).run
        [.setEIDPool, .setComponentPool, .setSinglenentPool, .createEntity 1 0,
          .createEntity 2 4294967296] = some exFarRecords ∧
      exFarRecords.ContainsEntityImpl 2 = true ∧
      exFarRecords.eid_pool_ = true ∧ exFarRecords.comp_pool_ = true ∧
      exFarRecords.ett_table_ = [(1, 0), (2, 4294967296)] ∧
      exFarRecords.ett_data_pool_.locate 4294967296 = some (1, 0) ∧
      find_if (fun pool : FixedPool (EntityRecord 1) => pool.Has 4294967296)
        exFarRecords.ett_data_pool_.pools_ = some 0 ∧
      exFarRecords.DestroyEntityImpl 2 = .error (.pool .outOfRange) ∧
      exFarRecords.step (.destroyEntity 2) = none :=
  ⟨rfl, rfl, rfl, rfl, rfl, by decide, by decide, rfl, rfl⟩

/-- C18 (code at the failing input). An entity manager with its three pools set and two live
entities whose records lie in two sub-pools `2 ^ 32` elements apart.  `Reset()` does not
return normally: it releases entity 1, and the release of the record of entity 2 stops its
scan at sub-pool 0, whose `Has` accepts the record although sub-pool 1 owns it, and indexes
the bitmap of sub-pool 0 out of range.  The just-constructed state is not reached. -/
theorem EntityManager.reset_fails_on_far_record :
    (EntityManager.new 1 1).run
        [.setEIDPool, .setComponentPool, .setSinglenentPool, .createEntity 1 0,
          .createEntity 2 4294967296] = some exFarRecords ∧
      exFarRecords.eid_pool_ = true ∧ exFarRecords.comp_pool_ = true ∧
      exFarRecords.singlenent_pool_ = true ∧
      exFarRecords.ContainsEntityImpl 1 = true ∧ exFarRecords.ContainsEntityImpl 2 = true ∧
      (∃ s1 calls, exFarRecords.ReleaseEntity 1 0 = .ok (s1, calls) ∧
        s1.ReleaseEntity 2 4294967296 = .error (.pool .outOfRange)) ∧
      exFarRecords.ResetImpl = .error (.pool .outOfRange) :=
  ⟨rfl, rfl, rfl, rfl, rfl, rfl, ⟨_, _, rfl, rfl⟩, rfl⟩

end internal
end einu
